import Mathlib

/-!
# Verification of the tinygrad lazy-evaluation / fusion-scheduling core

Shallow embedding of `tinygrad/lazy.py`.  Python object identity and mutation
are modelled with an arena: every `LazyBuffer` object is a slot in a list of
node records, and object references are indices (`Nat`) into that list.
Mutation (assigning the materialized result, registering consumers) is
explicit state passing on the arena.  Python `assert` failures and attribute
errors are modelled with `Option` (`none` = the source raises).

External collaborators (the view algebra `ShapeTracker`, the backend, raw
buffers) are not part of the source under verification; the parts of their
behaviour the core depends on are modelled from the spec where indicated.
-/

/-! ## Preliminaries -/

/-- `tinygrad.helpers.dedup`: `list(dict.fromkeys(x))`, i.e. deduplication
keeping the first occurrence of each element, preserving order. -/
def pydedup {α : Type} [DecidableEq α] (l : List α) : List α :=
  l.foldl (fun acc x => if x ∈ acc then acc else acc ++ [x]) []

/-! ## Opcodes (`tinygrad.ops`)

The opcode enums.  The exact member lists of the elementwise enums are not in
the source under `src/`; the members referenced by `lazy.py` (`NOOP`, `CAST`)
are included, together with representative elementwise members (modelled from
the spec, §3: Unary/Binary/Ternary are "pure elementwise" categories). -/

inductive UnaryOps where
  | NOOP | CAST | NEG | EXP2 | LOG2 | SIN | SQRT
deriving DecidableEq

inductive BinaryOps where
  | ADD | SUB | MUL | DIV | MAX | CMPLT
deriving DecidableEq

inductive TernaryOps where
  | MULACC | WHERE
deriving DecidableEq

inductive ReduceOps where
  | SUM | MAX
deriving DecidableEq

inductive LoadOps where
  | EMPTY | RAND | CONST | FROM | CONTIGUOUS | CUSTOM
deriving DecidableEq

inductive BufferOps where
  | MEM | CONST
deriving DecidableEq

/-- The union of all opcode enums (a Python `LazyOp.op` value). -/
inductive OpType where
  | unary (u : UnaryOps)
  | binary (b : BinaryOps)
  | ternary (t : TernaryOps)
  | reduce (r : ReduceOps)
  | load (l : LoadOps)
  | buffer (b : BufferOps)
deriving DecidableEq

/-- `ElementwiseOps = {*UnaryOps, *BinaryOps, *TernaryOps}` (lazy.py line 6). -/
def OpType.isElementwise : OpType → Bool
  | .unary _ => true
  | .binary _ => true
  | .ternary _ => true
  | _ => false

/-- membership test `op in ReduceOps`. -/
def OpType.isReduce : OpType → Bool
  | .reduce _ => true
  | _ => false

/-- membership test `op in LoadOps`. -/
def OpType.isLoad : OpType → Bool
  | .load _ => true
  | _ => false

/-! ## Shapes and the view algebra

Shape dimensions are `sint = int | symbolic node` in the source
(`tinygrad.shape.symbolic`); modelled as a literal/variable sum.  The
`ShapeTracker` view algebra is an external collaborator (spec §1, §6); the
record below carries exactly the attributes `lazy.py` consumes (`shape`,
`contiguous`, `size()`, `real_strides()`), and its operations are modelled
from the spec's view-algebra contract (§6). -/

inductive SInt where
  | lit (n : Nat)
  | var (id : Nat)
deriving DecidableEq

/-- The numeric value of a fully-known dimension (junk 0 on a symbolic one;
only consumed behind `all_int` guards in the source). -/
def SInt.toNat : SInt → Nat
  | .lit n => n
  | .var _ => 0

/-- `tinygrad.helpers.all_int`. -/
def allInt (l : List SInt) : Bool :=
  l.all fun s => match s with
    | .lit _ => true
    | .var _ => false

def natsOf (l : List SInt) : List Nat := l.map SInt.toNat

/-- Modelled from the spec (§6, view-algebra contract): an immutable view
description carrying the attributes the core reads. -/
structure ShapeTracker where
  shape : List SInt
  contiguous : Bool
  sizeV : Nat
  realStrides : List (Option Int)
deriving DecidableEq

instance : Inhabited ShapeTracker := ⟨⟨[], true, 0, []⟩⟩

/-- Modelled from the spec: canonical row-major strides of a freshly shaped
contiguous view (`realStrides` of `ShapeTracker.from_shape`). -/
def canonStrides (s : List Nat) : List (Option Int) :=
  (List.range s.length).map fun i => some ((s.drop (i+1)).prod : Int)

/-- `ShapeTracker.from_shape`: the default contiguous view over a shape. -/
def ShapeTracker.from_shape (s : List SInt) : ShapeTracker :=
  ⟨s, true, (natsOf s).prod, canonStrides (natsOf s)⟩

/-- Modelled from the spec (§6): `reshape(view, arg) -> view`.  A reshape to
the current shape yields an equal view (spec §8, property C); otherwise a view
with the new shape over the same store. -/
def ShapeTracker.reshape (st : ShapeTracker) (arg : List SInt) : ShapeTracker :=
  if arg = st.shape then st
  else ⟨arg, st.contiguous, st.sizeV, canonStrides (natsOf arg)⟩

/-- Modelled from the spec (§6): `permute(view, arg) -> view`. -/
def ShapeTracker.permute (st : ShapeTracker) (arg : List Nat) : ShapeTracker :=
  if arg = List.range st.shape.length then st
  else ⟨arg.map (fun p => st.shape.getD p (.lit 0)), false, st.sizeV,
        arg.map (fun p => st.realStrides.getD p none)⟩

/-- Modelled from the spec (§6): `shrink(view, arg) -> view`. -/
def ShapeTracker.shrink (st : ShapeTracker) (arg : List (Nat × Nat)) : ShapeTracker :=
  if arg = st.shape.map (fun s => (0, s.toNat)) then st
  else ⟨arg.map (fun p => .lit (p.2 - p.1)), false,
        (arg.map (fun p => p.2 - p.1)).prod, st.realStrides⟩

/-- Modelled from the spec (§6): `stride(view, arg) -> view`. -/
def ShapeTracker.stride (st : ShapeTracker) (arg : List Int) : ShapeTracker :=
  if arg = List.replicate st.shape.length 1 then st
  else ⟨(st.shape.zip arg).map (fun p => .lit ((p.1.toNat + p.2.natAbs - 1) / p.2.natAbs)),
        false, st.sizeV,
        (st.realStrides.zip arg).map (fun p => p.1.map (· * p.2))⟩

/-- Modelled from the spec (§6): `expand(view, arg) -> view` (broadcast). -/
def ShapeTracker.expand (st : ShapeTracker) (arg : List SInt) : ShapeTracker :=
  if arg = st.shape then st
  else ⟨arg, false, st.sizeV,
        (st.shape.zip st.realStrides).map (fun p => if p.1 = .lit 1 then some 0 else p.2)⟩

/-- Modelled from the spec (§6): `pad(view, arg) -> view`. -/
def ShapeTracker.pad (st : ShapeTracker) (arg : List (Nat × Nat)) : ShapeTracker :=
  if arg = List.replicate st.shape.length (0, 0) then st
  else ⟨(st.shape.zip arg).map (fun p => .lit (p.1.toNat + p.2.1 + p.2.2)), false,
        st.sizeV, st.realStrides⟩

/-- `size()`. -/
def ShapeTracker.size (st : ShapeTracker) : Nat := st.sizeV

/-- Modelled from the spec (§6): `simplify() -> view` canonicalizes a view for
backend consumption; the identity canonical form is used here. -/
def ShapeTracker.simplify (st : ShapeTracker) : ShapeTracker := st

/-! ## Operation trees (`tinygrad.ops.LazyOp`)

A `LazyOp` is an opcode, an ordered source tuple whose elements are `LazyOp`s
or `LazyBuffer`s (buffer references appear as `buf` leaves carrying the arena
index), and a static argument.  A mutual source-list type is used so that all
recursions stay structural. -/

structure MemBuffer where
  idx : Nat
  dtype : Nat
  st : ShapeTracker
deriving DecidableEq

structure ConstBuffer where
  val : Int
  dtype : Nat
  st : ShapeTracker
deriving DecidableEq

/-- A `LazyOp.arg` payload. -/
inductive OpArg where
  | none
  | shape (s : List SInt)
  | val (v : Int)
  | mem (m : MemBuffer)
  | cbuf (c : ConstBuffer)
  | castArg (dtype : Nat) (bitcast : Bool)
deriving DecidableEq

mutual
inductive LazyOp where
  | buf (i : Nat)
  | node (op : OpType) (src : LOList) (arg : OpArg)
deriving DecidableEq
inductive LOList where
  | nil
  | cons (hd : LazyOp) (tl : LOList)
deriving DecidableEq
end

def LOList.ofList : List LazyOp → LOList
  | [] => .nil
  | h :: t => .cons h (ofList t)

def LOList.toList : LOList → List LazyOp
  | .nil => []
  | .cons h t => h :: t.toList

mutual
/-- `LazyOp.buffers`: the leaf `LazyBuffer`s reachable from the tree, in
depth-first source order (with duplicates, as in the source). -/
def LazyOp.buffers : LazyOp → List Nat
  | .buf i => [i]
  | .node _ src _ => src.buffersL
def LOList.buffersL : LOList → List Nat
  | .nil => []
  | .cons h t => h.buffers ++ t.buffersL
end

mutual
/-- `LazyOp.map_buffers` / `LazyBuffer.map_buffers`: substitute every leaf
buffer present in the mapping (identity for absent keys, lazy.py line 164). -/
def LazyOp.map_buffers (m : Nat → Option LazyOp) : LazyOp → LazyOp
  | .buf i => (m i).getD (.buf i)
  | .node o src a => .node o (src.mapL m) a
def LOList.mapL (m : Nat → Option LazyOp) : LOList → LOList
  | .nil => .nil
  | .cons h t => .cons (h.map_buffers m) (t.mapL m)
end

/-- The opcode of a stored operation node (`op.op`); `none` models the
attribute error of taking `.op` of a bare buffer reference. -/
def LazyOp.opc : LazyOp → Option OpType
  | .buf _ => Option.none
  | .node o _ _ => some o

def LazyOp.srcL : LazyOp → LOList
  | .buf _ => .nil
  | .node _ s _ => s

def LazyOp.argOf : LazyOp → OpArg
  | .buf _ => .none
  | .node _ _ a => a

/-! ## Optimization flags (lazy.py lines 17–19, `OPT` defaults to 2) -/

def OPT : Nat := 2
def MERGE_ELEMENTWISE_INTO_REDUCE : Bool := decide (1 ≤ OPT)
def MERGE_ELEMENTWISE_OPS : Bool := decide (1 ≤ OPT)
def MERGE_ONE_REDUCE_INTO_ELEMENTWISE : Bool := decide (2 ≤ OPT)

/-! ## The buffer graph (`LazyBuffer` nodes in an arena) -/

/-- One `LazyBuffer` object.  `base` is the arena index of the owning base
(itself for a base).  `op` is the `_op` attribute (only a base created with an
operation has it), `realized` the `_realized` slot (a raw-buffer token),
`children` the `_children` weak set (as an insertion-ordered deduplicated id
list; no collection happens in the model). -/
structure LazyBuffer where
  st : ShapeTracker
  dtype : Nat
  device : String
  base : Nat
  op : Option LazyOp
  realized : Option Nat
  children : List Nat
deriving DecidableEq

instance : Inhabited LazyBuffer := ⟨⟨default, 0, "", 0, Option.none, Option.none, []⟩⟩

/-- The heap of `LazyBuffer` objects; indices are object references. -/
structure Arena where
  nodes : List LazyBuffer
deriving DecidableEq

def Arena.empty : Arena := ⟨[]⟩

def Arena.len (a : Arena) : Nat := a.nodes.length

def Arena.get (a : Arena) (i : Nat) : LazyBuffer := a.nodes.getD i default

def Arena.modifyAt (a : Arena) (i : Nat) (f : LazyBuffer → LazyBuffer) : Arena :=
  ⟨a.nodes.set i (f (a.get i))⟩

/-- `self.base` (the owning base's index; itself for a base). -/
def Arena.baseOf (a : Arena) (i : Nat) : Nat := (a.get i).base

/-- property `op` (lazy.py line 92): reads through the base. -/
def Arena.opOf (a : Arena) (i : Nat) : Option LazyOp := (a.get (a.baseOf i)).op

/-- property `realized` (line 94): reads through the base. -/
def Arena.realizedOf (a : Arena) (i : Nat) : Option Nat := (a.get (a.baseOf i)).realized

/-- property `children` (line 100): reads through the base. -/
def Arena.childrenOf (a : Arena) (i : Nat) : List Nat := (a.get (a.baseOf i)).children

def Arena.shapeOf (a : Arena) (i : Nat) : List SInt := (a.get i).st.shape

/-- `realized` setter (lines 95–98): `assert self.base == self, "must be a
base"`, then assign `_realized`.  `none` models the assertion failure on a
view node. -/
def Arena.setRealized (a : Arena) (i : Nat) (v : Nat) : Option Arena :=
  if a.baseOf i = i then some (a.modifyAt i fun n => { n with realized := some v })
  else Option.none

/-- `x.children.add(c)`: inserts into the base's weak set (set semantics:
no duplicates). -/
def Arena.addChild (a : Arena) (x c : Nat) : Arena :=
  a.modifyAt (a.baseOf x) fun n =>
    if c ∈ n.children then n else { n with children := n.children ++ [c] }

/-- `LazyBuffer.__init__` without `base` (lines 78–84): a fresh base node,
`_realized` from `src`, and registration of the new node in the children set
of every buffer of its operation. -/
def Arena.allocBase (a : Arena) (op : Option LazyOp) (st : ShapeTracker)
    (dtype : Nat) (device : String) (src : Option Nat) : Arena × Nat :=
  let i := a.len
  let a1 : Arena := ⟨a.nodes ++ [⟨st, dtype, device, i, op, src, []⟩]⟩
  let a2 := match op with
    | some l => l.buffers.foldl (fun acc x => acc.addChild x i) a1
    | Option.none => a1
  (a2, i)

/-- `LazyBuffer.__init__` with `base` (lines 74–77): `assert
base.st.contiguous, "base must be contiguous"` (modelled by `none`), then a
view node registered as a child of its base. -/
def Arena.allocView (a : Arena) (st : ShapeTracker) (dtype : Nat)
    (device : String) (b : Nat) : Option (Arena × Nat) :=
  if (a.get b).st.contiguous then
    let i := a.len
    let a1 : Arena := ⟨a.nodes ++ [⟨st, dtype, device, b, Option.none, Option.none, []⟩]⟩
    some (a1.addChild b i, i)
  else Option.none

/-- `is_contiguous` (line 88): `self.st.contiguous and self.base.st.size() ==
self.st.size()`. -/
def Arena.is_contiguous (a : Arena) (i : Nat) : Bool :=
  (a.get i).st.contiguous && ((a.get (a.baseOf i)).st.size == (a.get i).st.size)

/-! ## Construction and movement operations -/

/-- `LazyBuffer.loadop` (lines 106–108). -/
def LazyBuffer.loadop (a : Arena) (op : LoadOps) (shape : List SInt) (dtype : Nat)
    (device : String) (arg : OpArg) (src : Option Nat) : Arena × Nat :=
  Arena.allocBase a
    (some (.node (.load op)
      (match src with | Option.none => .nil | some s => .cons (.buf s) .nil) arg))
    (ShapeTracker.from_shape shape) dtype device Option.none

/-- `LazyBuffer.fromCPU` (lines 113–115): a base with no operation and a
pre-supplied realized raw buffer. -/
def LazyBuffer.fromCPU (a : Arena) (shape : List SInt) (dtype : Nat) (src : Nat) :
    Arena × Nat :=
  Arena.allocBase a Option.none (ShapeTracker.from_shape shape) dtype "CPU" (some src)

/-- `_movement_op` (lines 151–153): identity short-circuit on an equal view,
otherwise a fresh view node over the same base. -/
def LazyBuffer._movement_op (a : Arena) (i : Nat) (st : ShapeTracker) :
    Option (Arena × Nat) :=
  if (a.get i).st = st then some (a, i)
  else a.allocView st (a.get i).dtype (a.get i).device (a.baseOf i)

/-- `reshape` (line 155). -/
def LazyBuffer.reshape (a : Arena) (i : Nat) (arg : List SInt) : Option (Arena × Nat) :=
  LazyBuffer._movement_op a i ((a.get i).st.reshape arg)

/-- `permute` (line 156). -/
def LazyBuffer.permute (a : Arena) (i : Nat) (arg : List Nat) : Option (Arena × Nat) :=
  LazyBuffer._movement_op a i ((a.get i).st.permute arg)

/-- `shrink` (line 157). -/
def LazyBuffer.shrink (a : Arena) (i : Nat) (arg : List (Nat × Nat)) : Option (Arena × Nat) :=
  LazyBuffer._movement_op a i ((a.get i).st.shrink arg)

/-- `stride` (line 158). -/
def LazyBuffer.stride (a : Arena) (i : Nat) (arg : List Int) : Option (Arena × Nat) :=
  LazyBuffer._movement_op a i ((a.get i).st.stride arg)

/-- `expand` (line 159). -/
def LazyBuffer.expand (a : Arena) (i : Nat) (arg : List SInt) : Option (Arena × Nat) :=
  LazyBuffer._movement_op a i ((a.get i).st.expand arg)

/-- `pad` (line 160). -/
def LazyBuffer.pad (a : Arena) (i : Nat) (arg : List (Nat × Nat)) : Option (Arena × Nat) :=
  LazyBuffer._movement_op a i ((a.get i).st.pad arg)

/-- `contiguous` (lines 102–104). -/
def LazyBuffer.contiguous (a : Arena) (i : Nat) : Arena × Nat :=
  if a.is_contiguous i then (a, i)
  else Arena.allocBase a
    (some (.node (.load .CONTIGUOUS) (.cons (.buf i) .nil) .none))
    (ShapeTracker.from_shape (a.shapeOf i)) (a.get i).dtype (a.get i).device Option.none

/-! ## Elementwise construction (`e`, lines 126–134) -/

/-- The per-source inlining condition of `e` (line 132): not realized,
contiguous relative to its base, an elementwise operation, and no children.
(The `x.op` access in the source would raise on an unrealized base without an
operation; such bases do not arise — a base holds an op or a realized src.) -/
def inlineCond (a : Arena) (x : Nat) : Bool :=
  (a.realizedOf x).isNone && a.is_contiguous x &&
    (match a.opOf x with
      | some l => (match l.opc with | some o => o.isElementwise | Option.none => false)
      | Option.none => false) &&
    (a.childrenOf x).isEmpty

/-- The source tuple element `e` builds for one source (line 132): the
source's own operation tree when `inlineCond` holds, else the buffer. -/
def inlineSrc (a : Arena) (x : Nat) : LazyOp :=
  if inlineCond a x then (a.opOf x).getD (.buf x) else .buf x

/-- `e` (lines 126–134). -/
def LazyBuffer.e (a : Arena) (i : Nat) (op : OpType) (extraSrcs : List Nat)
    (arg : OpArg) : Arena × Nat :=
  let srcs := i :: extraSrcs
  let out_dtype : Nat :=
    match op, arg with
    | .unary .CAST, .castArg d _ => d
    | _, _ => (srcs.map (fun x => (a.get x).dtype)).foldl Nat.max 0
  let srcs2 : List LazyOp :=
    if MERGE_ELEMENTWISE_OPS then srcs.map (inlineSrc a) else srcs.map .buf
  Arena.allocBase a (some (.node op (.ofList srcs2) arg))
    (ShapeTracker.from_shape (a.shapeOf i)) out_dtype (a.get i).device Option.none

/-! ## Reduce construction (`_reduce_op` and `r`, lines 138–147) -/

/-- `_reduce_op` (lines 138–140): no-op when the shape is unchanged, else a
fresh reduce base. -/
def LazyBuffer._reduce_op (a : Arena) (i : Nat) (op : ReduceOps)
    (new_shape : List SInt) : Arena × Nat :=
  if a.shapeOf i = new_shape then (a, i)
  else Arena.allocBase a
    (some (.node (.reduce op) (.cons (.buf i) .nil) (.shape new_shape)))
    (ShapeTracker.from_shape new_shape) (a.get i).dtype (a.get i).device Option.none

/-- `(divisor := math.gcd(256, old)) / (stride or math.inf)`: the split score
of one candidate dimension.  A missing or zero stride gives score 0 (division
by infinity); real-number division models the source's float division. -/
def strideScore (divisor : Nat) (strideV : Option Int) : ℚ :=
  match strideV with
  | Option.none => 0
  | some z => if z = 0 then 0 else Rat.divInt (divisor : Int) z

/-- The candidate triples `(heuristic, divisor, i)` of `r` (line 144): one per
index of the zipped shape/new-shape/strides where the dimension strictly
changes. -/
def reduceCands (shape new_shape : List Nat) (strides : List (Option Int)) :
    List (ℚ × Nat × Nat) :=
  (List.range (min (min shape.length new_shape.length) strides.length)).filterMap
    fun idx =>
      let old := shape.getD idx 0
      if old ≠ new_shape.getD idx 0 then
        some (strideScore (Nat.gcd 256 old) (strides.getD idx Option.none),
              Nat.gcd 256 old, idx)
      else Option.none

/-- Python tuple comparison `<` on `(heuristic, divisor, i)`. -/
def tripLt (x y : ℚ × Nat × Nat) : Bool :=
  decide (x.1 < y.1) ||
    (x.1 == y.1 && (x.2.1 < y.2.1 || (x.2.1 == y.2.1 && x.2.2 < y.2.2)))

/-- Python `max` over the candidate tuples (lexicographic; `none` on an empty
sequence, where the source raises `ValueError`). -/
def maxTriple : List (ℚ × Nat × Nat) → Option (ℚ × Nat × Nat)
  | [] => Option.none
  | c :: rest => some (rest.foldl (fun b x => if tripLt b x then x else b) c)

/-- `splitted_shape` (line 146):
`self.shape[:dim] + (self.shape[dim]//divisor,) + dim_aft_div + self.shape[dim+1:]`. -/
def splitted_shape (shape : List SInt) (dim_to_split divisor : Nat)
    (dim_aft_div : List SInt) : List SInt :=
  shape.take dim_to_split ++ [.lit ((shape.getD dim_to_split (.lit 0)).toNat / divisor)]
    ++ dim_aft_div ++ shape.drop (dim_to_split + 1)

/-- `r` (lines 142–147): the two-pass reduce-split heuristic.  Direct single
reduce unless the shape is fully known, the work ratio is at least 32768, and
the best candidate has divisor ≥ 16 and score ≥ 0.1; otherwise reshape to the
split shape, reduce away the inner axis, reshape away the singleton, and
reduce to the final shape. -/
def LazyBuffer.r (a : Arena) (i : Nat) (op : ReduceOps) (new_shape : List SInt) :
    Option (Arena × Nat) :=
  let shp := a.shapeOf i
  if ¬ allInt shp ∨ (natsOf shp).prod / (natsOf new_shape).prod < 32768 then
    some (LazyBuffer._reduce_op a i op new_shape)
  else
    match maxTriple (reduceCands (natsOf shp) (natsOf new_shape) (a.get i).st.realStrides) with
    | Option.none => some (LazyBuffer._reduce_op a i op new_shape)
    | some (heuristic, divisor, dim_to_split) =>
      if divisor < 16 ∨ heuristic < mkRat 1 10 then
        some (LazyBuffer._reduce_op a i op new_shape)
      else do
        let (a1, j1) ← LazyBuffer.reshape a i (splitted_shape shp dim_to_split divisor [.lit divisor])
        let (a2, j2) := LazyBuffer._reduce_op a1 j1 op (splitted_shape shp dim_to_split divisor [.lit 1])
        let (a3, j3) ← LazyBuffer.reshape a2 j2 (splitted_shape shp dim_to_split divisor [])
        some (LazyBuffer._reduce_op a3 j3 op new_shape)

/-! ## Fusion rewriters (`_ast_reduceops`, `_ast_binaryops`, `_ast_bufferops`) -/

/-- `_ast_reduceops` (lines 21–28): absorb an unmaterialized, at most
single-consumer elementwise producer into a reduce's input expression.  The
source indexes `op.src[0]` and rebuilds `LazyOp(op.op, (src,), op.arg)`; a
stored reduce op always has exactly one buffer source, other shapes are
returned unchanged (the source would raise there). -/
def reduceSrc (a : Arena) (src : LazyOp) : LazyOp :=
  match src with
  | .buf s =>
      if (a.realizedOf s).isNone then
        match a.opOf s with
        | some sop =>
            if MERGE_ELEMENTWISE_INTO_REDUCE
                && (match sop.opc with
                    | some oc => oc.isElementwise
                    | Option.none => false)
                && decide ((a.childrenOf s).length ≤ 1)
            then sop else src
        | Option.none => src
      else src
  | _ => src

def _ast_reduceops (a : Arena) (op : LazyOp) : LazyOp :=
  match op with
  | .node o (.cons src rest) arg =>
      let _ := rest
      .node o (.cons (reduceSrc a src) .nil) arg
  | _ => op

/-- The `psrcs` filter of `_ast_binaryops` (line 35).  The source zips
`real_srcs.keys()` with itself, so `k` and `x` coincide: the element-count
comparison `prod(k.shape) == prod(x.shape)` is between identical values, and
the consumer-count bound is checked twice. -/
def psrcCond (a : Arena) (k : Nat) : Bool :=
  (a.realizedOf k).isNone &&
    (match a.opOf k with
      | some l => (match l.opc with | some oc => oc.isReduce | Option.none => false)
      | Option.none => false) &&
    ((natsOf (a.shapeOf k)).prod == (natsOf (a.shapeOf k)).prod) &&
    decide ((a.childrenOf k).length ≤ 1) && decide ((a.childrenOf k).length ≤ 1)

/-- `x.base if x.is_contiguous() else x` (line 35). -/
def absorbTarget (a : Arena) (k : Nat) : Nat :=
  if a.is_contiguous k then a.baseOf k else k

/-- Insertion-ordered association-list update with Python `dict` semantics:
overwriting keeps the original position, a new key is appended. -/
def alSet : List (Nat × Option LazyOp) → Nat → Option LazyOp → List (Nat × Option LazyOp)
  | [], k, v => [(k, v)]
  | (k', v') :: t, k, v => if k' = k then (k, v) :: t else (k', v') :: alSet t k v

def alGet : List (Nat × Option LazyOp) → Nat → Option (Option LazyOp)
  | [], _ => Option.none
  | (k', v') :: t, k => if k' = k then some v' else alGet t k

/-- The final loop of `_ast_binaryops` (lines 51–52): every key still mapped
to `None` is reshaped (in dictionary order) into the intermediate shape; the
reshapes allocate view nodes, so the arena is threaded through. -/
def reshapeLoop (ish : List SInt) :
    Arena → List (Nat × Option LazyOp) → Option (Arena × List (Nat × Option LazyOp))
  | a, [] => some (a, [])
  | a, (k, Option.none) :: t => do
      let (a1, k') ← LazyBuffer.reshape a k ish
      let (a2, t') ← reshapeLoop ish a1 t
      some (a2, (k, some (.buf k')) :: t')
  | a, (k, some v) :: t => do
      let (a2, t') ← reshapeLoop ish a t
      some (a2, (k, some v) :: t')

/-- `_ast_binaryops` (lines 31–55): optionally absorb one unmaterialized
single-consumer reduce source (itself passed through `_ast_reduceops`),
protect the absorbed tree's own buffers from reshaping, reshape every other
source into the intermediate shape, and substitute.  `none` models the
source's `assert psrc[0].shape == output_shape` failure. -/
def _ast_binaryops (a : Arena) (op : LazyOp) (output_shape : List SInt) :
    Option (Arena × LazyOp) := do
  let keys := pydedup op.buffers
  let real0 : List (Nat × Option LazyOp) := keys.map (fun k => (k, Option.none))
  let psrcs : List (Nat × Nat) := (keys.filter (psrcCond a)).map (fun k => (k, absorbTarget a k))
  match (if MERGE_ONE_REDUCE_INTO_ELEMENTWISE then psrcs else []) with
  | psrc :: _ => do
      let pop ← a.opOf psrc.2
      -- `if psrc[1].op.op in ReduceOps: top = _ast_reduceops(psrc[1].op)`; were the
      -- test false, the subsequent read of `top` would raise (modelled by `none`)
      if (match pop.opc with | some oc => oc.isReduce | Option.none => false) then
        let top := _ast_reduceops a pop
        let real1 := alSet real0 psrc.1 (some top)
        let real2 := top.buffers.foldl (fun acc x => alSet acc x (some (.buf x))) real1
        if a.shapeOf psrc.1 ≠ a.shapeOf psrc.2 ∧ a.shapeOf psrc.1 ≠ output_shape then
          Option.none
        else do
          let ish := if a.shapeOf psrc.1 ≠ a.shapeOf psrc.2 then a.shapeOf psrc.2
                     else output_shape
          let (a2, realF) ← reshapeLoop ish a real2
          some (a2, op.map_buffers (fun x => (alGet realF x).join))
      else Option.none
  | [] => do
      let (a2, realF) ← reshapeLoop output_shape a real0
      some (a2, op.map_buffers (fun x => (alGet realF x).join))

/-- `x.base.op.op == LoadOps.CONST` (line 59/61); false when the base has no
operation (where the source's attribute access raises — those leaves fail in
`bufReplacement` below, as in the source). -/
def isConstBase (a : Arena) (x : Nat) : Bool :=
  match a.opOf x with
  | some l => l.opc == some (.load .CONST)
  | Option.none => false

/-- The deduplicated non-constant base list of `_ast_bufferops` (line 59). -/
def base_bufs_of (a : Arena) (op : LazyOp) : List Nat :=
  pydedup ((op.buffers.filter (fun x => ¬ isConstBase a x)).map a.baseOf)

def argInt : OpArg → Int
  | .val v => v
  | _ => 0

/-- The per-leaf replacement of `_ast_bufferops` (lines 60–66): a CONST
buffer-op for a constant base, a 1-indexed MEM buffer-op for a deduplicated
base, `none` for an unhandled leaf (`NotImplementedError`, or the attribute
error on a base without an operation). -/
def bufReplacement (a : Arena) (bbufs : List Nat) (x : Nat) : Option LazyOp :=
  match a.opOf x with
  | Option.none => Option.none
  | some bop =>
    if bop.opc == some (.load .CONST) then
      some (.node (.buffer .CONST) .nil
        (.cbuf ⟨argInt bop.argOf, (a.get x).dtype, (a.get x).st.simplify⟩))
    else if a.baseOf x ∈ bbufs then
      some (.node (.buffer .MEM) .nil
        (.mem ⟨List.indexOf (a.baseOf x) bbufs + 1, (a.get x).dtype, (a.get x).st.simplify⟩))
    else Option.none

/-- `_ast_bufferops` (lines 57–67). -/
def _ast_bufferops (a : Arena) (op : LazyOp) : Option LazyOp :=
  if op.buffers.all (fun x => (bufReplacement a (base_bufs_of a op) x).isSome) then
    some (op.map_buffers (bufReplacement a (base_bufs_of a op)))
  else Option.none

/-! ## Scheduler (`schedule`, lines 167–184) -/

/-- A schedule unit `(op, buffers)`: the resolved operation and the produced
buffer followed by its upstream dependency buffers. -/
abbrev SUnit := LazyOp × List Nat

/-- The inner merge of a recursively obtained sub-schedule (lines 180–183):
keep a unit only if its produced buffer (`_buffers[0]`) is unseen, recording
it in `seen`. -/
def mergeSub : List Nat → List SUnit → List SUnit → List Nat × List SUnit
  | seen, ret, [] => (seen, ret)
  | seen, ret, (uop, ubufs) :: us =>
      if ubufs.headI ∈ seen then mergeSub seen ret us
      else mergeSub (seen ++ [ubufs.headI]) (ret ++ [(uop, ubufs)]) us

/-- The outer loop of `schedule` (lines 178–183): for each dependency buffer
that is unrealized and unseen, recursively schedule it and merge its
deduplicated sub-schedule. -/
def schedLoop (rec : Arena → Nat → Option (Arena × List SUnit)) :
    Arena → List Nat → List Nat → List SUnit → Option (Arena × List SUnit × List Nat)
  | a, [], seen, ret => some (a, ret, seen)
  | a, x :: xs, seen, ret =>
      if (a.realizedOf x).isNone ∧ x ∉ seen then do
        let (a1, sub) ← rec a x
        let (seen1, ret1) := mergeSub seen ret sub
        schedLoop rec a1 xs seen1 ret1
      else schedLoop rec a xs seen ret

/-- The rewrite stage of `schedule` (lines 172–173): elementwise operations
through `_ast_binaryops`, reduces through `_ast_reduceops`, others kept. -/
def rewriteStage (a : Arena) (op1 : LazyOp) (oshape : List SInt) :
    Option (Arena × LazyOp) :=
  match op1.opc with
  | some o =>
      if o.isElementwise then _ast_binaryops a op1 oshape
      else if o.isReduce then some (a, _ast_reduceops a op1)
      else some (a, op1)
  | Option.none => Option.none

/-- `schedule` (lines 167–184), with recursion fuel (`none` = fuel exhausted
or a source-level error).  A view delegates to its base; a load operation
schedules as a single unit; otherwise the operation is rewritten
(`_ast_binaryops` / `_ast_reduceops`), its buffer set collected, buffer-ops
resolved, unrealized unseen dependencies recursively scheduled and merged,
and the unit `(resolved-op, (self,)+buffers)` appended last. -/
def LazyBuffer.schedule : Nat → Arena → Nat → Option (Arena × List SUnit)
  | 0, _, _ => Option.none
  | fuel + 1, a, i =>
    if a.baseOf i ≠ i then LazyBuffer.schedule fuel a (a.baseOf i)
    else do
      let op0 ← (a.get i).op
      let op1 := if op0.opc == some (.load .CONTIGUOUS)
                 then LazyOp.node (.unary .NOOP) op0.srcL .none else op0
      match op1.opc with
      | Option.none => Option.none
      | some o1 =>
        if o1.isLoad then some (a, [(op0, [i])])
        else do
          let (a1, op2) ← rewriteStage a op1 (a.shapeOf i)
          let buffers := op2.buffers
          let op3 ← _ast_bufferops a1 op2
          let (a2, ret, _seen) ← schedLoop (LazyBuffer.schedule fuel) a1 buffers [] []
          some (a2, ret ++ [(op3, i :: buffers)])

/-! ## Realizer (`realize` and the load dispatcher, lines 186–231) -/

/-- A backend effect: one `exec_ast` compute dispatch or one load-op handler
run, tagged with the produced buffer. -/
inductive BEvent where
  | exec (out : Nat)
  | loadDispatch (k : LoadOps) (out : Nat)
deriving DecidableEq

/-- Modelled from the spec (§6, backend contract): the external device /
raw-buffer collaborators, as opaque result-token producers.  `constBuf`
collapses the compiled/interpreted constant branch (a backend capability,
spec §9); `kernelArg` is `runtime.lib.buf_is_kernel_arg`. -/
structure Backend where
  execAST : LazyOp → Nat → List (Option Nat) → Nat
  copyFromCPU : Nat → Nat
  randBuf : OpArg → List SInt → Nat
  constBuf : OpArg → Nat
  emptyBuf : Nat → Nat → Nat
  customBuf : Nat → List (Option Nat) → Nat
  kernelArg : LazyBuffer → Bool

/-- The eager source realization of `_realize_custom` (line 224). -/
def realizeSrcs (rec : Arena → Nat → Option (Arena × List BEvent)) :
    Arena → List LazyOp → List BEvent → Option (Arena × List BEvent)
  | a, [], evs => some (a, evs)
  | a, s :: rest, evs =>
      match s with
      | .buf x => do
          let (a1, evs1) ← rec a x
          realizeSrcs rec a1 rest (evs ++ evs1)
      | _ => Option.none

/-- `LOAD_OPS_DISPATCHER` (lines 202–231): the five load-realization
handlers.  `FROM` recursively realizes its source and asserts it realized;
`EMPTY` asserts a fully known shape; `CONTIGUOUS` is not in the dispatcher
(a `KeyError` in the source). -/
def dispatchLoad (rec : Arena → Nat → Option (Arena × List BEvent)) (be : Backend)
    (a : Arena) (k : LoadOps) (op : LazyOp) (i : Nat) : Option (Arena × List BEvent) :=
  match k with
  | .FROM =>
      match op.srcL with
      | .cons (.buf s) _ => do
          let (a1, evs) ← rec a s
          let rb ← a1.realizedOf s
          let a2 ← a1.setRealized i (be.copyFromCPU rb)
          some (a2, evs ++ [.loadDispatch .FROM i])
      | _ => Option.none
  | .RAND => do
      let a1 ← a.setRealized i (be.randBuf op.argOf (a.shapeOf i))
      some (a1, [.loadDispatch .RAND i])
  | .CONST => do
      let a1 ← a.setRealized i (be.constBuf op.argOf)
      some (a1, [.loadDispatch .CONST i])
  | .EMPTY =>
      if allInt (a.shapeOf i) then do
        let a1 ← a.setRealized i (be.emptyBuf (natsOf (a.shapeOf i)).prod (a.get i).dtype)
        some (a1, [.loadDispatch .EMPTY i])
      else Option.none
  | .CUSTOM => do
      let (a1, evs) ← realizeSrcs rec a op.srcL.toList []
      let a2 ← a1.setRealized i (be.customBuf i (op.srcL.toList.map
        (fun s => match s with | .buf x => a1.realizedOf x | _ => Option.none)))
      some (a2, evs ++ [.loadDispatch .CUSTOM i])
  | .CONTIGUOUS => Option.none

/-- The schedule-execution loop of `realize` (lines 188–197): load units go
to the dispatcher; compute units gather the deduplicated realized inputs that
are legitimate kernel arguments and assign the backend result to the produced
buffer's realized slot. -/
def unitLoop (rec : Arena → Nat → Option (Arena × List BEvent)) (be : Backend) :
    Arena → List SUnit → List BEvent → Option (Arena × List BEvent)
  | a, [], evs => some (a, evs)
  | a, (uop, ubufs) :: rest, evs => do
      let hd ← ubufs.head?
      match uop.opc with
      | Option.none => Option.none
      | some o =>
        match o with
        | .load k => do
            let (a1, evs1) ← dispatchLoad rec be a k uop hd
            unitLoop rec be a1 rest (evs ++ evs1)
        | _ => do
            let realized_bufs :=
              pydedup (((ubufs.drop 1).filter (fun x => be.kernelArg (a.get x))).map a.realizedOf)
            let a1 ← a.setRealized hd (be.execAST uop hd realized_bufs)
            unitLoop rec be a1 rest (evs ++ [.exec hd])

/-- `realize` (lines 186–198): a no-op when the buffer is already realized,
otherwise compute the schedule and execute its units in order. -/
def LazyBuffer.realize (be : Backend) : Nat → Arena → Nat → Option (Arena × List BEvent)
  | 0, _, _ => Option.none
  | fuel + 1, a, i =>
    if (a.realizedOf i).isSome then some (a, [])
    else do
      let (a1, sched) ← LazyBuffer.schedule fuel a i
      unitLoop (LazyBuffer.realize be fuel) be a1 sched []

/-! ## Denotational reduce semantics (for the reduce-split equivalence)

Modelled from the spec (§4.3, §6, §8 property 3): the backend's semantics of
a reduce over an associative/commutative operator with identity, on a
contiguous row-major tensor.  A tensor is its flat data function `Nat → α`
together with a shape; a contiguous reshape (what `r`'s split path inserts)
leaves the flat data unchanged, so only the reduce itself needs meaning.
`redFlat f e shape new data j` is the entry at flat index `j` of reducing
`data` from `shape` to `new`, where every dimension of `new` either equals
the corresponding dimension of `shape` (kept) or is reduced away to 1. -/

/-- Fold of `f` over `g 0, …, g (n-1)` starting from `e`. -/
def foldAxis {α : Type} (f : α → α → α) (e : α) (n : Nat) (g : Nat → α) : α :=
  (List.range n).foldl (fun acc k => f acc (g k)) e

/-- Row-major reduce semantics on flat data (see section header). -/
def redFlat {α : Type} (f : α → α → α) (e : α) :
    List Nat → List Nat → (Nat → α) → Nat → α
  | s :: ss, n :: ns, d, j =>
      if n = s then
        redFlat f e ss ns (fun p => d ((j / ns.prod) * ss.prod + p)) (j % ns.prod)
      else
        foldAxis f e s (fun i => redFlat f e ss ns (fun p => d (i * ss.prod + p)) (j % ns.prod))
  | [], [], d, _ => d 0
  | _, _, d, j => d j

/-- A valid reduction target: every output dimension is the input dimension
or 1. -/
def validNew : List Nat → List Nat → Prop
  | [], [] => True
  | s :: ss, n :: ns => (n = s ∨ n = 1) ∧ validNew ss ns
  | _, _ => False

/-- Pointwise bound between output and input shape (same rank). -/
def leNew : List Nat → List Nat → Prop
  | [], [] => True
  | s :: ss, n :: ns => n ≤ s ∧ leNew ss ns
  | _, _ => False

theorem foldAxis_zero {α : Type} (f : α → α → α) (e : α) (g : Nat → α) :
    foldAxis f e 0 g = e := rfl

theorem foldAxis_succ {α : Type} (f : α → α → α) (e : α) (n : Nat) (g : Nat → α) :
    foldAxis f e (n + 1) g = f (foldAxis f e n g) (g n) := by
  simp [foldAxis, List.range_succ]

theorem foldAxis_congr {α : Type} (f : α → α → α) (e : α) (n : Nat) (g h : Nat → α)
    (hgh : ∀ i, i < n → g i = h i) : foldAxis f e n g = foldAxis f e n h := by
  induction n with
  | zero => rfl
  | succ m ih =>
    rw [foldAxis_succ, foldAxis_succ, ih (fun i hi => hgh i (Nat.lt_succ_of_lt hi)),
      hgh m (Nat.lt_succ_self m)]

theorem foldAxis_one {α : Type} (f : α → α → α) (e : α) (g : Nat → α)
    (hid : ∀ x, f e x = x) : foldAxis f e 1 g = g 0 := by
  rw [foldAxis_succ, foldAxis_zero, hid]

theorem foldAxis_const_e {α : Type} (f : α → α → α) (e : α) (n : Nat)
    (hid : ∀ x, f e x = x) : foldAxis f e n (fun _ => e) = e := by
  induction n with
  | zero => rfl
  | succ m ih => rw [foldAxis_succ, ih, hid]

theorem fold_id_right {α : Type} (f : α → α → α) (e : α)
    (hcomm : ∀ x y, f x y = f y x) (hid : ∀ x, f e x = x) (x : α) : f x e = x := by
  rw [hcomm, hid]

theorem foldAxis_split {α : Type} (f : α → α → α) (e : α)
    (hcomm : ∀ x y, f x y = f y x) (hassoc : ∀ x y z, f (f x y) z = f x (f y z))
    (hid : ∀ x, f e x = x) (n : Nat) (g h : Nat → α) :
    foldAxis f e n (fun i => f (g i) (h i)) =
      f (foldAxis f e n g) (foldAxis f e n h) := by
  induction n with
  | zero => simp [foldAxis_zero, hid]
  | succ m ih =>
    rw [foldAxis_succ, foldAxis_succ, foldAxis_succ, ih,
      hassoc (foldAxis f e m g) (foldAxis f e m h) (f (g m) (h m)),
      ← hassoc (foldAxis f e m h) (g m) (h m), hcomm (foldAxis f e m h) (g m),
      hassoc (g m) (foldAxis f e m h) (h m),
      ← hassoc (foldAxis f e m g) (g m) (f (foldAxis f e m h) (h m))]

theorem foldAxis_add {α : Type} (f : α → α → α) (e : α)
    (hcomm : ∀ x y, f x y = f y x) (hassoc : ∀ x y z, f (f x y) z = f x (f y z))
    (hid : ∀ x, f e x = x) (m k : Nat) (g : Nat → α) :
    foldAxis f e (m + k) g = f (foldAxis f e m g) (foldAxis f e k (fun b => g (m + b))) := by
  induction k with
  | zero => rw [Nat.add_zero, foldAxis_zero, fold_id_right f e hcomm hid]
  | succ k2 ih =>
    rw [show m + (k2 + 1) = (m + k2) + 1 from rfl, foldAxis_succ, ih, foldAxis_succ, hassoc]

theorem foldAxis_mul {α : Type} (f : α → α → α) (e : α)
    (hcomm : ∀ x y, f x y = f y x) (hassoc : ∀ x y z, f (f x y) z = f x (f y z))
    (hid : ∀ x, f e x = x) (q k : Nat) (g : Nat → α) :
    foldAxis f e (q * k) g =
      foldAxis f e q (fun a2 => foldAxis f e k (fun b => g (a2 * k + b))) := by
  induction q with
  | zero => simp [foldAxis_zero]
  | succ q2 ih =>
    rw [Nat.succ_mul, foldAxis_add f e hcomm hassoc hid, ih, foldAxis_succ]

theorem redFlat_kept {α : Type} (f : α → α → α) (e : α) (s n : Nat) (ss ns : List Nat)
    (d : Nat → α) (j : Nat) (h : n = s) :
    redFlat f e (s :: ss) (n :: ns) d j =
      redFlat f e ss ns (fun p => d ((j / ns.prod) * ss.prod + p)) (j % ns.prod) := by
  simp only [redFlat]
  rw [if_pos h]

theorem redFlat_red {α : Type} (f : α → α → α) (e : α) (s n : Nat) (ss ns : List Nat)
    (d : Nat → α) (j : Nat) (h : ¬ n = s) :
    redFlat f e (s :: ss) (n :: ns) d j =
      foldAxis f e s (fun i => redFlat f e ss ns (fun p => d (i * ss.prod + p)) (j % ns.prod)) := by
  simp only [redFlat]
  rw [if_neg h]

theorem redFlat_congr {α : Type} (f : α → α → α) (e : α) (ss : List Nat) :
    ∀ (ns : List Nat) (d1 d2 : Nat → α) (j : Nat),
      leNew ss ns → (∀ p, p < ss.prod → d1 p = d2 p) → j < ns.prod →
      redFlat f e ss ns d1 j = redFlat f e ss ns d2 j := by
  induction ss with
  | nil =>
    intro ns d1 d2 j hle hag hj
    match ns with
    | [] => exact hag 0 (by simp)
    | _ :: _ => exact absurd hle (by simp [leNew])
  | cons s ss ih =>
    intro ns d1 d2 j hle hag hj
    match ns with
    | [] => exact absurd hle (by simp [leNew])
    | n :: ns =>
      obtain ⟨hns, hle2⟩ := hle
      rw [List.prod_cons] at hj
      have hnsp : 0 < ns.prod := by
        rcases Nat.eq_zero_or_pos ns.prod with h0 | h
        · rw [h0, Nat.mul_zero] at hj; omega
        · exact h
      by_cases hcase : n = s
      · rw [redFlat_kept f e s n ss ns d1 j hcase, redFlat_kept f e s n ss ns d2 j hcase]
        refine ih ns _ _ _ hle2 ?_ (Nat.mod_lt _ hnsp)
        intro p hp
        apply hag
        have hJ : j / ns.prod < n := (Nat.div_lt_iff_lt_mul hnsp).mpr (by omega)
        have h1 : j / ns.prod * ss.prod + p < (j / ns.prod + 1) * ss.prod := by
          rw [Nat.succ_mul]; omega
        have h2 : (j / ns.prod + 1) * ss.prod ≤ s * ss.prod :=
          Nat.mul_le_mul_right _ (by omega)
        rw [List.prod_cons]
        omega
      · rw [redFlat_red f e s n ss ns d1 j hcase, redFlat_red f e s n ss ns d2 j hcase]
        refine foldAxis_congr f e s _ _ ?_
        intro i hi
        refine ih ns _ _ _ hle2 ?_ (Nat.mod_lt _ hnsp)
        intro p hp
        apply hag
        have h1 : i * ss.prod + p < (i + 1) * ss.prod := by rw [Nat.succ_mul]; omega
        have h2 : (i + 1) * ss.prod ≤ s * ss.prod :=
          Nat.mul_le_mul_right _ (Nat.succ_le_of_lt hi)
        rw [List.prod_cons]
        omega

theorem redFlat_id {α : Type} (f : α → α → α) (e : α) (ss : List Nat) :
    ∀ (d : Nat → α) (j : Nat), j < ss.prod → redFlat f e ss ss d j = d j := by
  induction ss with
  | nil =>
    intro d j hj
    simp only [List.prod_nil, Nat.lt_one_iff] at hj
    subst hj
    rfl
  | cons s ss ih =>
    intro d j hj
    rw [List.prod_cons] at hj
    have hssp : 0 < ss.prod := by
      rcases Nat.eq_zero_or_pos ss.prod with h0 | h
      · rw [h0, Nat.mul_zero] at hj; omega
      · exact h
    rw [redFlat_kept f e s s ss ss d j rfl, ih _ _ (Nat.mod_lt _ hssp)]
    exact congrArg d (Nat.div_add_mod' j ss.prod)

theorem redFlat_split2 {α : Type} (f : α → α → α) (e : α)
    (hcomm : ∀ x y, f x y = f y x) (hassoc : ∀ x y z, f (f x y) z = f x (f y z))
    (hid : ∀ x, f e x = x) (ss : List Nat) :
    ∀ (ns : List Nat) (d1 d2 : Nat → α) (j : Nat),
      redFlat f e ss ns (fun p => f (d1 p) (d2 p)) j =
        f (redFlat f e ss ns d1 j) (redFlat f e ss ns d2 j) := by
  induction ss with
  | nil =>
    intro ns d1 d2 j
    match ns with
    | [] => rfl
    | _ :: _ => rfl
  | cons s ss ih =>
    intro ns d1 d2 j
    match ns with
    | [] => rfl
    | n :: ns =>
      by_cases hcase : n = s
      · rw [redFlat_kept f e s n ss ns _ j hcase, redFlat_kept f e s n ss ns d1 j hcase,
          redFlat_kept f e s n ss ns d2 j hcase]
        exact ih ns _ _ _
      · rw [redFlat_red f e s n ss ns _ j hcase, redFlat_red f e s n ss ns d1 j hcase,
          redFlat_red f e s n ss ns d2 j hcase]
        rw [foldAxis_congr f e s _
          (fun i => f (redFlat f e ss ns (fun p => d1 (i * ss.prod + p)) (j % ns.prod))
                      (redFlat f e ss ns (fun p => d2 (i * ss.prod + p)) (j % ns.prod)))
          (fun i _ => ih ns _ _ _)]
        exact foldAxis_split f e hcomm hassoc hid s _ _

theorem redFlat_const {α : Type} (f : α → α → α) (e : α) (hid : ∀ x, f e x = x)
    (ss : List Nat) : ∀ (ns : List Nat) (j : Nat),
      redFlat f e ss ns (fun _ => e) j = e := by
  induction ss with
  | nil =>
    intro ns j
    match ns with
    | [] => rfl
    | _ :: _ => rfl
  | cons s ss ih =>
    intro ns j
    match ns with
    | [] => rfl
    | n :: ns =>
      by_cases hcase : n = s
      · rw [redFlat_kept f e s n ss ns _ j hcase]; exact ih ns _
      · rw [redFlat_red f e s n ss ns _ j hcase]
        rw [foldAxis_congr f e s _ (fun _ => e) (fun i _ => ih ns _)]
        exact foldAxis_const_e f e s hid

theorem redFlat_foldAxis {α : Type} (f : α → α → α) (e : α)
    (hcomm : ∀ x y, f x y = f y x) (hassoc : ∀ x y z, f (f x y) z = f x (f y z))
    (hid : ∀ x, f e x = x) (ss ns : List Nat) (m : Nat) (dd : Nat → Nat → α) (j : Nat) :
    redFlat f e ss ns (fun p => foldAxis f e m (fun r2 => dd r2 p)) j =
      foldAxis f e m (fun r2 => redFlat f e ss ns (dd r2) j) := by
  induction m with
  | zero =>
    rw [foldAxis_zero]
    exact redFlat_const f e hid ss ns j
  | succ m2 ih =>
    have hfn : (fun p => foldAxis f e (m2 + 1) (fun r2 => dd r2 p)) =
        fun p => f (foldAxis f e m2 (fun r2 => dd r2 p)) (dd m2 p) :=
      funext fun p => foldAxis_succ f e m2 _
    rw [hfn, redFlat_split2 f e hcomm hassoc hid ss ns _ _ j, ih, foldAxis_succ]

theorem redFlat_reduced {α : Type} (f : α → α → α) (e : α) (hid : ∀ x, f e x = x)
    (s : Nat) (ss ns : List Nat) (d : Nat → α) (j : Nat) (hj : j < ns.prod) :
    redFlat f e (s :: ss) (1 :: ns) d j =
      foldAxis f e s (fun i => redFlat f e ss ns (fun p => d (i * ss.prod + p)) j) := by
  by_cases hs : (1 : Nat) = s
  · rw [redFlat_kept f e s 1 ss ns d j hs, Nat.mod_eq_of_lt hj, Nat.div_eq_of_lt hj,
      ← hs, foldAxis_one f e _ hid]
  · rw [redFlat_red f e s 1 ss ns d j hs, Nat.mod_eq_of_lt hj]

/-- `splitted_shape` on fully-known (`Nat`) shapes. -/
def splittedN (shape : List Nat) (dim k : Nat) (mid : List Nat) : List Nat :=
  shape.take dim ++ [shape.getD dim 0 / k] ++ mid ++ shape.drop (dim + 1)

theorem splittedN_zero (s : Nat) (ss : List Nat) (k : Nat) (mid : List Nat) :
    splittedN (s :: ss) 0 k mid = (s / k) :: (mid ++ ss) := by
  simp [splittedN]

theorem splittedN_succ (s : Nat) (ss : List Nat) (d k : Nat) (mid : List Nat) :
    splittedN (s :: ss) (d + 1) k mid = s :: splittedN ss d k mid := by
  simp [splittedN]

theorem prod_splittedN_mid (shape : List Nat) (d k : Nat) (mid : List Nat) :
    (splittedN shape d k mid).prod = mid.prod * (splittedN shape d k []).prod := by
  simp only [splittedN, List.prod_append, List.prod_cons, List.prod_nil]
  ring

theorem prod_splittedN_base (shape : List Nat) : ∀ (d k : Nat), d < shape.length →
    k ∣ shape.getD d 0 → k * (splittedN shape d k []).prod = shape.prod := by
  induction shape with
  | nil => intro d k hd _; exact absurd hd (by simp)
  | cons s ss ih =>
    intro d k hd hk
    match d with
    | 0 =>
      rw [splittedN_zero, List.nil_append, List.prod_cons, List.prod_cons,
        ← Nat.mul_assoc, Nat.mul_div_cancel' (by simpa using hk)]
    | d + 1 =>
      rw [splittedN_succ, List.prod_cons, List.prod_cons, ← ih d k (by simpa using hd)
        (by simpa using hk)]
      ring

theorem validNew_leNew (ss : List Nat) : ∀ (ns : List Nat),
    validNew ss ns → 0 < ss.prod → leNew ss ns := by
  induction ss with
  | nil =>
    intro ns hv _
    match ns with
    | [] => trivial
    | _ :: _ => exact absurd hv (by simp [validNew])
  | cons s ss ih =>
    intro ns hv hp
    match ns with
    | [] => exact absurd hv (by simp [validNew])
    | n :: ns =>
      obtain ⟨hvh, hvt⟩ := hv
      rw [List.prod_cons] at hp
      have hsp : 0 < s := by
        rcases Nat.eq_zero_or_pos s with h0 | h
        · rw [h0, Nat.zero_mul] at hp; omega
        · exact h
      have hssp : 0 < ss.prod := by
        rcases Nat.eq_zero_or_pos ss.prod with h0 | h
        · rw [h0, Nat.mul_zero] at hp; omega
        · exact h
      exact ⟨by rcases hvh with h | h <;> omega, ih ns hvt hssp⟩

theorem leNew_splittedN (ss : List Nat) : ∀ (ns : List Nat) (d k : Nat),
    d < ss.length → validNew ss ns → 0 < ss.prod → ns.getD d 0 = 1 →
    k ∣ ss.getD d 0 → leNew (splittedN ss d k []) ns := by
  induction ss with
  | nil => intro ns d k hd _ _ _ _; exact absurd hd (by simp)
  | cons s ss ih =>
    intro ns d k hd hv hp hnd hk
    match ns with
    | [] => exact absurd hv (by simp [validNew])
    | n :: ns =>
      obtain ⟨hvh, hvt⟩ := hv
      rw [List.prod_cons] at hp
      have hsp : 0 < s := by
        rcases Nat.eq_zero_or_pos s with h0 | h
        · rw [h0, Nat.zero_mul] at hp; omega
        · exact h
      have hssp : 0 < ss.prod := by
        rcases Nat.eq_zero_or_pos ss.prod with h0 | h
        · rw [h0, Nat.mul_zero] at hp; omega
        · exact h
      match d with
      | 0 =>
        rw [splittedN_zero, List.nil_append]
        refine ⟨?_, validNew_leNew ss ns hvt hssp⟩
        have hn1 : n = 1 := by simpa using hnd
        have hk0 : 0 < k := by
          rcases Nat.eq_zero_or_pos k with h0 | h
          · subst h0
            have : s = 0 := by simpa using (Nat.eq_zero_of_zero_dvd (by simpa using hk))
            omega
          · exact h
        have hks : k ≤ s := Nat.le_of_dvd hsp (by simpa using hk)
        have : 1 ≤ s / k := (Nat.one_le_div_iff hk0).mpr hks
        omega
      | d + 1 =>
        rw [splittedN_succ]
        refine ⟨by rcases hvh with h | h <;> omega, ?_⟩
        exact ih ns d k (by simpa using hd) hvt hssp (by simpa using hnd) (by simpa using hk)

/-- The kept-dimension unfolding with an in-range block offset. -/
theorem redFlat_kept_block {α : Type} (f : α → α → α) (e : α) (s : Nat)
    (A B : List Nat) (data : Nat → α) (J p : Nat) (hp : p < B.prod) :
    redFlat f e (s :: A) (s :: B) data (J * B.prod + p) =
      redFlat f e A B (fun p2 => data (J * A.prod + p2)) p := by
  have hBp : 0 < B.prod := Nat.pos_of_ne_zero (by omega)
  rw [redFlat_kept f e s s A B data _ rfl]
  have hdiv : (J * B.prod + p) / B.prod = J := by
    rw [Nat.mul_comm J, Nat.mul_add_div hBp, Nat.div_eq_of_lt hp, Nat.add_zero]
  have hmod : (J * B.prod + p) % B.prod = p := by
    rw [Nat.mul_comm J, Nat.mul_add_mod, Nat.mod_eq_of_lt hp]
  rw [hdiv, hmod]

/-- The heart of the reduce-split equivalence: reducing `shape → new` directly
equals first splitting dimension `d` into `(shape[d]/k, k)`, reducing away the
inner `k` axis, dropping the singleton, and reducing to `new`, for any
commutative-associative operator with identity. -/
theorem redFlat_split_eq {α : Type} (f : α → α → α) (e : α)
    (hcomm : ∀ x y, f x y = f y x) (hassoc : ∀ x y z, f (f x y) z = f x (f y z))
    (hid : ∀ x, f e x = x) (shape : List Nat) :
    ∀ (new : List Nat) (d k : Nat) (data : Nat → α) (j : Nat),
      d < shape.length → validNew shape new → 0 < shape.prod →
      new.getD d 0 = 1 → shape.getD d 0 ≠ 1 → k ∣ shape.getD d 0 → 0 < k →
      j < new.prod →
      redFlat f e (splittedN shape d k []) new
        (fun q => redFlat f e (splittedN shape d k [k]) (splittedN shape d k [1]) data q) j
        = redFlat f e shape new data j := by
  induction shape with
  | nil => intro new d k data j hd _ _ _ _ _ _ _; exact absurd hd (by simp)
  | cons s ss ih =>
    intro new d k data j hd hval hpos hnd hsneq hk hk0 hj
    match new with
    | [] => exact absurd hval (by simp [validNew])
    | n :: ns =>
      obtain ⟨hvh, hvt⟩ := hval
      rw [List.prod_cons] at hpos hj
      have hsp : 0 < s := by
        rcases Nat.eq_zero_or_pos s with h0 | h
        · rw [h0, Nat.zero_mul] at hpos; omega
        · exact h
      have hssp : 0 < ss.prod := by
        rcases Nat.eq_zero_or_pos ss.prod with h0 | h
        · rw [h0, Nat.mul_zero] at hpos; omega
        · exact h
      match d with
      | 0 =>
        have hn1 : n = 1 := by simpa using hnd
        subst hn1
        have hks : k ∣ s := by simpa using hk
        rw [Nat.one_mul] at hj
        simp only [splittedN_zero, List.cons_append, List.nil_append]
        rw [redFlat_reduced f e hid (s / k) ss ns _ j hj,
          redFlat_reduced f e hid s ss ns data j hj]
        have key : ∀ q, redFlat f e ss ns
            (fun p => redFlat f e ((s / k) :: k :: ss) ((s / k) :: 1 :: ss) data
              (q * ss.prod + p)) j
            = foldAxis f e k
                (fun r2 => redFlat f e ss ns (fun p => data ((q * k + r2) * ss.prod + p)) j) := by
          intro q
          have hag : ∀ p, p < ss.prod →
              redFlat f e ((s / k) :: k :: ss) ((s / k) :: 1 :: ss) data (q * ss.prod + p)
              = foldAxis f e k (fun r2 => data ((q * k + r2) * ss.prod + p)) := by
            intro p hp
            have h1s : (1 :: ss).prod = ss.prod := by simp
            have hidx : q * ss.prod + p = q * (1 :: ss).prod + p := by rw [h1s]
            rw [hidx, redFlat_kept_block f e (s / k) (k :: ss) (1 :: ss) data q p
              (by rw [h1s]; exact hp)]
            rw [redFlat_reduced f e hid k ss ss _ p hp]
            refine foldAxis_congr f e k _ _ ?_
            intro r2 _
            rw [redFlat_id f e ss _ p hp]
            congr 1
            simp only [List.prod_cons]
            ring
          rw [redFlat_congr f e ss ns _
            (fun p => foldAxis f e k (fun r2 => data ((q * k + r2) * ss.prod + p))) j
            (validNew_leNew ss ns hvt hssp) hag hj]
          exact redFlat_foldAxis f e hcomm hassoc hid ss ns k _ j
        rw [foldAxis_congr f e (s / k)
          (fun q => redFlat f e ss ns
            (fun p => redFlat f e ((s / k) :: k :: ss) ((s / k) :: 1 :: ss) data
              (q * ss.prod + p)) j)
          (fun q => foldAxis f e k
            (fun r2 => redFlat f e ss ns (fun p => data ((q * k + r2) * ss.prod + p)) j))
          (fun q _ => key q)]
        conv_rhs => rw [← Nat.div_mul_cancel hks]
        rw [foldAxis_mul f e hcomm hassoc hid (s / k) k
          (fun i => redFlat f e ss ns (fun p => data (i * ss.prod + p)) j)]
      | d + 1 =>
        have hd' : d < ss.length := by simpa using hd
        have hnd' : ns.getD d 0 = 1 := by simpa using hnd
        have hsneq' : ss.getD d 0 ≠ 1 := by simpa using hsneq
        have hk' : k ∣ ss.getD d 0 := by simpa using hk
        have hbase : k * (splittedN ss d k []).prod = ss.prod :=
          prod_splittedN_base ss d k hd' hk'
        have hT0p : 0 < (splittedN ss d k []).prod := by
          rcases Nat.eq_zero_or_pos (splittedN ss d k []).prod with h0 | h
          · rw [h0, Nat.mul_zero] at hbase; omega
          · exact h
        have hT1 : (splittedN ss d k [1]).prod = (splittedN ss d k []).prod := by
          rw [prod_splittedN_mid]; simp
        have hTk : (splittedN ss d k [k]).prod = ss.prod := by
          rw [prod_splittedN_mid]
          simp only [List.prod_cons, List.prod_nil, Nat.mul_one]
          exact hbase
        simp only [splittedN_succ]
        have key : ∀ (J j2 : Nat), j2 < ns.prod →
            redFlat f e (splittedN ss d k []) ns
              (fun p => redFlat f e (s :: splittedN ss d k [k]) (s :: splittedN ss d k [1])
                data (J * (splittedN ss d k []).prod + p)) j2
            = redFlat f e ss ns (fun p2 => data (J * ss.prod + p2)) j2 := by
          intro J j2 hj2
          have hag : ∀ p, p < (splittedN ss d k []).prod →
              redFlat f e (s :: splittedN ss d k [k]) (s :: splittedN ss d k [1]) data
                (J * (splittedN ss d k []).prod + p)
              = redFlat f e (splittedN ss d k [k]) (splittedN ss d k [1])
                  (fun p2 => data (J * ss.prod + p2)) p := by
            intro p hp
            have hidx : J * (splittedN ss d k []).prod + p
                = J * (splittedN ss d k [1]).prod + p := by rw [hT1]
            rw [hidx, redFlat_kept_block f e s _ _ data J p (by rw [hT1]; exact hp), hTk]
          rw [redFlat_congr f e (splittedN ss d k []) ns _
            (fun p => redFlat f e (splittedN ss d k [k]) (splittedN ss d k [1])
              (fun p2 => data (J * ss.prod + p2)) p) j2
            (leNew_splittedN ss ns d k hd' hvt hssp hnd' hk') hag hj2]
          exact ih ns d k _ j2 hd' hvt hssp hnd' hsneq' hk' hk0 hj2
        rcases hvh with h | h
        · subst h
          have hnsp : 0 < ns.prod := by
            rcases Nat.eq_zero_or_pos ns.prod with h0 | h2
            · rw [h0, Nat.mul_zero] at hj; omega
            · exact h2
          rw [redFlat_kept f e n n (splittedN ss d k []) ns _ j rfl,
            redFlat_kept f e n n ss ns data j rfl]
          exact key _ _ (Nat.mod_lt _ hnsp)
        · subst h
          rw [Nat.one_mul] at hj
          rw [redFlat_reduced f e hid s (splittedN ss d k []) ns _ j hj,
            redFlat_reduced f e hid s ss ns data j hj]
          exact foldAxis_congr f e s _ _ (fun i _ => key i j hj)

theorem natsOf_getD (shape : List SInt) : ∀ (d : Nat),
    (natsOf shape).getD d 0 = (shape.getD d (.lit 0)).toNat := by
  induction shape with
  | nil => intro d; simp [natsOf, SInt.toNat]
  | cons x xs ih => intro d; match d with
    | 0 => simp [natsOf]
    | d + 1 => simpa [natsOf] using ih d

theorem natsOf_splitted (shape : List SInt) (d k : Nat) (mid : List SInt) :
    natsOf (splitted_shape shape d k mid) = splittedN (natsOf shape) d k (natsOf mid) := by
  simp only [natsOf, splitted_shape, splittedN, List.map_append, List.map_take,
    List.map_drop, List.map_cons, List.map_nil]
  rw [← natsOf_getD shape d]
  rfl

/-- **C1**: for every sum or max reduction whose input triggers the two-pass
split heuristic in `r`, the split path — reshape to
`splitted_shape (divisor,)`, first reduce to `splitted_shape (1,)`, reshape
away the singleton to `splitted_shape ()`, second reduce to the final shape —
produces a result identical to the single direct reduction on the same input;
the split is purely a performance transform.  Stated denotationally over
`redFlat` (the backend reduce semantics on flat contiguous data, under which
the two interleaved contiguous reshapes are the identity on the flat data),
for any commutative, associative operator with identity — which covers exact
sum and max — with `divisor = gcd 256 shape[d]` exactly as `r` computes it,
for every split dimension `d` that strictly changes (as the heuristic
requires) in a valid reduction, and every output position `j`. -/
theorem reduce_split_equivalence {α : Type} (f : α → α → α) (e : α)
    (hcomm : ∀ x y, f x y = f y x) (hassoc : ∀ x y z, f (f x y) z = f x (f y z))
    (hid : ∀ x, f e x = x)
    (shape new_shape : List SInt) (d : Nat) (data : Nat → α) (j : Nat)
    (hd : d < shape.length)
    (hval : validNew (natsOf shape) (natsOf new_shape))
    (hpos : 0 < (natsOf shape).prod)
    (hnd : (natsOf new_shape).getD d 0 = 1)
    (hneq : (natsOf shape).getD d 0 ≠ (natsOf new_shape).getD d 0)
    (hj : j < (natsOf new_shape).prod) :
    redFlat f e
        (natsOf (splitted_shape shape d (Nat.gcd 256 ((shape.getD d (.lit 0)).toNat)) []))
        (natsOf new_shape)
        (fun q => redFlat f e
          (natsOf (splitted_shape shape d (Nat.gcd 256 ((shape.getD d (.lit 0)).toNat))
            [.lit (Nat.gcd 256 ((shape.getD d (.lit 0)).toNat))]))
          (natsOf (splitted_shape shape d (Nat.gcd 256 ((shape.getD d (.lit 0)).toNat))
            [.lit 1]))
          data q) j
      = redFlat f e (natsOf shape) (natsOf new_shape) data j := by
  have hlen : d < (natsOf shape).length := by simpa [natsOf] using hd
  rw [natsOf_splitted, natsOf_splitted, natsOf_splitted]
  have hmid1 : natsOf [SInt.lit (Nat.gcd 256 ((shape.getD d (.lit 0)).toNat))]
      = [Nat.gcd 256 ((shape.getD d (.lit 0)).toNat)] := rfl
  have hmid2 : natsOf [SInt.lit 1] = [1] := rfl
  have hmid0 : natsOf ([] : List SInt) = [] := rfl
  rw [hmid0, hmid1, hmid2]
  have hgd := natsOf_getD shape d
  refine redFlat_split_eq f e hcomm hassoc hid (natsOf shape) (natsOf new_shape) d
    (Nat.gcd 256 ((shape.getD d (.lit 0)).toNat)) data j hlen hval hpos hnd ?_ ?_ ?_ hj
  · omega
  · rw [hgd]; exact Nat.gcd_dvd_right _ _
  · exact Nat.gcd_pos_of_pos_left _ (by omega)

theorem reduce_split_equivalence_witness :
    redFlat Nat.add 0
        (natsOf (splitted_shape [SInt.lit 4] 0 (Nat.gcd 256 ((([SInt.lit 4]).getD 0 (.lit 0)).toNat)) []))
        (natsOf [SInt.lit 1])
        (fun q => redFlat Nat.add 0
          (natsOf (splitted_shape [SInt.lit 4] 0 (Nat.gcd 256 ((([SInt.lit 4]).getD 0 (.lit 0)).toNat))
            [.lit (Nat.gcd 256 ((([SInt.lit 4]).getD 0 (.lit 0)).toNat))]))
          (natsOf (splitted_shape [SInt.lit 4] 0 (Nat.gcd 256 ((([SInt.lit 4]).getD 0 (.lit 0)).toNat))
            [.lit 1]))
          (fun p => p) q) 0
      = redFlat Nat.add 0 (natsOf [SInt.lit 4]) (natsOf [SInt.lit 1]) (fun p => p) 0 :=
  reduce_split_equivalence Nat.add 0 Nat.add_comm Nat.add_assoc Nat.zero_add
    [SInt.lit 4] [SInt.lit 1] 0 (fun p => p) 0 (by decide) (by simp [validNew, natsOf, SInt.toNat])
    (by decide) (by decide) (by decide) (by decide)

/-! ## Example graphs used as concrete witnesses -/

/-- A single EMPTY load base over shape `(2, 3)` (arena index 0). -/
def exBaseA : Arena :=
  (LazyBuffer.loadop Arena.empty .EMPTY [.lit 2, .lit 3] 1 "CPU" .none Option.none).1

/-- `exBaseA` extended with a reshape view `(6,)` of the base (arena index 1). -/
def exViewA : Arena :=
  match LazyBuffer.reshape exBaseA 0 [.lit 6] with
  | some (a, _) => a
  | Option.none => Arena.empty

/-- **C6**: every movement operation whose view-algebra result equals the
node's current view returns the identical node (same arena, same index — no
allocation); in particular `t.reshape(t.shape)` is `t`. -/
theorem movement_identity_short_circuit (a : Arena) (i : Nat) :
    (∀ arg, (a.get i).st.reshape arg = (a.get i).st →
      LazyBuffer.reshape a i arg = some (a, i)) ∧
    (∀ arg, (a.get i).st.permute arg = (a.get i).st →
      LazyBuffer.permute a i arg = some (a, i)) ∧
    (∀ arg, (a.get i).st.shrink arg = (a.get i).st →
      LazyBuffer.shrink a i arg = some (a, i)) ∧
    (∀ arg, (a.get i).st.stride arg = (a.get i).st →
      LazyBuffer.stride a i arg = some (a, i)) ∧
    (∀ arg, (a.get i).st.expand arg = (a.get i).st →
      LazyBuffer.expand a i arg = some (a, i)) ∧
    (∀ arg, (a.get i).st.pad arg = (a.get i).st →
      LazyBuffer.pad a i arg = some (a, i)) ∧
    LazyBuffer.reshape a i (a.shapeOf i) = some (a, i) := by
  refine ⟨?_, ?_, ?_, ?_, ?_, ?_, ?_⟩
  · intro arg h; simp [LazyBuffer.reshape, LazyBuffer._movement_op, h]
  · intro arg h; simp [LazyBuffer.permute, LazyBuffer._movement_op, h]
  · intro arg h; simp [LazyBuffer.shrink, LazyBuffer._movement_op, h]
  · intro arg h; simp [LazyBuffer.stride, LazyBuffer._movement_op, h]
  · intro arg h; simp [LazyBuffer.expand, LazyBuffer._movement_op, h]
  · intro arg h; simp [LazyBuffer.pad, LazyBuffer._movement_op, h]
  · have h : (a.get i).st.reshape (a.shapeOf i) = (a.get i).st := by
      simp [ShapeTracker.reshape, Arena.shapeOf]
    simp [LazyBuffer.reshape, LazyBuffer._movement_op, h]

theorem movement_identity_short_circuit_witness :
    LazyBuffer.reshape exBaseA 0 [.lit 2, .lit 3] = some (exBaseA, 0) :=
  (movement_identity_short_circuit exBaseA 0).1 [.lit 2, .lit 3] (by decide)

/-- **C10**: assigning the realized slot of a view node (one whose base is
not itself) fails the `assert self.base == self` check rather than writing
through to the base, while reads of `realized` through a view delegate to the
base. -/
theorem realized_setter_base_only (a : Arena) (i : Nat) (h : a.baseOf i ≠ i) :
    (∀ w, Arena.setRealized a i w = Option.none) ∧
    a.realizedOf i = (a.get (a.baseOf i)).realized := by
  refine ⟨fun w => ?_, rfl⟩
  simp [Arena.setRealized, h]

theorem realized_setter_base_only_witness :
    Arena.setRealized exViewA 1 7 = Option.none ∧
    Arena.realizedOf exViewA 1 = (exViewA.get (exViewA.baseOf 1)).realized :=
  ⟨(realized_setter_base_only exViewA 1 (by decide)).1 7,
   (realized_setter_base_only exViewA 1 (by decide)).2⟩

/-! ## Buffer-slot resolution (C7) -/

theorem pydedup_loop_mem {α : Type} [DecidableEq α] (l : List α) :
    ∀ (acc : List α) (x : α),
      x ∈ l.foldl (fun acc x => if x ∈ acc then acc else acc ++ [x]) acc ↔
        x ∈ acc ∨ x ∈ l := by
  induction l with
  | nil => intro acc x; simp
  | cons h t ih =>
    intro acc x
    simp only [List.foldl_cons]
    by_cases hmem : h ∈ acc
    · rw [if_pos hmem, ih]
      constructor
      · rintro (hx | hx)
        · exact Or.inl hx
        · exact Or.inr (List.mem_cons_of_mem h hx)
      · rintro (hx | hx)
        · exact Or.inl hx
        · rcases List.mem_cons.mp hx with rfl | hx
          · exact Or.inl hmem
          · exact Or.inr hx
    · rw [if_neg hmem, ih]
      simp [List.mem_append, List.mem_cons]
      tauto
  
theorem pydedup_mem {α : Type} [DecidableEq α] (l : List α) (x : α) :
    x ∈ pydedup l ↔ x ∈ l := by
  rw [pydedup, pydedup_loop_mem]
  simp

theorem pydedup_loop_nodup {α : Type} [DecidableEq α] (l : List α) :
    ∀ (acc : List α), acc.Nodup →
      (l.foldl (fun acc x => if x ∈ acc then acc else acc ++ [x]) acc).Nodup := by
  induction l with
  | nil => intro acc h; simpa using h
  | cons h t ih =>
    intro acc hacc
    simp only [List.foldl_cons]
    by_cases hmem : h ∈ acc
    · rw [if_pos hmem]; exact ih acc hacc
    · rw [if_neg hmem]
      refine ih _ ?_
      simpa [List.nodup_append] using ⟨hacc, hmem⟩

theorem pydedup_nodup {α : Type} [DecidableEq α] (l : List α) : (pydedup l).Nodup :=
  pydedup_loop_nodup l [] List.nodup_nil

theorem base_bufs_mem (a : Arena) (op : LazyOp) (x : Nat)
    (hx : x ∈ op.buffers) (hc : isConstBase a x = false) :
    a.baseOf x ∈ base_bufs_of a op := by
  rw [base_bufs_of, pydedup_mem]
  exact List.mem_map_of_mem _ (List.mem_filter.mpr ⟨hx, by simp [hc]⟩)

/-- **C7**: in buffer-slot resolution, every non-constant leaf resolves to a
MEM descriptor whose (1-based) slot is the index of its base in the
deduplicated base list; two non-constant leaves get the same slot exactly
when they share a base; constant leaves become CONST descriptors carrying no
slot; and a leaf that is neither a constant nor a resolvable memory
reference (its base holds no operation) makes `_ast_bufferops` fail
fatally. -/
theorem bufferops_slot_resolution (a : Arena) (op : LazyOp) :
    (∀ x, x ∈ op.buffers → isConstBase a x = false → ∀ l, a.opOf x = some l →
      bufReplacement a (base_bufs_of a op) x
        = some (.node (.buffer .MEM) .nil
            (.mem ⟨List.indexOf (a.baseOf x) (base_bufs_of a op) + 1, (a.get x).dtype,
                   (a.get x).st.simplify⟩))
      ∧ 1 ≤ List.indexOf (a.baseOf x) (base_bufs_of a op) + 1) ∧
    (∀ x y, x ∈ op.buffers → y ∈ op.buffers →
      isConstBase a x = false → isConstBase a y = false →
      (List.indexOf (a.baseOf x) (base_bufs_of a op)
          = List.indexOf (a.baseOf y) (base_bufs_of a op) ↔ a.baseOf x = a.baseOf y)) ∧
    (∀ x, isConstBase a x = true → ∀ l, a.opOf x = some l →
      bufReplacement a (base_bufs_of a op) x
        = some (.node (.buffer .CONST) .nil
            (.cbuf ⟨argInt l.argOf, (a.get x).dtype, (a.get x).st.simplify⟩))) ∧
    (∀ x, x ∈ op.buffers → a.opOf x = Option.none → _ast_bufferops a op = Option.none) := by
  refine ⟨?_, ?_, ?_, ?_⟩
  · intro x hx hc l hl
    have hcl : (l.opc == some (OpType.load LoadOps.CONST)) = false := by
      rw [isConstBase, hl] at hc
      exact hc
    refine ⟨?_, by omega⟩
    simp only [bufReplacement, hl, hcl, Bool.false_eq_true, if_false]
    rw [if_pos (base_bufs_mem a op x hx hc)]
  · intro x y hx hy hcx hcy
    have hmx := base_bufs_mem a op x hx hcx
    have hmy := base_bufs_mem a op y hy hcy
    constructor
    · intro hidx
      exact (List.indexOf_inj hmx hmy).mp hidx
    · intro hb
      rw [hb]
  · intro x hc l hl
    have hcl : (l.opc == some (OpType.load LoadOps.CONST)) = true := by
      rw [isConstBase, hl] at hc
      exact hc
    simp only [bufReplacement, hl, hcl, if_true]
  · intro x hx hnone
    rw [_ast_bufferops]
    rw [if_neg]
    intro hall
    rw [List.all_eq_true] at hall
    have := hall x hx
    rw [bufReplacement, hnone] at this
    simp at this

/-- Arena with an EMPTY base (0), a reshape view of it (1), and a CONST
base (2). -/
def exSlotA : Arena :=
  let a0 := (LazyBuffer.loadop Arena.empty .EMPTY [.lit 2] 1 "CPU" .none Option.none).1
  let a1 := match LazyBuffer.reshape a0 0 [.lit 1, .lit 2] with
            | some (a, _) => a
            | Option.none => Arena.empty
  (LazyBuffer.loadop a1 .CONST [] 1 "CPU" (.val 3) Option.none).1

/-- An operation tree whose leaves are the base, its view, and the const. -/
def exSlotOp : LazyOp :=
  .node (.binary .ADD) (.ofList [.buf 0, .buf 1, .buf 2]) .none

theorem bufferops_slot_resolution_witness :
    List.indexOf (exSlotA.baseOf 0) (base_bufs_of exSlotA exSlotOp)
      = List.indexOf (exSlotA.baseOf 1) (base_bufs_of exSlotA exSlotOp) ↔
    exSlotA.baseOf 0 = exSlotA.baseOf 1 :=
  (bufferops_slot_resolution exSlotA exSlotOp).2.1 0 1 (by decide) (by decide)
    (by decide) (by decide)

/-! ## Elementwise fusion-at-construction (C9) -/

/-- **C9**: `e` substitutes a source's own operation tree for the source
buffer exactly when the source is (a) not yet realized, (b) contiguous
relative to its own base, (c) itself an elementwise-category operation, and
(d) has no consumer registered; all other sources are kept as buffer
leaves.  The first conjunct shows the node `e` allocates carries precisely
the per-source `inlineSrc` substitution; the rest characterize it. -/
theorem e_fusion_at_construction (a : Arena) (i : Nat) (op : OpType)
    (extra : List Nat) (arg : OpArg) :
    (LazyBuffer.e a i op extra arg
      = Arena.allocBase a
          (some (.node op (.ofList ((i :: extra).map (inlineSrc a))) arg))
          (ShapeTracker.from_shape (a.shapeOf i))
          (match op, arg with
            | .unary .CAST, .castArg d _ => d
            | _, _ => ((i :: extra).map (fun x => (a.get x).dtype)).foldl Nat.max 0)
          (a.get i).device Option.none) ∧
    (∀ x, inlineCond a x = true ↔
      ((a.realizedOf x).isNone ∧ a.is_contiguous x = true ∧
       (∃ l o, a.opOf x = some l ∧ l.opc = some o ∧ o.isElementwise = true) ∧
       a.childrenOf x = [])) ∧
    (∀ x l, a.opOf x = some l → inlineCond a x = true → inlineSrc a x = l) ∧
    (∀ x, inlineCond a x = false → inlineSrc a x = .buf x) := by
  refine ⟨?_, ?_, ?_, ?_⟩
  · rfl
  · intro x
    rw [inlineCond]
    constructor
    · intro h
      simp only [Bool.and_eq_true] at h
      obtain ⟨⟨⟨h1, h2⟩, h3⟩, h4⟩ := h
      refine ⟨by simpa using h1, h2, ?_, by simpa [List.isEmpty_iff] using h4⟩
      cases hop : a.opOf x with
      | none =>
        simp only [hop] at h3
        exact Bool.noConfusion h3
      | some l =>
        simp only [hop] at h3
        cases hoc : l.opc with
        | none =>
          simp only [hoc] at h3
          exact Bool.noConfusion h3
        | some o =>
          simp only [hoc] at h3
          exact ⟨l, o, rfl, hoc, h3⟩
    · rintro ⟨h1, h2, ⟨l, o, hl, ho, he⟩, h4⟩
      simp only [Bool.and_eq_true]
      refine ⟨⟨⟨by simpa using h1, h2⟩, ?_⟩, by simp [h4]⟩
      simp only [hl, ho]
      exact he
  · intro x l hl hc
    rw [inlineSrc, if_pos hc, hl]
    rfl
  · intro x hc
    rw [inlineSrc, if_neg (by simp [hc])]

/-- Arena with an EMPTY base (0) and a NEG elementwise node over it (1). -/
def exChainA : Arena :=
  let a0 := (LazyBuffer.loadop Arena.empty .EMPTY [.lit 2] 1 "CPU" .none Option.none).1
  (LazyBuffer.e a0 0 (.unary .NEG) [] .none).1

theorem e_fusion_at_construction_witness :
    inlineSrc exChainA 1 = .node (.unary .NEG) (.cons (.buf 0) .nil) .none :=
  (e_fusion_at_construction exChainA 1 (.binary .MUL) [] .none).2.2.1 1
    (.node (.unary .NEG) (.cons (.buf 0) .nil) .none) (by decide) (by decide)

/-! ## Reduce dispatch (C3, C8) -/

theorem r_split_aux (a : Arena) (i : Nat) (op : ReduceOps) (new_shape : List SInt)
    (h : ℚ) (dvr dim : Nat)
    (hint : allInt (a.shapeOf i) = true)
    (hratio : ¬ (natsOf (a.shapeOf i)).prod / (natsOf new_shape).prod < 32768)
    (hmax : maxTriple (reduceCands (natsOf (a.shapeOf i)) (natsOf new_shape)
              ((a.get i).st.realStrides)) = some (h, dvr, dim))
    (hdvr : ¬ dvr < 16) (hh : ¬ h < mkRat 1 10) :
    LazyBuffer.r a i op new_shape = (do
      let (a1, j1) ← LazyBuffer.reshape a i (splitted_shape (a.shapeOf i) dim dvr [.lit dvr])
      let (a2, j2) := LazyBuffer._reduce_op a1 j1 op (splitted_shape (a.shapeOf i) dim dvr [.lit 1])
      let (a3, j3) ← LazyBuffer.reshape a2 j2 (splitted_shape (a.shapeOf i) dim dvr [])
      some (LazyBuffer._reduce_op a3 j3 op new_shape)) := by
  simp only [LazyBuffer.r]
  rw [if_neg (by push_neg; exact ⟨hint, by omega⟩)]
  simp only [hmax]
  rw [if_neg (not_or.mpr ⟨hdvr, hh⟩)]

theorem r_direct_aux (a : Arena) (i : Nat) (op : ReduceOps) (new_shape : List SInt)
    (hcond : ¬ (allInt (a.shapeOf i) = true) ∨
      (natsOf (a.shapeOf i)).prod / (natsOf new_shape).prod < 32768 ∨
      (∃ (h : ℚ) (dvr dim : Nat),
        maxTriple (reduceCands (natsOf (a.shapeOf i)) (natsOf new_shape)
          ((a.get i).st.realStrides)) = some (h, dvr, dim) ∧
        (dvr < 16 ∨ h < mkRat 1 10))) :
    LazyBuffer.r a i op new_shape = some (LazyBuffer._reduce_op a i op new_shape) := by
  simp only [LazyBuffer.r]
  rcases hcond with hc | hc | ⟨h, dvr, dim, hmax, hc⟩
  · rw [if_pos (Or.inl hc)]
  · rw [if_pos (Or.inr hc)]
  · by_cases hfirst : ¬ (allInt (a.shapeOf i) = true) ∨
        (natsOf (a.shapeOf i)).prod / (natsOf new_shape).prod < 32768
    · rw [if_pos hfirst]
    · rw [if_neg hfirst]
      simp only [hmax]
      rw [if_pos hc]

/-- **C3**: whenever `r` takes the split path — the shape fully known, the
work ratio at least 32768, and the best `(heuristic, divisor, dim)` candidate
passing `divisor ≥ 16` and `heuristic ≥ 0.1` — it reshapes to the chosen
dimension split `(divisor, inner)`, first reduces collapsing only the inner
axis to `splitted_shape (1,)`, reshapes away the singleton, and second
reduces to the final shape. -/
theorem r_split_path_structure (a : Arena) (i : Nat) (op : ReduceOps)
    (new_shape : List SInt) (h : ℚ) (dvr dim : Nat)
    (hint : allInt (a.shapeOf i) = true)
    (hratio : 32768 ≤ (natsOf (a.shapeOf i)).prod / (natsOf new_shape).prod)
    (hmax : maxTriple (reduceCands (natsOf (a.shapeOf i)) (natsOf new_shape)
              ((a.get i).st.realStrides)) = some (h, dvr, dim))
    (hdvr : 16 ≤ dvr) (hh : mkRat 1 10 ≤ h) :
    LazyBuffer.r a i op new_shape = (do
      let (a1, j1) ← LazyBuffer.reshape a i (splitted_shape (a.shapeOf i) dim dvr [.lit dvr])
      let (a2, j2) := LazyBuffer._reduce_op a1 j1 op (splitted_shape (a.shapeOf i) dim dvr [.lit 1])
      let (a3, j3) ← LazyBuffer.reshape a2 j2 (splitted_shape (a.shapeOf i) dim dvr [])
      some (LazyBuffer._reduce_op a3 j3 op new_shape)) :=
  r_split_aux a i op new_shape h dvr dim hint (by omega) hmax (by omega) (not_lt.mpr hh)

theorem r_split_path_structure_witness :
    LazyBuffer.r (LazyBuffer.loadop Arena.empty .EMPTY [.lit 32768] 1 "CPU" .none Option.none).1
        0 .SUM [.lit 1] = (do
      let (a1, j1) ← LazyBuffer.reshape
        (LazyBuffer.loadop Arena.empty .EMPTY [.lit 32768] 1 "CPU" .none Option.none).1 0
        (splitted_shape ((LazyBuffer.loadop Arena.empty .EMPTY [.lit 32768] 1 "CPU" .none
          Option.none).1.shapeOf 0) 0 256 [.lit 256])
      let (a2, j2) := LazyBuffer._reduce_op a1 j1 .SUM
        (splitted_shape ((LazyBuffer.loadop Arena.empty .EMPTY [.lit 32768] 1 "CPU" .none
          Option.none).1.shapeOf 0) 0 256 [.lit 1])
      let (a3, j3) ← LazyBuffer.reshape a2 j2
        (splitted_shape ((LazyBuffer.loadop Arena.empty .EMPTY [.lit 32768] 1 "CPU" .none
          Option.none).1.shapeOf 0) 0 256 [])
      some (LazyBuffer._reduce_op a3 j3 .SUM [.lit 1])) :=
  r_split_path_structure
    (LazyBuffer.loadop Arena.empty .EMPTY [.lit 32768] 1 "CPU" .none Option.none).1
    0 .SUM [.lit 1] 256 256 0 (by decide) (by decide) (by decide) (by decide) (by decide)

/-- **C8**: `r`'s dispatch: an unchanged shape returns the same node; the
two-pass split is taken exactly under fully-known shape, ratio ≥ 32768, and a
best lexicographic candidate (score = gcd(256, size)/real-stride with
zero/undefined stride scoring as division by infinity) with divisor ≥ 16 and
score ≥ 0.1; in every other case a single direct `_reduce_op` is
performed. -/
theorem r_dispatch_conditions (a : Arena) (i : Nat) (op : ReduceOps)
    (new_shape : List SInt) :
    (a.shapeOf i = new_shape → LazyBuffer.r a i op new_shape = some (a, i)) ∧
    (∀ (h : ℚ) (dvr dim : Nat), allInt (a.shapeOf i) = true →
      32768 ≤ (natsOf (a.shapeOf i)).prod / (natsOf new_shape).prod →
      maxTriple (reduceCands (natsOf (a.shapeOf i)) (natsOf new_shape)
        ((a.get i).st.realStrides)) = some (h, dvr, dim) →
      16 ≤ dvr → mkRat 1 10 ≤ h →
      LazyBuffer.r a i op new_shape = (do
        let (a1, j1) ← LazyBuffer.reshape a i (splitted_shape (a.shapeOf i) dim dvr [.lit dvr])
        let (a2, j2) := LazyBuffer._reduce_op a1 j1 op (splitted_shape (a.shapeOf i) dim dvr [.lit 1])
        let (a3, j3) ← LazyBuffer.reshape a2 j2 (splitted_shape (a.shapeOf i) dim dvr [])
        some (LazyBuffer._reduce_op a3 j3 op new_shape))) ∧
    ((¬ (allInt (a.shapeOf i) = true) ∨
      (natsOf (a.shapeOf i)).prod / (natsOf new_shape).prod < 32768 ∨
      (∃ (h : ℚ) (dvr dim : Nat),
        maxTriple (reduceCands (natsOf (a.shapeOf i)) (natsOf new_shape)
          ((a.get i).st.realStrides)) = some (h, dvr, dim) ∧
        (dvr < 16 ∨ h < mkRat 1 10))) →
      LazyBuffer.r a i op new_shape = some (LazyBuffer._reduce_op a i op new_shape)) := by
  refine ⟨?_, ?_, ?_⟩
  · intro hsh
    have hlt : (natsOf (a.shapeOf i)).prod / (natsOf new_shape).prod < 32768 := by
      rw [hsh]
      rcases Nat.eq_zero_or_pos (natsOf new_shape).prod with h0 | hp
      · rw [h0]; simp
      · rw [Nat.div_self hp]; omega
    rw [r_direct_aux a i op new_shape (Or.inr (Or.inl hlt)), LazyBuffer._reduce_op,
      if_pos hsh]
  · intro h dvr dim hint hratio hmax hdvr hh
    exact r_split_aux a i op new_shape h dvr dim hint (by omega) hmax (by omega)
      (not_lt.mpr hh)
  · exact r_direct_aux a i op new_shape

theorem r_dispatch_conditions_witness :
    LazyBuffer.r exBaseA 0 .SUM [.lit 2, .lit 3] = some (exBaseA, 0) :=
  (r_dispatch_conditions exBaseA 0 .SUM [.lit 2, .lit 3]).1 (by decide)

/-! ## Arena invariants and extension lemmas (for the scheduler proofs) -/

theorem getD_append_lt {α : Type} [Inhabited α] (l1 l2 : List α) :
    ∀ (j : Nat), j < l1.length → (l1 ++ l2).getD j default = l1.getD j default := by
  induction l1 with
  | nil => intro j h; simp at h
  | cons x xs ih =>
    intro j h
    match j with
    | 0 => rfl
    | j + 1 => exact ih j (by simpa using h)

theorem getD_append_len {α : Type} [Inhabited α] (l1 : List α) (x : α) (l2 : List α) :
    (l1 ++ x :: l2).getD l1.length default = x := by
  induction l1 with
  | nil => rfl
  | cons y ys ih => exact ih

theorem getD_set_ne {α : Type} [Inhabited α] (l : List α) :
    ∀ (i j : Nat) (v : α), j ≠ i → (l.set i v).getD j default = l.getD j default := by
  induction l with
  | nil => intro i j v _; simp
  | cons x xs ih =>
    intro i j v hne
    match i, j with
    | 0, 0 => exact absurd rfl hne
    | 0, j + 1 => rfl
    | i + 1, 0 => rfl
    | i + 1, j + 1 => exact ih i j v (by omega)

theorem getD_set_self {α : Type} [Inhabited α] (l : List α) :
    ∀ (i : Nat) (v : α), i < l.length → (l.set i v).getD i default = v := by
  induction l with
  | nil => intro i v h; simp at h
  | cons x xs ih =>
    intro i v h
    match i with
    | 0 => rfl
    | i + 1 => exact ih i v (by simpa using h)

/-- Well-formed arena: every node's base points at or below itself, bases are
idempotent, and a base's operation references only strictly earlier nodes.
This is an invariant of graph construction (nodes are appended, and an
operation can only mention already existing buffers). -/
def Arena.WF (a : Arena) : Prop :=
  ∀ i, i < a.len →
    (a.get i).base ≤ i ∧
    (a.get ((a.get i).base)).base = (a.get i).base ∧
    ((a.get i).base = i → ∀ l, (a.get i).op = some l → ∀ j ∈ l.buffers, j < i)

/-- Arena evolution during scheduling: nodes are only appended, existing
nodes keep their identity fields (children sets may grow), and every new node
is operation-free and unrealized (a fresh view). -/
def SchedExt (a a' : Arena) : Prop :=
  a.len ≤ a'.len ∧
  (∀ j, j < a.len →
    (a'.get j).base = (a.get j).base ∧ (a'.get j).op = (a.get j).op ∧
    (a'.get j).realized = (a.get j).realized ∧ (a'.get j).st = (a.get j).st ∧
    (a'.get j).dtype = (a.get j).dtype ∧ (a'.get j).device = (a.get j).device) ∧
  (∀ j, a.len ≤ j → j < a'.len →
    (a'.get j).op = Option.none ∧ (a'.get j).realized = Option.none)

theorem SchedExt.refl (a : Arena) : SchedExt a a :=
  ⟨Nat.le_refl _, fun j _ => ⟨rfl, rfl, rfl, rfl, rfl, rfl⟩, fun j h1 h2 => by omega⟩

theorem SchedExt.trans {a b c : Arena} (h1 : SchedExt a b) (h2 : SchedExt b c) :
    SchedExt a c := by
  obtain ⟨l1, o1, n1⟩ := h1
  obtain ⟨l2, o2, n2⟩ := h2
  refine ⟨Nat.le_trans l1 l2, ?_, ?_⟩
  · intro j hj
    obtain ⟨b1, b2, b3, b4, b5, b6⟩ := o1 j hj
    obtain ⟨c1, c2, c3, c4, c5, c6⟩ := o2 j (by omega)
    exact ⟨c1.trans b1, c2.trans b2, c3.trans b3, c4.trans b4, c5.trans b5, c6.trans b6⟩
  · intro j hj1 hj2
    by_cases hb : j < b.len
    · obtain ⟨c1, c2, c3, c4, c5, c6⟩ := o2 j hb
      obtain ⟨d1, d2⟩ := n1 j hj1 hb
      exact ⟨c2.trans d1, c3.trans d2⟩
    · exact n2 j (by omega) hj2

theorem SchedExt.baseOf_eq {a a' : Arena} (h : SchedExt a a') (j : Nat) (hj : j < a.len) :
    a'.baseOf j = a.baseOf j := (h.2.1 j hj).1

theorem SchedExt.realizedOf_eq {a a' : Arena} (h : SchedExt a a') (hwf : Arena.WF a)
    (j : Nat) (hj : j < a.len) : a'.realizedOf j = a.realizedOf j := by
  have hb : (a.get j).base ≤ j := (hwf j hj).1
  simp only [Arena.realizedOf, Arena.baseOf]
  rw [(h.2.1 j hj).1, (h.2.1 ((a.get j).base) (by omega)).2.2.1]

theorem SchedExt.opOf_eq {a a' : Arena} (h : SchedExt a a') (hwf : Arena.WF a)
    (j : Nat) (hj : j < a.len) : a'.opOf j = a.opOf j := by
  have hb : (a.get j).base ≤ j := (hwf j hj).1
  simp only [Arena.opOf, Arena.baseOf]
  rw [(h.2.1 j hj).1, (h.2.1 ((a.get j).base) (by omega)).2.1]

theorem Arena.get_modifyAt_ne (a : Arena) (i j : Nat) (f : LazyBuffer → LazyBuffer)
    (h : j ≠ i) : (a.modifyAt i f).get j = a.get j :=
  getD_set_ne a.nodes i j _ h

theorem Arena.get_modifyAt_self (a : Arena) (i : Nat) (f : LazyBuffer → LazyBuffer)
    (h : i < a.len) : (a.modifyAt i f).get i = f (a.get i) :=
  getD_set_self a.nodes i _ h

theorem Arena.len_modifyAt (a : Arena) (i : Nat) (f : LazyBuffer → LazyBuffer) :
    (a.modifyAt i f).len = a.len := by
  simp [Arena.modifyAt, Arena.len]

theorem getD_set_oob {α : Type} [Inhabited α] (l : List α) :
    ∀ (i j : Nat) (v : α), l.length ≤ i → (l.set i v).getD j default = l.getD j default := by
  induction l with
  | nil => intro i j v _; simp
  | cons x xs ih =>
    intro i j v h
    match i, j with
    | 0, _ => simp at h
    | i + 1, 0 => rfl
    | i + 1, j + 1 => exact ih i j v (by simpa using h)

/-- `addChild` only touches the target base's children list. -/
theorem Arena.addChild_fields (a : Arena) (x c j : Nat) :
    ((a.addChild x c).get j).base = (a.get j).base ∧
    ((a.addChild x c).get j).op = (a.get j).op ∧
    ((a.addChild x c).get j).realized = (a.get j).realized ∧
    ((a.addChild x c).get j).st = (a.get j).st ∧
    ((a.addChild x c).get j).dtype = (a.get j).dtype ∧
    ((a.addChild x c).get j).device = (a.get j).device := by
  rw [Arena.addChild]
  by_cases hj : j = a.baseOf x
  · by_cases hl : a.baseOf x < a.len
    · rw [hj, Arena.get_modifyAt_self a _ _ hl]
      by_cases hc : c ∈ (a.get (a.baseOf x)).children
      · rw [if_pos hc]; exact ⟨rfl, rfl, rfl, rfl, rfl, rfl⟩
      · rw [if_neg hc]; exact ⟨rfl, rfl, rfl, rfl, rfl, rfl⟩
    · have hsame : ∀ (f : LazyBuffer → LazyBuffer),
          (a.modifyAt (a.baseOf x) f).get j = a.get j := by
        intro f
        rw [Arena.modifyAt, Arena.get, Arena.get]
        exact getD_set_oob a.nodes _ j _ (by rw [Arena.len] at hl; omega)
      rw [hsame]
      exact ⟨rfl, rfl, rfl, rfl, rfl, rfl⟩
  · rw [Arena.get_modifyAt_ne a _ j _ hj]
    exact ⟨rfl, rfl, rfl, rfl, rfl, rfl⟩

theorem Arena.addChild_len (a : Arena) (x c : Nat) : (a.addChild x c).len = a.len :=
  Arena.len_modifyAt a _ _

theorem addChild_fold_fields (bs : List Nat) :
    ∀ (a : Arena) (c j : Nat),
    ((bs.foldl (fun acc x => acc.addChild x c) a).get j).base = (a.get j).base ∧
    ((bs.foldl (fun acc x => acc.addChild x c) a).get j).op = (a.get j).op ∧
    ((bs.foldl (fun acc x => acc.addChild x c) a).get j).realized = (a.get j).realized ∧
    ((bs.foldl (fun acc x => acc.addChild x c) a).get j).st = (a.get j).st ∧
    ((bs.foldl (fun acc x => acc.addChild x c) a).get j).dtype = (a.get j).dtype ∧
    ((bs.foldl (fun acc x => acc.addChild x c) a).get j).device = (a.get j).device := by
  induction bs with
  | nil => intro a c j; exact ⟨rfl, rfl, rfl, rfl, rfl, rfl⟩
  | cons b bs ih =>
    intro a c j
    simp only [List.foldl_cons]
    obtain ⟨i1, i2, i3, i4, i5, i6⟩ := ih (a.addChild b c) c j
    obtain ⟨f1, f2, f3, f4, f5, f6⟩ := Arena.addChild_fields a b c j
    exact ⟨i1.trans f1, i2.trans f2, i3.trans f3, i4.trans f4, i5.trans f5, i6.trans f6⟩

theorem addChild_fold_len (bs : List Nat) : ∀ (a : Arena) (c : Nat),
    (bs.foldl (fun acc x => acc.addChild x c) a).len = a.len := by
  induction bs with
  | nil => intro a c; rfl
  | cons b bs ih =>
    intro a c
    simp only [List.foldl_cons]
    rw [ih, Arena.addChild_len]

theorem Arena.get_push_lt (a : Arena) (nb : LazyBuffer) (j : Nat) (h : j < a.len) :
    (Arena.mk (a.nodes ++ [nb])).get j = a.get j :=
  getD_append_lt a.nodes [nb] j h

theorem Arena.get_push_len (a : Arena) (nb : LazyBuffer) :
    (Arena.mk (a.nodes ++ [nb])).get a.len = nb :=
  getD_append_len a.nodes nb []

/-- Specification of `allocBase`: the new index is the old length, the new
node carries the given operation / realized source and is its own base, and
old nodes keep their identity fields. -/
theorem allocBase_spec (a : Arena) (op : Option LazyOp) (st : ShapeTracker)
    (dtype : Nat) (device : String) (src : Option Nat) :
    (Arena.allocBase a op st dtype device src).2 = a.len ∧
    (Arena.allocBase a op st dtype device src).1.len = a.len + 1 ∧
    (∀ j, j < a.len →
      ((Arena.allocBase a op st dtype device src).1.get j).base = (a.get j).base ∧
      ((Arena.allocBase a op st dtype device src).1.get j).op = (a.get j).op ∧
      ((Arena.allocBase a op st dtype device src).1.get j).realized = (a.get j).realized ∧
      ((Arena.allocBase a op st dtype device src).1.get j).st = (a.get j).st ∧
      ((Arena.allocBase a op st dtype device src).1.get j).dtype = (a.get j).dtype ∧
      ((Arena.allocBase a op st dtype device src).1.get j).device = (a.get j).device) ∧
    (((Arena.allocBase a op st dtype device src).1.get a.len).base = a.len ∧
     ((Arena.allocBase a op st dtype device src).1.get a.len).op = op ∧
     ((Arena.allocBase a op st dtype device src).1.get a.len).realized = src ∧
     ((Arena.allocBase a op st dtype device src).1.get a.len).st = st) := by
  simp only [Arena.allocBase]
  cases op with
  | none =>
    refine ⟨trivial, by simp [Arena.len], ?_, ?_⟩
    · intro j hj
      rw [Arena.get_push_lt a _ j hj]
      exact ⟨rfl, rfl, rfl, rfl, rfl, rfl⟩
    · rw [Arena.get_push_len]
      simp
  | some l =>
    refine ⟨trivial, ?_, ?_, ?_⟩
    · rw [addChild_fold_len]
      simp [Arena.len]
    · intro j hj
      obtain ⟨f1, f2, f3, f4, f5, f6⟩ := addChild_fold_fields l.buffers
        (Arena.mk (a.nodes ++ [⟨st, dtype, device, a.len, some l, src, []⟩])) a.len j
      rw [f1, f2, f3, f4, f5, f6, Arena.get_push_lt a _ j hj]
      exact ⟨rfl, rfl, rfl, rfl, rfl, rfl⟩
    · obtain ⟨f1, f2, f3, f4, f5, f6⟩ := addChild_fold_fields l.buffers
        (Arena.mk (a.nodes ++ [⟨st, dtype, device, a.len, some l, src, []⟩])) a.len a.len
      rw [f1, f2, f3, f4, Arena.get_push_len]
      simp

theorem allocBase_WF (a : Arena) (op : Option LazyOp) (st : ShapeTracker)
    (dtype : Nat) (device : String) (src : Option Nat) (hwf : Arena.WF a)
    (hop : ∀ l, op = some l → ∀ j ∈ l.buffers, j < a.len) :
    Arena.WF (Arena.allocBase a op st dtype device src).1 := by
  obtain ⟨hidx, hlen, hold, hnew⟩ := allocBase_spec a op st dtype device src
  intro i hi
  rw [hlen] at hi
  by_cases hia : i < a.len
  · obtain ⟨f1, f2, f3, f4, f5, f6⟩ := hold i hia
    obtain ⟨w1, w2, w3⟩ := hwf i hia
    rw [f1]
    refine ⟨w1, ?_, ?_⟩
    · rw [(hold ((a.get i).base) (by omega)).1, w2]
    · intro hb l hl j hj
      rw [f2] at hl
      exact w3 hb l hl j hj
  · have hieq : i = a.len := by omega
    subst hieq
    rw [hnew.1]
    refine ⟨Nat.le_refl _, by rw [hnew.1], ?_⟩
    intro _ l hl j hj
    rw [hnew.2.1] at hl
    exact hop l hl j hj

theorem allocView_spec (a : Arena) (st : ShapeTracker) (dt : Nat) (dev : String)
    (b : Nat) (a' : Arena) (i' : Nat)
    (h : Arena.allocView a st dt dev b = some (a', i')) :
    i' = a.len ∧ a'.len = a.len + 1 ∧
    (∀ j, j < a.len →
      (a'.get j).base = (a.get j).base ∧ (a'.get j).op = (a.get j).op ∧
      (a'.get j).realized = (a.get j).realized ∧ (a'.get j).st = (a.get j).st ∧
      (a'.get j).dtype = (a.get j).dtype ∧ (a'.get j).device = (a.get j).device) ∧
    (a'.get a.len).base = b ∧ (a'.get a.len).op = Option.none ∧
    (a'.get a.len).realized = Option.none ∧ (a'.get a.len).st = st := by
  rw [Arena.allocView] at h
  by_cases hc : (a.get b).st.contiguous = true
  · rw [if_pos hc] at h
    obtain ⟨ha, hi⟩ := Prod.mk.inj (Option.some.inj h)
    subst ha
    refine ⟨hi.symm, ?_, ?_, ?_, ?_, ?_, ?_⟩
    · rw [Arena.addChild_len]
      simp [Arena.len]
    · intro j hj
      obtain ⟨f1, f2, f3, f4, f5, f6⟩ := Arena.addChild_fields
        (Arena.mk (a.nodes ++ [⟨st, dt, dev, b, Option.none, Option.none, []⟩])) b a.len j
      rw [f1, f2, f3, f4, f5, f6, Arena.get_push_lt a _ j hj]
      exact ⟨rfl, rfl, rfl, rfl, rfl, rfl⟩
    all_goals {
      obtain ⟨f1, f2, f3, f4, f5, f6⟩ := Arena.addChild_fields
        (Arena.mk (a.nodes ++ [⟨st, dt, dev, b, Option.none, Option.none, []⟩])) b a.len a.len
      first
      | (rw [f1, Arena.get_push_len])
      | (rw [f2, Arena.get_push_len])
      | (rw [f3, Arena.get_push_len])
      | (rw [f4, Arena.get_push_len])
    }
  · rw [if_neg hc] at h
    exact absurd h (by simp)

theorem allocView_ext (a : Arena) (st : ShapeTracker) (dt : Nat) (dev : String)
    (b : Nat) (a' : Arena) (i' : Nat)
    (h : Arena.allocView a st dt dev b = some (a', i')) : SchedExt a a' := by
  obtain ⟨hi, hlen, hold, hb, hop, hre, hst⟩ := allocView_spec a st dt dev b a' i' h
  refine ⟨by omega, hold, ?_⟩
  intro j hj1 hj2
  have hje : j = a.len := by omega
  subst hje
  exact ⟨hop, hre⟩

theorem allocView_WF (a : Arena) (st : ShapeTracker) (dt : Nat) (dev : String)
    (b : Nat) (a' : Arena) (i' : Nat) (hwf : Arena.WF a) (hb : b < a.len)
    (hbb : (a.get b).base = b)
    (h : Arena.allocView a st dt dev b = some (a', i')) : Arena.WF a' := by
  obtain ⟨hi, hlen, hold, hb2, hop, hre, hst⟩ := allocView_spec a st dt dev b a' i' h
  intro i hi2
  rw [hlen] at hi2
  by_cases hia : i < a.len
  · obtain ⟨f1, f2, f3, f4, f5, f6⟩ := hold i hia
    obtain ⟨w1, w2, w3⟩ := hwf i hia
    rw [f1]
    refine ⟨w1, ?_, ?_⟩
    · rw [(hold ((a.get i).base) (by omega)).1, w2]
    · intro hbase l hl j hj
      rw [f2] at hl
      exact w3 hbase l hl j hj
  · have hieq : i = a.len := by omega
    subst hieq
    rw [hb2]
    refine ⟨by omega, ?_, ?_⟩
    · rw [(hold b hb).1, hbb]
    · intro hbase _ _ _ _
      omega

theorem movement_op_spec (a : Arena) (i : Nat) (st : ShapeTracker) (a' : Arena)
    (i' : Nat) (hwf : Arena.WF a) (hi : i < a.len)
    (h : LazyBuffer._movement_op a i st = some (a', i')) :
    SchedExt a a' ∧ Arena.WF a' ∧ i' < a'.len ∧ a'.baseOf i' = a.baseOf i := by
  rw [LazyBuffer._movement_op] at h
  by_cases hc : (a.get i).st = st
  · rw [if_pos hc] at h
    obtain ⟨ha, hi2⟩ := Prod.mk.inj (Option.some.inj h)
    subst ha
    subst hi2
    exact ⟨SchedExt.refl a, hwf, hi, rfl⟩
  · rw [if_neg hc] at h
    have hble : (a.get i).base ≤ i := (hwf i hi).1
    have hbb : (a.get (a.baseOf i)).base = a.baseOf i := (hwf i hi).2.1
    obtain ⟨hi', hlen, hold, hb2, hop, hre, hst⟩ :=
      allocView_spec a st (a.get i).dtype (a.get i).device (a.baseOf i) a' i' h
    refine ⟨allocView_ext a st _ _ _ a' i' h,
      allocView_WF a st _ _ _ a' i' hwf (by rw [Arena.baseOf]; omega) hbb h, ?_, ?_⟩
    · omega
    · rw [hi', Arena.baseOf, hb2]

theorem reshape_spec (a : Arena) (i : Nat) (arg : List SInt) (a' : Arena)
    (i' : Nat) (hwf : Arena.WF a) (hi : i < a.len)
    (h : LazyBuffer.reshape a i arg = some (a', i')) :
    SchedExt a a' ∧ Arena.WF a' ∧ i' < a'.len ∧ a'.baseOf i' = a.baseOf i :=
  movement_op_spec a i _ a' i' hwf hi h

theorem setRealized_spec (a : Arena) (i : Nat) (v : Nat) (a' : Arena)
    (h : a.setRealized i v = some a') :
    a.baseOf i = i ∧ a'.len = a.len ∧
    (∀ j, j ≠ i → a'.get j = a.get j) ∧
    (i < a.len → a'.get i = { a.get i with realized := some v }) := by
  rw [Arena.setRealized] at h
  by_cases hb : a.baseOf i = i
  · rw [if_pos hb] at h
    obtain ha := Option.some.inj h
    subst ha
    refine ⟨hb, Arena.len_modifyAt a i _, ?_, ?_⟩
    · intro j hj
      exact Arena.get_modifyAt_ne a i j _ hj
    · intro hlt
      exact Arena.get_modifyAt_self a i _ hlt
  · rw [if_neg hb] at h
    exact absurd h (by simp)

theorem setRealized_WF (a : Arena) (i : Nat) (v : Nat) (a' : Arena)
    (hwf : Arena.WF a) (h : a.setRealized i v = some a') : Arena.WF a' := by
  obtain ⟨hb, hlen, hne, hself⟩ := setRealized_spec a i v a' h
  intro j hj
  rw [hlen] at hj
  have hfields : ∀ k, (a'.get k).base = (a.get k).base ∧ (a'.get k).op = (a.get k).op := by
    intro k
    by_cases hk : k = i
    · subst hk
      by_cases hlt : k < a.len
      · rw [hself hlt]
        exact ⟨rfl, rfl⟩
      · have : a'.get k = a.get k := by
          rw [Arena.setRealized, if_pos hb] at h
          obtain ha := Option.some.inj h
          subst ha
          rw [Arena.modifyAt, Arena.get, Arena.get]
          exact getD_set_oob a.nodes k k _ (by rw [Arena.len] at hlt; omega)
        rw [this]
        exact ⟨rfl, rfl⟩
    · rw [hne k hk]
      exact ⟨rfl, rfl⟩
  obtain ⟨w1, w2, w3⟩ := hwf j hj
  rw [(hfields j).1]
  refine ⟨w1, ?_, ?_⟩
  · rw [(hfields ((a.get j).base)).1, w2]
  · intro hbase l hl k hk
    rw [(hfields j).2] at hl
    exact w3 hbase l hl k hk

/-- Every leaf of a substituted tree is a leaf of some replacement (or an
untouched original leaf). -/
theorem buffers_mapb (m : Nat → Option LazyOp) : ∀ (op : LazyOp),
    ∀ x ∈ (op.map_buffers m).buffers,
    ∃ y ∈ op.buffers, (∃ t, m y = some t ∧ x ∈ t.buffers) ∨ (m y = Option.none ∧ x = y) := by
  have H := LazyOp.rec
    (motive_1 := fun op => ∀ x ∈ (op.map_buffers m).buffers,
      ∃ y ∈ op.buffers, (∃ t, m y = some t ∧ x ∈ t.buffers) ∨ (m y = Option.none ∧ x = y))
    (motive_2 := fun l => ∀ x ∈ (l.mapL m).buffersL,
      ∃ y ∈ l.buffersL, (∃ t, m y = some t ∧ x ∈ t.buffers) ∨ (m y = Option.none ∧ x = y))
  apply H
  · intro i x hx
    simp only [LazyOp.map_buffers] at hx
    rcases h : m i with _ | t
    · rw [h] at hx
      simp only [Option.getD_none, LazyOp.buffers, List.mem_singleton] at hx
      exact ⟨i, by simp [LazyOp.buffers], Or.inr ⟨h, hx⟩⟩
    · rw [h] at hx
      simp only [Option.getD_some] at hx
      exact ⟨i, by simp [LazyOp.buffers], Or.inl ⟨t, h, hx⟩⟩
  · intro o src a ih x hx
    simp only [LazyOp.map_buffers, LazyOp.buffers] at hx ⊢
    exact ih x hx
  · intro x hx
    simp [LOList.mapL, LOList.buffersL] at hx
  · intro h t ih1 ih2 x hx
    simp only [LOList.mapL, LOList.buffersL, List.mem_append] at hx
    rcases hx with hx | hx
    · obtain ⟨y, hy, hc⟩ := ih1 x hx
      exact ⟨y, by simp [LOList.buffersL, hy], hc⟩
    · obtain ⟨y, hy, hc⟩ := ih2 x hx
      exact ⟨y, by simp [LOList.buffersL, hy], hc⟩

theorem alSet_mem : ∀ (al : List (Nat × Option LazyOp)) (k : Nat) (v : Option LazyOp)
    (kv : Nat × Option LazyOp), kv ∈ alSet al k v → kv = (k, v) ∨ kv ∈ al := by
  intro al
  induction al with
  | nil => intro k v kv hkv; simpa [alSet] using hkv
  | cons h t ih =>
    intro k v kv hkv
    rw [alSet] at hkv
    by_cases hk : h.1 = k
    · rw [if_pos hk] at hkv
      rcases List.mem_cons.mp hkv with h1 | h1
      · exact Or.inl h1
      · exact Or.inr (List.mem_cons_of_mem _ h1)
    · rw [if_neg hk] at hkv
      rcases List.mem_cons.mp hkv with h1 | h1
      · exact Or.inr (h1 ▸ List.mem_cons_self _ _)
      · rcases ih k v kv h1 with h2 | h2
        · exact Or.inl h2
        · exact Or.inr (List.mem_cons_of_mem _ h2)

theorem alSet_fold_mem (bs : List Nat) :
    ∀ (al : List (Nat × Option LazyOp)) (kv : Nat × Option LazyOp),
    kv ∈ bs.foldl (fun acc x => alSet acc x (some (.buf x))) al →
    (∃ x ∈ bs, kv = (x, some (.buf x))) ∨ kv ∈ al := by
  induction bs with
  | nil => intro al kv h; exact Or.inr h
  | cons b bs ih =>
    intro al kv h
    simp only [List.foldl_cons] at h
    rcases ih _ kv h with h1 | h1
    · obtain ⟨x, hx, he⟩ := h1
      exact Or.inl ⟨x, List.mem_cons_of_mem _ hx, he⟩
    · rcases alSet_mem al b _ kv h1 with h2 | h2
      · exact Or.inl ⟨b, List.mem_cons_self _ _, h2⟩
      · exact Or.inr h2

theorem alGet_mem : ∀ (al : List (Nat × Option LazyOp)) (k : Nat) (v : Option LazyOp),
    alGet al k = some v → (k, v) ∈ al := by
  intro al
  induction al with
  | nil => intro k v h; simp [alGet] at h
  | cons h t ih =>
    intro k v hkv
    rw [alGet] at hkv
    by_cases hk : h.1 = k
    · rw [if_pos hk] at hkv
      have hv := Option.some.inj hkv
      rw [← hk, ← hv]
      exact List.mem_cons_self _ _
    · rw [if_neg hk] at hkv
      exact List.mem_cons_of_mem _ (ih k v hkv)

/-- The operation of an unrealized base only references strictly smaller
nodes (the well-formedness fact lifted through the `op` property). -/
theorem opOf_bound (a : Arena) (hwf : Arena.WF a) (s : Nat) (hs : s < a.len)
    (l : LazyOp) (hl : a.opOf s = some l) : ∀ j ∈ l.buffers, j < a.len ∧ j ≤ s := by
  intro j hj
  have hb1 : (a.get s).base ≤ s := (hwf s hs).1
  have hb2 : (a.get ((a.get s).base)).base = (a.get s).base := (hwf s hs).2.1
  have hw := (hwf ((a.get s).base) (by omega)).2.2 hb2 l hl j hj
  constructor
  · omega
  · omega

theorem reduceSrc_cases (a : Arena) (src : LazyOp) :
    reduceSrc a src = src ∨
    ∃ s sop, src = .buf s ∧ a.opOf s = some sop ∧ reduceSrc a src = sop := by
  match src with
  | .node o l arg => exact Or.inl rfl
  | .buf s =>
    rw [reduceSrc]
    by_cases hre : (a.realizedOf s).isNone = true
    · rw [if_pos hre]
      cases hop : a.opOf s with
      | none => simp only [hop]; exact Or.inl trivial
      | some sop =>
        simp only [hop]
        by_cases hc : (MERGE_ELEMENTWISE_INTO_REDUCE
            && (match sop.opc with
                | some oc => oc.isElementwise
                | Option.none => false)
            && decide ((a.childrenOf s).length ≤ 1)) = true
        · rw [if_pos hc]
          exact Or.inr ⟨s, sop, rfl, hop, rfl⟩
        · rw [if_neg hc]
          exact Or.inl rfl
    · rw [if_neg hre]
      exact Or.inl rfl

theorem _ast_reduceops_bound (a : Arena) (op : LazyOp) (B : Nat)
    (hwf : Arena.WF a) (hb : ∀ j ∈ op.buffers, j < B) (hba : B ≤ a.len) :
    ∀ j ∈ (_ast_reduceops a op).buffers, j < B := by
  intro j hj
  match op with
  | .buf i => exact hb j hj
  | .node o .nil arg => exact hb j hj
  | .node o (.cons src rest) arg =>
    have hj2 : j ∈ (reduceSrc a src).buffers := by
      simpa [_ast_reduceops, LazyOp.buffers, LOList.buffersL] using hj
    rcases reduceSrc_cases a src with heq | ⟨s, sop, hsrc, hop, heq⟩
    · rw [heq] at hj2
      refine hb j ?_
      simp only [LazyOp.buffers, LOList.buffersL, List.mem_append]
      exact Or.inl hj2
    · rw [heq] at hj2
      have hsB : s < B := by
        refine hb s ?_
        rw [hsrc]
        simp [LazyOp.buffers, LOList.buffersL]
      have := (opOf_bound a hwf s (by omega) sop hop j hj2).2
      omega

theorem reshapeLoop_spec (ish : List SInt) :
    ∀ (al : List (Nat × Option LazyOp)) (a : Arena) (B : Nat) (a' : Arena)
      (al' : List (Nat × Option LazyOp)),
    Arena.WF a → B ≤ a.len →
    (∀ kv ∈ al, kv.1 < a.len ∧ a.baseOf kv.1 < B) →
    (∀ kv ∈ al, ∀ w, kv.2 = some w → ∀ x ∈ w.buffers, x < a.len ∧ a.baseOf x < B) →
    reshapeLoop ish a al = some (a', al') →
    SchedExt a a' ∧ Arena.WF a' ∧
    (∀ kv ∈ al', ∀ w, kv.2 = some w → ∀ x ∈ w.buffers, x < a'.len ∧ a'.baseOf x < B) := by
  intro al
  induction al with
  | nil =>
    intro a B a' al' hwf hBa hk hv h
    rw [reshapeLoop] at h
    obtain ⟨ha, hal⟩ := Prod.mk.inj (Option.some.inj h)
    subst ha
    subst hal
    exact ⟨SchedExt.refl a, hwf, by simp⟩
  | cons kv0 t ih =>
    intro a B a' al' hwf hBa hk hv h
    match kv0, h with
    | (k, Option.none), h =>
      rw [reshapeLoop] at h
      cases hr : LazyBuffer.reshape a k ish with
      | none => rw [hr] at h; exact absurd h (by simp)
      | some p =>
        obtain ⟨a1, k'⟩ := p
        rw [hr] at h
        simp only [Option.bind_eq_bind, Option.some_bind] at h
        cases hrest : reshapeLoop ish a1 t with
        | none => rw [hrest] at h; exact absurd h (by simp)
        | some q =>
          obtain ⟨a2, t'⟩ := q
          rw [hrest] at h
          simp only [Option.some_bind, Option.some.injEq] at h
          obtain ⟨ha, hal⟩ := Prod.mk.inj h
          subst ha
          subst hal
          have hkl : k < a.len := (hk (k, Option.none) (List.mem_cons_self _ _)).1
          have hkB : a.baseOf k < B := (hk (k, Option.none) (List.mem_cons_self _ _)).2
          obtain ⟨hext1, hwf1, hk'1, hbk'⟩ := reshape_spec a k ish a1 k' hwf hkl hr
          have hl1 := hext1.1
          obtain ⟨hext2, hwf2, hvals⟩ := ih a1 B a2 t' hwf1 (by omega)
            (fun kv hkv => by
              obtain ⟨h1, h2⟩ := hk kv (List.mem_cons_of_mem _ hkv)
              exact ⟨by omega, by rw [hext1.baseOf_eq kv.1 h1]; exact h2⟩)
            (fun kv hkv w hw x hx => by
              obtain ⟨h1, h2⟩ := hv kv (List.mem_cons_of_mem _ hkv) w hw x hx
              exact ⟨by omega, by rw [hext1.baseOf_eq x h1]; exact h2⟩)
            hrest
          refine ⟨hext1.trans hext2, hwf2, ?_⟩
          intro kv hkv w hw x hx
          rcases List.mem_cons.mp hkv with h1 | h1
          · subst h1
            obtain hw2 := Option.some.inj hw
            rw [← hw2] at hx
            simp only [LazyOp.buffers, List.mem_singleton] at hx
            rw [hx]
            have hk'len : k' < a1.len := hk'1
            constructor
            · have := hext2.1
              omega
            · rw [hext2.baseOf_eq k' hk'len, hbk']
              exact hkB
          · exact hvals kv h1 w hw x hx
    | (k, some v), h =>
      rw [reshapeLoop] at h
      cases hrest : reshapeLoop ish a t with
      | none => rw [hrest] at h; exact absurd h (by simp)
      | some q =>
        obtain ⟨a2, t'⟩ := q
        rw [hrest] at h
        obtain ⟨ha, hal⟩ := Prod.mk.inj (Option.some.inj h)
        subst ha
        subst hal
        obtain ⟨hext2, hwf2, hvals⟩ := ih a B a2 t' hwf hBa
          (fun kv hkv => hk kv (List.mem_cons_of_mem _ hkv))
          (fun kv hkv => hv kv (List.mem_cons_of_mem _ hkv))
          hrest
        refine ⟨hext2, hwf2, ?_⟩
        intro kv hkv w hw x hx
        rcases List.mem_cons.mp hkv with h1 | h1
        · subst h1
          have hw2 := Option.some.inj hw
          rw [← hw2] at hx
          obtain ⟨h1, h2⟩ := hv (k, some v) (List.mem_cons_self _ _) v rfl x hx
          exact ⟨by have := hext2.1; omega, by rw [hext2.baseOf_eq x h1]; exact h2⟩
        · exact hvals kv h1 w hw x hx

theorem mapped_buffers_bound (a2 : Arena) (op : LazyOp)
    (realF : List (Nat × Option LazyOp)) (B : Nat)
    (hvals : ∀ kv ∈ realF, ∀ w, kv.2 = some w → ∀ x ∈ w.buffers, x < a2.len ∧ a2.baseOf x < B)
    (horig : ∀ y ∈ op.buffers, y < a2.len ∧ a2.baseOf y < B) :
    ∀ x ∈ (op.map_buffers (fun z => (alGet realF z).join)).buffers,
      x < a2.len ∧ a2.baseOf x < B := by
  intro x hx
  obtain ⟨y, hy, hc⟩ := buffers_mapb (fun z => (alGet realF z).join) op x hx
  rcases hc with ⟨t, hmt, hxt⟩ | ⟨_, hxy⟩
  · have hg : alGet realF y = some (some t) := by
      cases hg : alGet realF y with
      | none => rw [hg] at hmt; simp [Option.join] at hmt
      | some o =>
        rw [hg] at hmt
        cases o with
        | none => simp [Option.join] at hmt
        | some t2 =>
          simp only [Option.join] at hmt
          rw [Option.some.inj hmt]
    exact hvals (y, some t) (alGet_mem realF y (some t) hg) t rfl x hxt
  · subst hxy
    exact horig x hy

theorem _ast_binaryops_spec (a : Arena) (op : LazyOp) (oshape : List SInt) (B : Nat)
    (a1 : Arena) (op2 : LazyOp) (hwf : Arena.WF a) (hb : ∀ j ∈ op.buffers, j < B)
    (hBa : B ≤ a.len) (h : _ast_binaryops a op oshape = some (a1, op2)) :
    SchedExt a a1 ∧ Arena.WF a1 ∧ ∀ x ∈ op2.buffers, x < a1.len ∧ a1.baseOf x < B := by
  have hkeys : ∀ k ∈ pydedup op.buffers, k < B ∧ a.baseOf k < B := by
    intro k hk
    have hkB := hb k ((pydedup_mem _ _).mp hk)
    have hbk : (a.get k).base ≤ k := (hwf k (by omega)).1
    exact ⟨hkB, by rw [Arena.baseOf]; omega⟩
  have horig : ∀ (a2 : Arena), SchedExt a a2 → ∀ y ∈ op.buffers, y < a2.len ∧ a2.baseOf y < B := by
    intro a2 hext y hy
    have hyB := hb y hy
    have hbk : (a.get y).base ≤ y := (hwf y (by omega)).1
    have hl2 := hext.1
    refine ⟨by omega, ?_⟩
    rw [hext.baseOf_eq y (by omega), Arena.baseOf]
    omega
  rw [_ast_binaryops] at h
  rw [show (if MERGE_ONE_REDUCE_INTO_ELEMENTWISE = true
      then ((pydedup op.buffers).filter (psrcCond a)).map (fun k => (k, absorbTarget a k))
      else []) = ((pydedup op.buffers).filter (psrcCond a)).map
        (fun k => (k, absorbTarget a k)) from rfl] at h
  split at h
  case h_1 psrc rest hps =>
    have hpsrc : psrc ∈ ((pydedup op.buffers).filter (psrcCond a)).map
        (fun k => (k, absorbTarget a k)) := by
      rw [hps]
      exact List.mem_cons_self _ _
    obtain ⟨k0, hk0, hke⟩ := List.mem_map.mp hpsrc
    have hk0keys : k0 ∈ pydedup op.buffers := (List.mem_filter.mp hk0).1
    obtain ⟨hk0B, hk0bB⟩ := hkeys k0 hk0keys
    have hp1 : psrc.1 = k0 := by rw [← hke]
    have hp2 : psrc.2 = absorbTarget a k0 := by rw [← hke]
    have hp1B : psrc.1 < B := by rw [hp1]; exact hk0B
    have hp2B : psrc.2 < B := by
      rw [hp2, absorbTarget]
      by_cases hc : a.is_contiguous k0 = true
      · rw [if_pos hc]; exact hk0bB
      · rw [if_neg hc]; exact hk0B
    cases hpop : a.opOf psrc.2 with
    | none => rw [hpop] at h; exact Option.noConfusion h
    | some pop =>
      rw [hpop] at h
      simp only [Option.bind_eq_bind, Option.some_bind] at h
      have hpopb : ∀ j ∈ pop.buffers, j < B := by
        intro j hj
        have := (opOf_bound a hwf psrc.2 (by omega) pop hpop j hj).2
        omega
      have htopb : ∀ j ∈ (_ast_reduceops a pop).buffers, j < B :=
        _ast_reduceops_bound a pop B hwf hpopb hBa
      by_cases hred : (match pop.opc with
          | some oc => oc.isReduce
          | Option.none => false) = true
      · rw [if_pos hred] at h
        by_cases hassert : a.shapeOf psrc.1 ≠ a.shapeOf psrc.2 ∧ a.shapeOf psrc.1 ≠ oshape
        · rw [if_pos hassert] at h
          exact Option.noConfusion h
        · rw [if_neg hassert] at h
          cases hrl : reshapeLoop (if a.shapeOf psrc.1 ≠ a.shapeOf psrc.2
              then a.shapeOf psrc.2 else oshape) a
              ((_ast_reduceops a pop).buffers.foldl
                (fun acc x => alSet acc x (some (.buf x)))
                (alSet ((pydedup op.buffers).map (fun k => (k, Option.none))) psrc.1
                  (some (_ast_reduceops a pop)))) with
          | none => rw [hrl] at h; exact Option.noConfusion h
          | some q =>
            obtain ⟨a2, realF⟩ := q
            rw [hrl] at h
            obtain ⟨ha, hop⟩ := Prod.mk.inj (Option.some.inj h)
            subst ha
            subst hop
            have hmem2 : ∀ kv ∈ ((_ast_reduceops a pop).buffers.foldl
                (fun acc x => alSet acc x (some (LazyOp.buf x)))
                (alSet ((pydedup op.buffers).map (fun k => (k, Option.none))) psrc.1
                  (some (_ast_reduceops a pop)))),
                (∃ x ∈ (_ast_reduceops a pop).buffers, kv = (x, some (.buf x))) ∨
                kv = (psrc.1, some (_ast_reduceops a pop)) ∨
                kv ∈ (pydedup op.buffers).map (fun k => (k, Option.none)) := by
              intro kv hkv
              rcases alSet_fold_mem _ _ kv hkv with h1 | h1
              · exact Or.inl h1
              · rcases alSet_mem _ _ _ kv h1 with h2 | h2
                · exact Or.inr (Or.inl h2)
                · exact Or.inr (Or.inr h2)
            obtain ⟨hext, hwf2, hvals⟩ := reshapeLoop_spec _ _ a B a2 realF hwf hBa
              (by
                intro kv hkv
                rcases hmem2 kv hkv with ⟨x, hx, he⟩ | he | hkv2
                · have := htopb x hx
                  rw [he]
                  have hbx : (a.get x).base ≤ x := (hwf x (by omega)).1
                  show x < a.len ∧ a.baseOf x < B
                  exact ⟨by omega, by rw [Arena.baseOf]; omega⟩
                · rw [he]
                  have hbx : (a.get psrc.1).base ≤ psrc.1 := (hwf psrc.1 (by omega)).1
                  show psrc.1 < a.len ∧ a.baseOf psrc.1 < B
                  exact ⟨by omega, by rw [Arena.baseOf]; omega⟩
                · obtain ⟨k, hk, he⟩ := List.mem_map.mp hkv2
                  obtain ⟨h1, h2⟩ := hkeys k hk
                  rw [← he]
                  exact ⟨by omega, h2⟩)
              (by
                intro kv hkv w hw x hx
                rcases hmem2 kv hkv with ⟨z, hz, he⟩ | he | hkv2
                · rw [he] at hw
                  simp only at hw
                  rw [← Option.some.inj hw] at hx
                  simp only [LazyOp.buffers, List.mem_singleton] at hx
                  have hz2 := htopb z hz
                  have hbz : (a.get z).base ≤ z := (hwf z (by omega)).1
                  rw [hx]
                  exact ⟨by omega, by rw [Arena.baseOf]; omega⟩
                · rw [he] at hw
                  simp only at hw
                  rw [← Option.some.inj hw] at hx
                  have := htopb x hx
                  have hbx : (a.get x).base ≤ x := (hwf x (by omega)).1
                  exact ⟨by omega, by rw [Arena.baseOf]; omega⟩
                · obtain ⟨k, hk, he⟩ := List.mem_map.mp hkv2
                  rw [← he] at hw
                  simp at hw)
              hrl
            exact ⟨hext, hwf2, mapped_buffers_bound a2 op realF B hvals (horig a2 hext)⟩
      · rw [if_neg hred] at h
        exact Option.noConfusion h
  case h_2 hps =>
    cases hrl : reshapeLoop oshape a ((pydedup op.buffers).map (fun k => (k, Option.none))) with
    | none => rw [hrl] at h; exact Option.noConfusion h
    | some q =>
      obtain ⟨a2, realF⟩ := q
      rw [hrl] at h
      obtain ⟨ha, hop⟩ := Prod.mk.inj (Option.some.inj h)
      subst ha
      subst hop
      obtain ⟨hext, hwf2, hvals⟩ := reshapeLoop_spec oshape _ a B a2 realF hwf hBa
        (by
          intro kv hkv
          obtain ⟨k, hk, he⟩ := List.mem_map.mp hkv
          obtain ⟨h1, h2⟩ := hkeys k hk
          rw [← he]
          exact ⟨by omega, h2⟩)
        (by
          intro kv hkv w hw x hx
          obtain ⟨k, hk, he⟩ := List.mem_map.mp hkv
          rw [← he] at hw
          simp at hw)
        hrl
      exact ⟨hext, hwf2, mapped_buffers_bound a2 op realF B hvals (horig a2 hext)⟩

theorem rewriteStage_spec (a : Arena) (op1 : LazyOp) (oshape : List SInt) (B : Nat)
    (a1 : Arena) (op2 : LazyOp) (hwf : Arena.WF a) (hb : ∀ j ∈ op1.buffers, j < B)
    (hBa : B ≤ a.len) (h : rewriteStage a op1 oshape = some (a1, op2)) :
    SchedExt a a1 ∧ Arena.WF a1 ∧ ∀ x ∈ op2.buffers, x < a1.len ∧ a1.baseOf x < B := by
  rw [rewriteStage] at h
  cases hoc : op1.opc with
  | none => rw [hoc] at h; exact Option.noConfusion h
  | some o =>
    simp only [hoc] at h
    by_cases he : o.isElementwise = true
    · rw [if_pos he] at h
      exact _ast_binaryops_spec a op1 oshape B a1 op2 hwf hb hBa h
    · rw [if_neg he] at h
      by_cases hr : o.isReduce = true
      · rw [if_pos hr] at h
        obtain ⟨ha, hop⟩ := Prod.mk.inj (Option.some.inj h)
        subst ha
        subst hop
        refine ⟨SchedExt.refl a, hwf, ?_⟩
        intro x hx
        have hxB := _ast_reduceops_bound a op1 B hwf hb hBa x hx
        have hbx : (a.get x).base ≤ x := (hwf x (by omega)).1
        exact ⟨by omega, by rw [Arena.baseOf]; omega⟩
      · rw [if_neg hr] at h
        obtain ⟨ha, hop⟩ := Prod.mk.inj (Option.some.inj h)
        subst ha
        subst hop
        refine ⟨SchedExt.refl a, hwf, ?_⟩
        intro x hx
        have hxB := hb x hx
        have hbx : (a.get x).base ≤ x := (hwf x (by omega)).1
        exact ⟨by omega, by rw [Arena.baseOf]; omega⟩

/-- The produced output of each schedule unit: `_buffers[0]` of the unit. -/
def outsOf (units : List SUnit) : List Nat := units.map (fun u => u.2.headI)

/-- A dependency is satisfied at a point of the schedule when it is realized
or its base has already been produced. -/
def depOf (a : Arena) (acc : List Nat) (x : Nat) : Bool :=
  (a.realizedOf x).isSome || decide (a.baseOf x ∈ acc)

/-- Dependency ordering of a schedule suffix, given the outputs `acc` already
produced: every unrealized dependency of each unit was produced strictly
earlier. -/
def depsOk (a : Arena) : List Nat → List SUnit → Bool
  | _, [] => true
  | acc, u :: us => u.2.tail.all (depOf a acc) && depsOk a (acc ++ [u.2.headI]) us

theorem outsOf_nil : outsOf [] = [] := rfl

theorem outsOf_cons (u : SUnit) (us : List SUnit) :
    outsOf (u :: us) = u.2.headI :: outsOf us := rfl

theorem outsOf_append (us vs : List SUnit) :
    outsOf (us ++ vs) = outsOf us ++ outsOf vs := by
  simp [outsOf]

theorem depsOk_nil (a : Arena) (acc : List Nat) : depsOk a acc [] = true := rfl

theorem depsOk_cons (a : Arena) (acc : List Nat) (u : SUnit) (us : List SUnit) :
    depsOk a acc (u :: us) =
      (u.2.tail.all (depOf a acc) && depsOk a (acc ++ [u.2.headI]) us) := rfl

theorem lastMem {α : Type} : ∀ (l : List α) (y : α), l.getLast? = some y → y ∈ l := by
  intro l
  induction l with
  | nil => intro y h; exact Option.noConfusion h
  | cons x t ih =>
    intro y h
    cases t with
    | nil =>
      rw [List.getLast?_singleton] at h
      rw [Option.some.inj h]
      exact List.mem_singleton_self y
    | cons z t2 =>
      rw [List.getLast?_cons_cons] at h
      exact List.mem_cons_of_mem _ (ih y h)

theorem tailMem {α : Type} : ∀ (l : List α) (y : α), y ∈ l.tail → y ∈ l := by
  intro l y h
  cases l with
  | nil => exact absurd h (by simp)
  | cons x t => exact List.mem_cons_of_mem _ h

theorem depOf_mono (a : Arena) (acc acc' : List Nat) (x : Nat)
    (hsub : ∀ y ∈ acc, y ∈ acc') (h : depOf a acc x = true) : depOf a acc' x = true := by
  rw [depOf] at h ⊢
  rcases Bool.or_eq_true_iff.mp h with h1 | h1
  · exact Bool.or_eq_true_iff.mpr (Or.inl h1)
  · exact Bool.or_eq_true_iff.mpr (Or.inr (decide_eq_true
      (hsub _ (of_decide_eq_true h1))))

theorem depsOk_mono (a : Arena) : ∀ (us : List SUnit) (acc acc' : List Nat),
    (∀ y ∈ acc, y ∈ acc') → depsOk a acc us = true → depsOk a acc' us = true := by
  intro us
  induction us with
  | nil => intro acc acc' _ _; rfl
  | cons u t ih =>
    intro acc acc' hsub h
    rw [depsOk_cons] at h ⊢
    obtain ⟨h1, h2⟩ := Bool.and_eq_true_iff.mp h
    refine Bool.and_eq_true_iff.mpr ⟨?_, ?_⟩
    · rw [List.all_eq_true] at h1 ⊢
      intro x hx
      exact depOf_mono a acc acc' x hsub (h1 x hx)
    · refine ih (acc ++ [u.2.headI]) (acc' ++ [u.2.headI]) ?_ h2
      intro y hy
      rcases List.mem_append.mp hy with hy | hy
      · exact List.mem_append.mpr (Or.inl (hsub y hy))
      · exact List.mem_append.mpr (Or.inr hy)

theorem depsOk_ext (a a' : Arena) (hext : SchedExt a a') (hwf : Arena.WF a) :
    ∀ (us : List SUnit) (acc : List Nat),
    (∀ u ∈ us, ∀ x ∈ u.2, x < a.len) →
    depsOk a acc us = true → depsOk a' acc us = true := by
  intro us
  induction us with
  | nil => intro acc _ _; rfl
  | cons u t ih =>
    intro acc hb h
    rw [depsOk_cons] at h ⊢
    obtain ⟨h1, h2⟩ := Bool.and_eq_true_iff.mp h
    refine Bool.and_eq_true_iff.mpr ⟨?_, ?_⟩
    · rw [List.all_eq_true] at h1 ⊢
      intro x hx
      have hxl : x < a.len := hb u (List.mem_cons_self _ _) x (tailMem _ _ hx)
      have := h1 x hx
      rw [depOf] at this ⊢
      rw [hext.realizedOf_eq hwf x hxl, hext.baseOf_eq x hxl]
      exact this
    · exact ih (acc ++ [u.2.headI]) (fun v hv => hb v (List.mem_cons_of_mem _ hv)) h2

theorem depsOk_snoc (a : Arena) : ∀ (us : List SUnit) (acc : List Nat) (u : SUnit),
    depsOk a acc us = true →
    (∀ x ∈ u.2.tail, depOf a (acc ++ outsOf us) x = true) →
    depsOk a acc (us ++ [u]) = true := by
  intro us
  induction us with
  | nil =>
    intro acc u h1 h2
    rw [List.nil_append, depsOk_cons, depsOk_nil, Bool.and_true]
    rw [List.all_eq_true]
    intro x hx
    have := h2 x hx
    rwa [outsOf_nil, List.append_nil] at this
  | cons v t ih =>
    intro acc u h1 h2
    rw [List.cons_append, depsOk_cons]
    rw [depsOk_cons] at h1
    obtain ⟨ha, hb⟩ := Bool.and_eq_true_iff.mp h1
    refine Bool.and_eq_true_iff.mpr ⟨ha, ?_⟩
    refine ih (acc ++ [v.2.headI]) u hb ?_
    intro x hx
    have := h2 x hx
    rwa [outsOf_cons, show acc ++ v.2.headI :: outsOf t =
      (acc ++ [v.2.headI]) ++ outsOf t by simp] at this

/-- Master specification of the sub-schedule merge (lines 180–183): the
`seen` set stays synchronised with the produced outputs, dependency
ordering and output uniqueness are preserved, every output of the
sub-schedule and every previously seen output ends up seen, and the
returned list extends `ret`. -/
theorem mergeSub_spec (a : Arena) : ∀ (sub : List SUnit) (seen : List Nat)
    (ret : List SUnit),
    seen = outsOf ret →
    depsOk a [] ret = true →
    depsOk a seen sub = true →
    (mergeSub seen ret sub).1 = outsOf (mergeSub seen ret sub).2 ∧
    depsOk a [] (mergeSub seen ret sub).2 = true ∧
    (∀ y ∈ outsOf sub, y ∈ (mergeSub seen ret sub).1) ∧
    (∀ y ∈ (mergeSub seen ret sub).1, y ∈ seen ∨ y ∈ outsOf sub) ∧
    (∃ d, (mergeSub seen ret sub).2 = ret ++ d) ∧
    ((outsOf ret).Nodup → (outsOf (mergeSub seen ret sub).2).Nodup) ∧
    (∀ u ∈ (mergeSub seen ret sub).2, u ∈ ret ∨ u ∈ sub) ∧
    (∀ y ∈ seen, y ∈ (mergeSub seen ret sub).1) := by
  intro sub
  induction sub with
  | nil =>
    intro seen ret hseen hret _
    rw [mergeSub]
    exact ⟨hseen, hret, by simp [outsOf_nil], fun y hy => Or.inl hy,
      ⟨[], by simp⟩, fun h => h, fun u hu => Or.inl hu, fun y hy => hy⟩
  | cons u us ih =>
    intro seen ret hseen hret hsub
    rw [depsOk_cons] at hsub
    obtain ⟨hu, hus⟩ := Bool.and_eq_true_iff.mp hsub
    rw [mergeSub]
    by_cases hmem : u.2.headI ∈ seen
    · rw [if_pos hmem]
      have hus' : depsOk a seen us = true := by
        refine depsOk_mono a us (seen ++ [u.2.headI]) seen ?_ hus
        intro y hy
        rcases List.mem_append.mp hy with hy | hy
        · exact hy
        · rw [List.mem_singleton.mp hy]; exact hmem
      obtain ⟨m1, m2, m3, m4, m5, m6, m7, m8⟩ := ih seen ret hseen hret hus'
      refine ⟨m1, m2, ?_, ?_, m5, m6, ?_, m8⟩
      · intro y hy
        rw [outsOf_cons] at hy
        rcases List.mem_cons.mp hy with hy | hy
        · rw [hy]
          exact m8 _ hmem
        · exact m3 y hy
      · intro y hy
        rcases m4 y hy with h1 | h1
        · exact Or.inl h1
        · exact Or.inr (by rw [outsOf_cons]; exact List.mem_cons_of_mem _ h1)
      · intro v hv
        rcases m7 v hv with h1 | h1
        · exact Or.inl h1
        · exact Or.inr (List.mem_cons_of_mem _ h1)
    · rw [if_neg hmem]
      have hseen' : seen ++ [u.2.headI] = outsOf (ret ++ [u]) := by
        rw [outsOf_append, outsOf_cons, outsOf_nil, hseen]
      have hret' : depsOk a [] (ret ++ [u]) = true := by
        refine depsOk_snoc a ret [] u hret ?_
        intro x hx
        rw [List.all_eq_true] at hu
        have := hu x hx
        rwa [List.nil_append, ← hseen]
      obtain ⟨m1, m2, m3, m4, m5, m6, m7, m8⟩ :=
        ih (seen ++ [u.2.headI]) (ret ++ [u]) hseen' hret' hus
      refine ⟨m1, m2, ?_, ?_, ?_, ?_, ?_, ?_⟩
      · intro y hy
        rw [outsOf_cons] at hy
        rcases List.mem_cons.mp hy with hy | hy
        · rw [hy]
          exact m8 _ (List.mem_append.mpr (Or.inr (List.mem_singleton_self _)))
        · exact m3 y hy
      · intro y hy
        rcases m4 y hy with h1 | h1
        · rcases List.mem_append.mp h1 with h2 | h2
          · exact Or.inl h2
          · exact Or.inr (by
              rw [outsOf_cons]
              rw [List.mem_singleton.mp h2]
              exact List.mem_cons_self _ _)
        · exact Or.inr (by rw [outsOf_cons]; exact List.mem_cons_of_mem _ h1)
      · obtain ⟨d, hd⟩ := m5
        exact ⟨u :: d, by rw [hd, List.append_assoc]; rfl⟩
      · intro hnd
        refine m6 ?_
        rw [outsOf_append, outsOf_cons, outsOf_nil]
        rw [List.nodup_append]
        refine ⟨hnd, List.nodup_singleton _, ?_⟩
        intro y hy h2
        rw [List.mem_singleton.mp h2] at hy
        rw [← hseen] at hy
        exact hmem hy
      · intro v hv
        rcases m7 v hv with h1 | h1
        · rcases List.mem_append.mp h1 with h2 | h2
          · exact Or.inl h2
          · exact Or.inr (by
              rw [List.mem_singleton.mp h2]
              exact List.mem_cons_self _ _)
        · exact Or.inr (List.mem_cons_of_mem _ h1)
      · intro y hy
        exact m8 y (List.mem_append.mpr (Or.inl hy))

/-- The full correctness package of one `schedule` call on a well-formed
arena: append-only arena evolution, the last output is the root's base,
outputs are pre-existing base nodes no larger than the root's base, the
dependency ordering holds, all mentioned buffers are in range, and no
output is produced twice. -/
def SchedOK (a : Arena) (i : Nat) (p : Arena × List SUnit) : Prop :=
  SchedExt a p.1 ∧ Arena.WF p.1 ∧
  (outsOf p.2).getLast? = some (a.baseOf i) ∧
  (∀ o ∈ outsOf p.2, a.baseOf o = o ∧ o ≤ a.baseOf i ∧ o < a.len) ∧
  depsOk p.1 [] p.2 = true ∧
  (∀ u ∈ p.2, ∀ x ∈ u.2, x < p.1.len) ∧
  (outsOf p.2).Nodup

/-- Master invariant of the dependency loop of `schedule` (lines 176–183),
parametrised by the specification of the recursive call. -/
theorem schedLoop_spec (rec : Arena → Nat → Option (Arena × List SUnit)) (N : Nat)
    (hrec : ∀ (b : Arena) (i : Nat) (q : Arena × List SUnit),
      Arena.WF b → i < b.len → rec b i = some q → SchedOK b i q) :
    ∀ (xs : List Nat) (a : Arena) (seen : List Nat) (ret : List SUnit)
      (a2 : Arena) (ret2 : List SUnit) (seen2 : List Nat),
    Arena.WF a → N ≤ a.len →
    (∀ x ∈ xs, x < a.len ∧ a.baseOf x < N) →
    seen = outsOf ret →
    depsOk a [] ret = true →
    (∀ y ∈ seen, a.baseOf y = y ∧ y < N) →
    (outsOf ret).Nodup →
    (∀ u ∈ ret, ∀ x ∈ u.2, x < a.len) →
    schedLoop rec a xs seen ret = some (a2, ret2, seen2) →
    SchedExt a a2 ∧ Arena.WF a2 ∧ seen2 = outsOf ret2 ∧
    depsOk a2 [] ret2 = true ∧
    (∀ y ∈ seen2, a.baseOf y = y ∧ y < N) ∧
    (outsOf ret2).Nodup ∧
    (∀ u ∈ ret2, ∀ x ∈ u.2, x < a2.len) ∧
    (∃ d, ret2 = ret ++ d) ∧
    (∀ x ∈ xs, a.realizedOf x = Option.none → a.baseOf x ∈ seen2) ∧
    (∀ y ∈ seen, y ∈ seen2) := by
  intro xs
  induction xs with
  | nil =>
    intro a seen ret a2 ret2 seen2 hwf hN hxs hseen hret hseenp hnodup hbnd h
    rw [schedLoop] at h
    obtain ⟨ha, hrest⟩ := Prod.mk.inj (Option.some.inj h)
    obtain ⟨hr2, hs2⟩ := Prod.mk.inj hrest
    subst ha
    subst hr2
    subst hs2
    refine ⟨SchedExt.refl a, hwf, hseen, hret, hseenp, hnodup, hbnd,
      ⟨[], by simp⟩, by simp, fun y hy => hy⟩
  | cons x xs ih =>
    intro a seen ret a2 ret2 seen2 hwf hN hxs hseen hret hseenp hnodup hbnd h
    have hxlen : x < a.len := (hxs x (List.mem_cons_self _ _)).1
    have hxbase : a.baseOf x < N := (hxs x (List.mem_cons_self _ _)).2
    rw [schedLoop] at h
    by_cases hg : ((a.realizedOf x).isNone = true ∧ x ∉ seen)
    · rw [if_pos hg] at h
      cases hr : rec a x with
      | none => rw [hr] at h; exact Option.noConfusion h
      | some q =>
        obtain ⟨asub, sub⟩ := q
        rw [hr] at h
        simp only [Option.bind_eq_bind, Option.some_bind] at h
        obtain ⟨hext1, hwf1, hlast, houts, hdeps, hsbnd, hsnd⟩ :=
          hrec a x (asub, sub) hwf hxlen hr
        have h' : schedLoop rec asub xs (mergeSub seen ret sub).1
            (mergeSub seen ret sub).2 = some (a2, ret2, seen2) := h
        have hretA : depsOk asub [] ret = true :=
          depsOk_ext a asub hext1 hwf ret [] hbnd hret
        have hsub' : depsOk asub seen sub = true :=
          depsOk_mono asub sub [] seen (fun y hy => absurd hy (List.not_mem_nil y)) hdeps
        obtain ⟨m1, m2, m3, m4, m5, m6, m7, m8⟩ :=
          mergeSub_spec asub sub seen ret hseen hretA hsub'
        have hlenA : a.len ≤ asub.len := hext1.1
        obtain ⟨i1, i2, i3, i4, i5, i6, i7, i8, i9, i10⟩ :=
          ih asub (mergeSub seen ret sub).1 (mergeSub seen ret sub).2 a2 ret2 seen2
            hwf1 (by omega)
            (by
              intro z hz
              obtain ⟨hz1, hz2⟩ := hxs z (List.mem_cons_of_mem _ hz)
              exact ⟨by omega, by rw [hext1.baseOf_eq z hz1]; exact hz2⟩)
            m1 m2
            (by
              intro y hy
              rcases m4 y hy with h1 | h1
              · obtain ⟨hb1, hb2⟩ := hseenp y h1
                refine ⟨?_, hb2⟩
                rw [hext1.baseOf_eq y (by omega)]
                exact hb1
              · obtain ⟨hb1, hb2, hb3⟩ := houts y h1
                refine ⟨?_, by omega⟩
                rw [hext1.baseOf_eq y hb3]
                exact hb1)
            (m6 hnodup)
            (by
              intro u hu z hz
              rcases m7 u hu with h1 | h1
              · have := hbnd u h1 z hz
                omega
              · exact hsbnd u h1 z hz)
            h'
        refine ⟨hext1.trans i1, i2, i3, i4, ?_, i6, i7, ?_, ?_, ?_⟩
        · intro y hy
          obtain ⟨hb1, hb2⟩ := i5 y hy
          refine ⟨?_, hb2⟩
          rw [← hext1.baseOf_eq y (by omega)]
          exact hb1
        · obtain ⟨d1, hd1⟩ := m5
          obtain ⟨d2, hd2⟩ := i8
          exact ⟨d1 ++ d2, by rw [hd2, hd1, List.append_assoc]⟩
        · intro z hz hreal
          rcases List.mem_cons.mp hz with hz | hz
          · subst hz
            refine i10 _ (m3 (a.baseOf z) ?_)
            exact lastMem _ _ hlast
          · obtain ⟨hz1, _⟩ := hxs z (List.mem_cons_of_mem _ hz)
            have hrz : asub.realizedOf z = Option.none := by
              rw [hext1.realizedOf_eq hwf z hz1]
              exact hreal
            have := i9 z hz hrz
            rwa [hext1.baseOf_eq z hz1] at this
        · intro y hy
          exact i10 y (m8 y hy)
    · rw [if_neg hg] at h
      obtain ⟨i1, i2, i3, i4, i5, i6, i7, i8, i9, i10⟩ :=
        ih a seen ret a2 ret2 seen2 hwf hN
          (fun z hz => hxs z (List.mem_cons_of_mem _ hz))
          hseen hret hseenp hnodup hbnd h
      refine ⟨i1, i2, i3, i4, i5, i6, i7, i8, ?_, i10⟩
      intro z hz hreal
      rcases List.mem_cons.mp hz with hz | hz
      · subst hz
        have hxseen : z ∈ seen := by
          by_contra hns
          exact hg ⟨by rw [hreal]; rfl, hns⟩
        have := (hseenp z hxseen).1
        rw [this]
        exact i10 z hxseen
      · exact i9 z hz hreal

theorem srcL_buffers_sub (op : LazyOp) (o : OpType) (arg : OpArg) :
    ∀ j ∈ (LazyOp.node o op.srcL arg).buffers, j ∈ op.buffers := by
  match op with
  | .buf k =>
    intro j hj
    simp [LazyOp.srcL, LazyOp.buffers, LOList.buffersL] at hj
  | .node o2 s a2 =>
    intro j hj
    simpa [LazyOp.srcL, LazyOp.buffers] using hj

/-- The common non-load tail of `schedule` (lines 172–184): rewrite,
collect buffers, resolve buffer ops, recursively schedule dependencies and
append the root unit last. -/
theorem schedule_else_aux (fuel : Nat)
    (ih : ∀ (b : Arena) (j : Nat) (q : Arena × List SUnit),
      Arena.WF b → j < b.len → LazyBuffer.schedule fuel b j = some q → SchedOK b j q)
    (a : Arena) (i : Nat) (p : Arena × List SUnit) (op1 : LazyOp)
    (hwf : Arena.WF a) (hi : i < a.len) (hbeq : a.baseOf i = i)
    (hop1b : ∀ j ∈ op1.buffers, j < i)
    (h : (do
      let (a1, op2) ← rewriteStage a op1 (a.shapeOf i)
      let buffers := op2.buffers
      let op3 ← _ast_bufferops a1 op2
      let (a2, ret, _seen) ← schedLoop (LazyBuffer.schedule fuel) a1 buffers [] []
      some (a2, ret ++ [(op3, i :: buffers)]) : Option (Arena × List SUnit)) = some p) :
    SchedOK a i p := by
  cases hrw : rewriteStage a op1 (a.shapeOf i) with
  | none => rw [hrw] at h; exact Option.noConfusion h
  | some q1 =>
    obtain ⟨a1, op2⟩ := q1
    rw [hrw] at h
    simp only [Option.bind_eq_bind, Option.some_bind] at h
    obtain ⟨hext1, hwf1, hbufs⟩ :=
      rewriteStage_spec a op1 (a.shapeOf i) i a1 op2 hwf hop1b (by omega) hrw
    cases hbo : _ast_bufferops a1 op2 with
    | none => rw [hbo] at h; exact Option.noConfusion h
    | some op3 =>
      rw [hbo] at h
      simp only [Option.some_bind] at h
      cases hsl : schedLoop (LazyBuffer.schedule fuel) a1 op2.buffers [] [] with
      | none => rw [hsl] at h; exact Option.noConfusion h
      | some q2 =>
        obtain ⟨a2, retl, seenl⟩ := q2
        rw [hsl] at h
        simp only [Option.some_bind] at h
        have hp := Option.some.inj h
        subst hp
        have hlen1 : a.len ≤ a1.len := hext1.1
        obtain ⟨l1, l2, l3, l4, l5, l6, l7, l8, l9, l10⟩ :=
          schedLoop_spec (LazyBuffer.schedule fuel) i ih op2.buffers a1 [] []
            a2 retl seenl hwf1 (by omega) hbufs rfl rfl
            (by intro y hy; exact absurd hy (List.not_mem_nil y))
            List.nodup_nil
            (by intro u hu; exact absurd hu (List.not_mem_nil u))
            hsl
        have hretlouts : ∀ y ∈ outsOf retl, a1.baseOf y = y ∧ y < i := by
          intro y hy
          exact l5 y (by rw [l3]; exact hy)
        have hlen2 : a1.len ≤ a2.len := l1.1
        have houtsall : ∀ o ∈ outsOf (retl ++ [(op3, i :: op2.buffers)]),
            a.baseOf o = o ∧ o ≤ a.baseOf i ∧ o < a.len := by
          intro o ho
          rw [outsOf_append, List.mem_append] at ho
          rcases ho with ho | ho
          · obtain ⟨hb1, hb2⟩ := hretlouts o ho
            have hol : o < a.len := by omega
            refine ⟨?_, by omega, hol⟩
            rw [← hext1.baseOf_eq o hol]
            exact hb1
          · rw [outsOf_cons, outsOf_nil] at ho
            have hoe : o = i := by
              rcases List.mem_cons.mp ho with h1 | h1
              · exact h1
              · exact absurd h1 (List.not_mem_nil o)
            subst hoe
            exact ⟨hbeq, by rw [hbeq], hi⟩
        refine ⟨hext1.trans l1, l2, ?_, houtsall, ?_, ?_, ?_⟩
        · rw [outsOf_append]
          rw [show outsOf [(op3, i :: op2.buffers)] = [i] from rfl]
          rw [List.getLast?_concat, hbeq]
        · refine depsOk_snoc a2 retl [] (op3, i :: op2.buffers) l4 ?_
          intro x hx
          have hxbuf : x ∈ op2.buffers := hx
          obtain ⟨hx1, hx2⟩ := hbufs x hxbuf
          rw [depOf, List.nil_append]
          cases hre : a2.realizedOf x with
          | some v => rfl
          | none =>
            have hre1 : a1.realizedOf x = Option.none := by
              rw [← l1.realizedOf_eq hwf1 x hx1]
              exact hre
            have hcov := l9 x hxbuf hre1
            rw [l3] at hcov
            rw [Bool.or_eq_true_iff]
            refine Or.inr (decide_eq_true ?_)
            rw [l1.baseOf_eq x hx1]
            exact hcov
        · intro u hu x hx
          rw [List.mem_append] at hu
          rcases hu with hu | hu
          · exact l7 u hu x hx
          · have hue : u = (op3, i :: op2.buffers) := by
              rcases List.mem_cons.mp hu with h1 | h1
              · exact h1
              · exact absurd h1 (List.not_mem_nil u)
            subst hue
            rcases List.mem_cons.mp hx with h1 | h1
            · rw [h1]
              show i < a2.len
              omega
            · have := (hbufs x h1).1
              show x < a2.len
              omega
        · rw [outsOf_append]
          rw [show outsOf [(op3, i :: op2.buffers)] = [i] from rfl]
          rw [List.nodup_append]
          refine ⟨l6, List.nodup_singleton _, ?_⟩
          intro y hy h2
          rw [List.mem_singleton.mp h2] at hy
          have := (hretlouts i hy).2
          omega

/-- Fuel-indexed full specification of `schedule` (lines 167–184). -/
theorem schedule_spec : ∀ (fuel : Nat) (a : Arena) (i : Nat)
    (p : Arena × List SUnit),
    Arena.WF a → i < a.len → LazyBuffer.schedule fuel a i = some p →
    SchedOK a i p := by
  intro fuel
  induction fuel with
  | zero => intro a i p _ _ h; exact Option.noConfusion h
  | succ fuel ih =>
    intro a i p hwf hi h
    rw [LazyBuffer.schedule] at h
    by_cases hbase : a.baseOf i ≠ i
    · rw [if_pos hbase] at h
      have hble : (a.get i).base ≤ i := (hwf i hi).1
      have hblt : a.baseOf i < a.len := by rw [Arena.baseOf]; omega
      have hidem : a.baseOf (a.baseOf i) = a.baseOf i := by
        have h2 := (hwf i hi).2.1
        rw [Arena.baseOf, Arena.baseOf]
        exact h2
      obtain ⟨s1, s2, s3, s4, s5, s6, s7⟩ := ih a (a.baseOf i) p hwf hblt h
      refine ⟨s1, s2, by rwa [hidem] at s3, ?_, s5, s6, s7⟩
      intro o ho
      obtain ⟨o1, o2, o3⟩ := s4 o ho
      rw [hidem] at o2
      exact ⟨o1, o2, o3⟩
    · rw [if_neg hbase] at h
      have hbeq : a.baseOf i = i := not_not.mp hbase
      cases hop0 : (a.get i).op with
      | none => rw [hop0] at h; exact Option.noConfusion h
      | some op0 =>
        rw [hop0] at h
        simp only [Option.bind_eq_bind, Option.some_bind] at h
        have hop0b : ∀ j ∈ op0.buffers, j < i := by
          have h3 := (hwf i hi).2.2
          rw [Arena.baseOf] at hbeq
          exact h3 hbeq op0 hop0
        cases hC : (op0.opc == some (OpType.load LoadOps.CONTIGUOUS)) with
        | true =>
          rw [hC] at h
          rw [if_pos rfl] at h
          refine schedule_else_aux fuel ih a i p
            (LazyOp.node (.unary .NOOP) op0.srcL .none) hwf hi
            (by rw [Arena.baseOf] at hbeq ⊢; exact hbeq) ?_ h
          intro j hj
          exact hop0b j (srcL_buffers_sub op0 _ _ j hj)
        | false =>
          rw [hC] at h
          rw [if_neg Bool.false_ne_true] at h
          cases hoc : op0.opc with
          | none => simp only [hoc] at h; exact Option.noConfusion h
          | some o1 =>
            simp only [hoc] at h
            by_cases hload : o1.isLoad = true
            · rw [if_pos hload] at h
              have hp := Option.some.inj h
              subst hp
              refine ⟨SchedExt.refl a, hwf, ?_, ?_, ?_, ?_, ?_⟩
              · rw [show outsOf [(op0, [i])] = [i] from rfl]
                rw [List.getLast?_singleton, hbeq]
              · intro o ho
                rw [show outsOf [(op0, [i])] = [i] from rfl] at ho
                have hoe : o = i := List.mem_singleton.mp ho
                subst hoe
                exact ⟨hbeq, by rw [hbeq], hi⟩
              · rfl
              · intro u hu x hx
                have hue : u = (op0, [i]) := by
                  rcases List.mem_cons.mp hu with h1 | h1
                  · exact h1
                  · exact absurd h1 (List.not_mem_nil u)
                subst hue
                have hxe : x = i := List.mem_singleton.mp hx
                subst hxe
                exact hi
              · rw [show outsOf [(op0, [i])] = [i] from rfl]
                exact List.nodup_singleton _
            · rw [if_neg hload] at h
              exact schedule_else_aux fuel ih a i p op0 hwf hi hbeq hop0b h

/-- Executable well-formedness check (for concrete arenas). -/
def Arena.WFb (a : Arena) : Bool :=
  (List.range a.len).all fun i =>
    decide ((a.get i).base ≤ i) &&
    decide ((a.get ((a.get i).base)).base = (a.get i).base) &&
    (!(decide ((a.get i).base = i)) ||
      (match (a.get i).op with
       | Option.none => true
       | some l => l.buffers.all (fun j => decide (j < i))))

theorem arena_WFb_sound (a : Arena) (h : Arena.WFb a = true) : Arena.WF a := by
  intro i hi
  rw [Arena.WFb, List.all_eq_true] at h
  have hh := h i (List.mem_range.mpr hi)
  obtain ⟨h12, h3⟩ := Bool.and_eq_true_iff.mp hh
  obtain ⟨h1, h2⟩ := Bool.and_eq_true_iff.mp h12
  refine ⟨of_decide_eq_true h1, of_decide_eq_true h2, ?_⟩
  intro hb l hl j hj
  rcases Bool.or_eq_true_iff.mp h3 with h4 | h4
  · rw [Bool.not_eq_true', decide_eq_false_iff_not] at h4
    exact absurd hb h4
  · rw [hl] at h4
    have h5 : l.buffers.all (fun j => decide (j < i)) = true := h4
    rw [List.all_eq_true] at h5
    exact of_decide_eq_true (h5 j hj)

/-- A diamond dependency graph: one `EMPTY` base feeding two elementwise
bases that are combined by a third. -/
def exDiamondA : Arena := ⟨[
  ⟨ShapeTracker.from_shape [.lit 8], 1, "CPU", 0,
    some (.node (.load .EMPTY) .nil .none), Option.none, [1, 2]⟩,
  ⟨ShapeTracker.from_shape [.lit 8], 1, "CPU", 1,
    some (.node (.unary .NEG) (.cons (.buf 0) .nil) .none), Option.none, [3]⟩,
  ⟨ShapeTracker.from_shape [.lit 8], 1, "CPU", 2,
    some (.node (.unary .EXP2) (.cons (.buf 0) .nil) .none), Option.none, [3]⟩,
  ⟨ShapeTracker.from_shape [.lit 8], 1, "CPU", 3,
    some (.node (.binary .ADD) (.cons (.buf 1) (.cons (.buf 2) .nil)) .none),
    Option.none, []⟩]⟩

/-- **C2**: on every well-formed buffer graph, `schedule(root)` produces a
unit list in which the produced outputs (`_buffers[0]`) are pairwise
distinct base buffers (diamond dependencies are not duplicated), the last
unit produces the root's base, and every unrealized dependency of every
unit has its base produced by a strictly earlier unit (`depsOk` with no
prior outputs). -/
theorem schedule_uniqueness_and_order (fuel : Nat) (a : Arena) (i : Nat)
    (a1 : Arena) (units : List SUnit) (hwf : Arena.WF a) (hi : i < a.len)
    (h : LazyBuffer.schedule fuel a i = some (a1, units)) :
    (outsOf units).Nodup ∧
    (∀ o ∈ outsOf units, a.baseOf o = o) ∧
    (outsOf units).getLast? = some (a.baseOf i) ∧
    depsOk a1 [] units = true := by
  obtain ⟨_, _, s3, s4, s5, _, s7⟩ := schedule_spec fuel a i (a1, units) hwf hi h
  exact ⟨s7, fun o ho => (s4 o ho).1, s3, s5⟩

/-- The contiguous `(8,)` tracker of the diamond example. -/
def stD : ShapeTracker := ShapeTracker.from_shape [.lit 8]

/-- A resolved `BufferOps.MEM` leaf over `stD`. -/
def memD (k : Nat) : LazyOp := .node (.buffer .MEM) .nil (.mem ⟨k, 1, stD⟩)

/-- The schedule computed for the diamond example's root. -/
def exDiamondUnits : List SUnit :=
  [ (.node (.load .EMPTY) .nil .none, [0]),
    (.node (.unary .NEG) (.cons (memD 1) .nil) .none, [1, 0]),
    (.node (.unary .EXP2) (.cons (memD 1) .nil) .none, [2, 0]),
    (.node (.binary .ADD) (.cons (memD 1) (.cons (memD 2) .nil)) .none, [3, 1, 2]) ]

theorem schedule_uniqueness_and_order_witness :
    (outsOf exDiamondUnits).Nodup ∧
    (outsOf exDiamondUnits).getLast? = some (exDiamondA.baseOf 3) ∧
    depsOk exDiamondA [] exDiamondUnits = true := by
  obtain ⟨h1, _, h3, h4⟩ := schedule_uniqueness_and_order 3 exDiamondA 3 exDiamondA
    exDiamondUnits (arena_WFb_sound exDiamondA (by decide)) (by decide) (by decide)
  exact ⟨h1, h3, h4⟩

/-- **C4** (amended): for a base whose operation is Elementwise- or
Reduce-category — and in fact for any base whose late-rewritten operation
`op1` (the stored operation, with a stored `CONTIGUOUS` turned into the
elementwise `NOOP` per line 170) is not a load — `schedule` applies the
absorption rewrite stage first and then uses the *post-absorption*
(pre-buffer-resolution) buffer set of the rewritten operation — not the
original pre-absorption leaf set — as the unit's upstream dependencies:
the appended unit is `(resolved-op, (root,)+op2.buffers)` and exactly
`op2.buffers` is iterated for recursive scheduling. -/
theorem schedule_postabsorption_unit (fuel : Nat) (a : Arena) (i : Nat)
    (op0 op1 : LazyOp) (o1 : OpType) (a1 a2 : Arena) (op2 op3 : LazyOp)
    (ret : List SUnit) (seen : List Nat)
    (hbeq : a.baseOf i = i)
    (hop : (a.get i).op = some op0)
    (hop1 : op1 = if (op0.opc == some (OpType.load LoadOps.CONTIGUOUS)) = true
      then LazyOp.node (.unary .NOOP) op0.srcL .none else op0)
    (hoc : op1.opc = some o1) (hload : o1.isLoad = false)
    (hrw : rewriteStage a op1 (a.shapeOf i) = some (a1, op2))
    (hbo : _ast_bufferops a1 op2 = some op3)
    (hsl : schedLoop (LazyBuffer.schedule fuel) a1 op2.buffers [] [] =
      some (a2, ret, seen)) :
    LazyBuffer.schedule (fuel + 1) a i =
      some (a2, ret ++ [(op3, i :: op2.buffers)]) := by
  rw [LazyBuffer.schedule, if_neg (not_not_intro hbeq), hop]
  simp only [Option.bind_eq_bind, Option.some_bind]
  cases hC : (op0.opc == some (OpType.load LoadOps.CONTIGUOUS)) with
  | true =>
    rw [if_pos rfl]
    rw [hC, if_pos rfl] at hop1
    rw [← hop1]
    simp only [hoc]
    rw [if_neg (by rw [hload]; exact Bool.false_ne_true)]
    rw [hrw]
    simp only [Option.bind_eq_bind, Option.some_bind]
    rw [hbo]
    simp only [Option.some_bind]
    rw [hsl]
    simp only [Option.some_bind]
  | false =>
    rw [if_neg Bool.false_ne_true]
    rw [hC, if_neg Bool.false_ne_true] at hop1
    rw [← hop1]
    simp only [hoc]
    rw [if_neg (by rw [hload]; exact Bool.false_ne_true)]
    rw [hrw]
    simp only [Option.bind_eq_bind, Option.some_bind]
    rw [hbo]
    simp only [Option.some_bind]
    rw [hsl]
    simp only [Option.some_bind]

/-- The absorption counterexample graph: `EMPTY (4,)` reduced by `SUM` to
`(1,)`, negated by an elementwise base. -/
def exAbsorbA : Arena := ⟨[
  ⟨ShapeTracker.from_shape [.lit 4], 1, "CPU", 0,
    some (.node (.load .EMPTY) .nil .none), Option.none, [1]⟩,
  ⟨ShapeTracker.from_shape [.lit 1], 1, "CPU", 1,
    some (.node (.reduce .SUM) (.cons (.buf 0) .nil) (.shape [.lit 1])), Option.none, [2]⟩,
  ⟨ShapeTracker.from_shape [.lit 1], 1, "CPU", 2,
    some (.node (.unary .NEG) (.cons (.buf 1) .nil) .none), Option.none, []⟩]⟩

/-- The pre-absorption operation of the root of `exAbsorbA`. -/
def exAbsorbOp0 : LazyOp := .node (.unary .NEG) (.cons (.buf 1) .nil) .none

/-- The post-absorption (pre-buffer-resolution) operation of the root of
`exAbsorbA`: the reduce has been absorbed, so the leaf is buffer 0. -/
def exAbsorbOp2 : LazyOp :=
  .node (.unary .NEG)
    (.cons (.node (.reduce .SUM) (.cons (.buf 0) .nil) (.shape [.lit 1])) .nil) .none

/-- The fully resolved operation of the root of `exAbsorbA`. -/
def exAbsorbOp3 : LazyOp :=
  .node (.unary .NEG)
    (.cons (.node (.reduce .SUM)
      (.cons (.node (.buffer .MEM) .nil
        (.mem ⟨1, 1, ShapeTracker.from_shape [.lit 4]⟩)) .nil)
      (.shape [.lit 1])) .nil) .none

theorem schedule_postabsorption_unit_witness :
    LazyBuffer.schedule 2 exAbsorbA 2 =
      some (exAbsorbA,
        [(.node (.load .EMPTY) .nil .none, [0])] ++
          [(exAbsorbOp3, 2 :: exAbsorbOp2.buffers)]) :=
  schedule_postabsorption_unit 1 exAbsorbA 2 exAbsorbOp0 exAbsorbOp0 (.unary .NEG)
    exAbsorbA exAbsorbA exAbsorbOp2 exAbsorbOp3
    [(.node (.load .EMPTY) .nil .none, [0])] [0]
    (by decide) (by decide) (by decide) (by decide) (by decide)
    (by decide) (by decide) (by decide)

/-- **C4** counterexample to the original claim: in `exAbsorbA` the root's
original (pre-absorption) leaf buffer set is `[1]`, yet the appended unit's
dependency tuple is `(2,)+[0]` (the post-absorption buffers), node 1 is
recursively scheduled by no unit, and `[2, 0] ≠ (2,)+[1]`. -/
theorem schedule_preabsorption_refuted :
    (exAbsorbA.get 2).op = some exAbsorbOp0 ∧
    exAbsorbOp0.buffers = [1] ∧
    LazyBuffer.schedule 2 exAbsorbA 2 =
      some (exAbsorbA,
        [(.node (.load .EMPTY) .nil .none, [0]), (exAbsorbOp3, [2, 0])]) ∧
    [2, 0] ≠ 2 :: exAbsorbOp0.buffers ∧
    1 ∉ outsOf [((.node (.load .EMPTY) .nil .none : LazyOp), ([0] : List Nat)),
      (exAbsorbOp3, [2, 0])] := by
  decide

theorem movement_op_ext (a : Arena) (i : Nat) (st : ShapeTracker) (a' : Arena)
    (i' : Nat) (h : LazyBuffer._movement_op a i st = some (a', i')) : SchedExt a a' := by
  rw [LazyBuffer._movement_op] at h
  by_cases hc : (a.get i).st = st
  · rw [if_pos hc] at h
    obtain ⟨ha, _⟩ := Prod.mk.inj (Option.some.inj h)
    subst ha
    exact SchedExt.refl a
  · rw [if_neg hc] at h
    exact allocView_ext a st _ _ _ a' i' h

theorem reshapeLoop_ext (ish : List SInt) : ∀ (al : List (Nat × Option LazyOp))
    (a a' : Arena) (al' : List (Nat × Option LazyOp)),
    reshapeLoop ish a al = some (a', al') → SchedExt a a' := by
  intro al
  induction al with
  | nil =>
    intro a a' al' h
    rw [reshapeLoop] at h
    obtain ⟨ha, _⟩ := Prod.mk.inj (Option.some.inj h)
    subst ha
    exact SchedExt.refl a
  | cons kv t ih =>
    intro a a' al' h
    match kv, h with
    | (k, Option.none), h =>
      rw [reshapeLoop] at h
      cases hr : LazyBuffer.reshape a k ish with
      | none => rw [hr] at h; exact Option.noConfusion h
      | some p =>
        obtain ⟨a1, k'⟩ := p
        rw [hr] at h
        simp only [Option.bind_eq_bind, Option.some_bind] at h
        cases hrest : reshapeLoop ish a1 t with
        | none => rw [hrest] at h; exact Option.noConfusion h
        | some q =>
          obtain ⟨a2, t'⟩ := q
          rw [hrest] at h
          simp only [Option.some_bind, Option.some.injEq] at h
          obtain ⟨ha, _⟩ := Prod.mk.inj h
          subst ha
          exact (movement_op_ext a k _ a1 k' hr).trans (ih a1 a2 t' hrest)
    | (k, some v), h =>
      rw [reshapeLoop] at h
      cases hrest : reshapeLoop ish a t with
      | none => rw [hrest] at h; exact Option.noConfusion h
      | some q =>
        obtain ⟨a2, t'⟩ := q
        rw [hrest] at h
        simp only [Option.bind_eq_bind, Option.some_bind, Option.some.injEq] at h
        obtain ⟨ha, _⟩ := Prod.mk.inj h
        subst ha
        exact ih a a2 t' hrest

theorem _ast_binaryops_ext (a : Arena) (op : LazyOp) (oshape : List SInt)
    (a1 : Arena) (op2 : LazyOp) (h : _ast_binaryops a op oshape = some (a1, op2)) :
    SchedExt a a1 := by
  rw [_ast_binaryops] at h
  rw [show (if MERGE_ONE_REDUCE_INTO_ELEMENTWISE = true
      then ((pydedup op.buffers).filter (psrcCond a)).map (fun k => (k, absorbTarget a k))
      else []) = ((pydedup op.buffers).filter (psrcCond a)).map
        (fun k => (k, absorbTarget a k)) from rfl] at h
  split at h
  case h_1 psrc rest hps =>
    cases hpop : a.opOf psrc.2 with
    | none => rw [hpop] at h; exact Option.noConfusion h
    | some pop =>
      rw [hpop] at h
      simp only [Option.bind_eq_bind, Option.some_bind] at h
      by_cases hred : (match pop.opc with
          | some oc => oc.isReduce
          | Option.none => false) = true
      · rw [if_pos hred] at h
        by_cases hassert : a.shapeOf psrc.1 ≠ a.shapeOf psrc.2 ∧ a.shapeOf psrc.1 ≠ oshape
        · rw [if_pos hassert] at h
          exact Option.noConfusion h
        · rw [if_neg hassert] at h
          cases hrl : reshapeLoop (if a.shapeOf psrc.1 ≠ a.shapeOf psrc.2
              then a.shapeOf psrc.2 else oshape) a
              ((_ast_reduceops a pop).buffers.foldl
                (fun acc x => alSet acc x (some (.buf x)))
                (alSet ((pydedup op.buffers).map (fun k => (k, Option.none))) psrc.1
                  (some (_ast_reduceops a pop)))) with
          | none => rw [hrl] at h; exact Option.noConfusion h
          | some q =>
            obtain ⟨a2, realF⟩ := q
            rw [hrl] at h
            obtain ⟨ha, _⟩ := Prod.mk.inj (Option.some.inj h)
            subst ha
            exact reshapeLoop_ext _ _ a a2 realF hrl
      · rw [if_neg hred] at h
        exact Option.noConfusion h
  case h_2 hps =>
    cases hrl : reshapeLoop oshape a ((pydedup op.buffers).map (fun k => (k, Option.none))) with
    | none => rw [hrl] at h; exact Option.noConfusion h
    | some q =>
      obtain ⟨a2, realF⟩ := q
      rw [hrl] at h
      obtain ⟨ha, _⟩ := Prod.mk.inj (Option.some.inj h)
      subst ha
      exact reshapeLoop_ext _ _ a a2 realF hrl

theorem rewriteStage_ext (a : Arena) (op1 : LazyOp) (oshape : List SInt)
    (a1 : Arena) (op2 : LazyOp) (h : rewriteStage a op1 oshape = some (a1, op2)) :
    SchedExt a a1 := by
  rw [rewriteStage] at h
  cases hoc : op1.opc with
  | none => rw [hoc] at h; exact Option.noConfusion h
  | some o =>
    simp only [hoc] at h
    by_cases he : o.isElementwise = true
    · rw [if_pos he] at h
      exact _ast_binaryops_ext a op1 oshape a1 op2 h
    · rw [if_neg he] at h
      by_cases hr : o.isReduce = true
      · rw [if_pos hr] at h
        obtain ⟨ha, _⟩ := Prod.mk.inj (Option.some.inj h)
        subst ha
        exact SchedExt.refl a
      · rw [if_neg hr] at h
        obtain ⟨ha, _⟩ := Prod.mk.inj (Option.some.inj h)
        subst ha
        exact SchedExt.refl a

theorem schedLoop_ext (rec : Arena → Nat → Option (Arena × List SUnit))
    (hrec : ∀ (b : Arena) (j : Nat) (q : Arena × List SUnit),
      rec b j = some q → SchedExt b q.1) :
    ∀ (xs : List Nat) (a : Arena) (seen : List Nat) (ret : List SUnit)
      (r : Arena × List SUnit × List Nat),
    schedLoop rec a xs seen ret = some r → SchedExt a r.1 := by
  intro xs
  induction xs with
  | nil =>
    intro a seen ret r h
    rw [schedLoop] at h
    obtain h2 := Option.some.inj h
    rw [← h2]
    exact SchedExt.refl a
  | cons x t ih =>
    intro a seen ret r h
    rw [schedLoop] at h
    by_cases hg : ((a.realizedOf x).isNone = true ∧ x ∉ seen)
    · rw [if_pos hg] at h
      cases hr : rec a x with
      | none => rw [hr] at h; exact Option.noConfusion h
      | some q =>
        obtain ⟨asub, sub⟩ := q
        rw [hr] at h
        simp only [Option.bind_eq_bind, Option.some_bind] at h
        have h' : schedLoop rec asub t (mergeSub seen ret sub).1
            (mergeSub seen ret sub).2 = some r := h
        exact (hrec a x (asub, sub) hr).trans (ih asub _ _ r h')
    · rw [if_neg hg] at h
      exact ih a seen ret r h

theorem schedule_tail_ext (fuel : Nat)
    (ih : ∀ (b : Arena) (j : Nat) (q : Arena × List SUnit),
      LazyBuffer.schedule fuel b j = some q → SchedExt b q.1)
    (a : Arena) (i : Nat) (p : Arena × List SUnit) (op1 op0 : LazyOp)
    (h : (match op1.opc with
      | Option.none => Option.none
      | some o1 =>
        if o1.isLoad then some (a, [(op0, [i])])
        else do
          let (a1, op2) ← rewriteStage a op1 (a.shapeOf i)
          let buffers := op2.buffers
          let op3 ← _ast_bufferops a1 op2
          let (a2, ret, _seen) ← schedLoop (LazyBuffer.schedule fuel) a1 buffers [] []
          some (a2, ret ++ [(op3, i :: buffers)]) : Option (Arena × List SUnit)) = some p) :
    SchedExt a p.1 := by
  cases hoc : op1.opc with
  | none => rw [hoc] at h; exact Option.noConfusion h
  | some o1 =>
    simp only [hoc] at h
    by_cases hl : o1.isLoad = true
    · rw [if_pos hl] at h
      obtain h2 := Option.some.inj h
      rw [← h2]
      exact SchedExt.refl a
    · rw [if_neg hl] at h
      cases hrw : rewriteStage a op1 (a.shapeOf i) with
      | none => rw [hrw] at h; exact Option.noConfusion h
      | some q1 =>
        obtain ⟨a1, op2⟩ := q1
        rw [hrw] at h
        simp only [Option.bind_eq_bind, Option.some_bind] at h
        cases hbo : _ast_bufferops a1 op2 with
        | none => rw [hbo] at h; exact Option.noConfusion h
        | some op3 =>
          rw [hbo] at h
          simp only [Option.some_bind] at h
          cases hsl : schedLoop (LazyBuffer.schedule fuel) a1 op2.buffers [] [] with
          | none => rw [hsl] at h; exact Option.noConfusion h
          | some q2 =>
            rw [hsl] at h
            simp only [Option.some_bind] at h
            obtain h2 := Option.some.inj h
            rw [← h2]
            exact (rewriteStage_ext a op1 _ a1 op2 hrw).trans
              (schedLoop_ext (LazyBuffer.schedule fuel)
                (fun b j q hq => ih b j q hq) op2.buffers a1 [] [] q2 hsl)

theorem schedule_ext : ∀ (fuel : Nat) (a : Arena) (i : Nat)
    (p : Arena × List SUnit), LazyBuffer.schedule fuel a i = some p →
    SchedExt a p.1 := by
  intro fuel
  induction fuel with
  | zero => intro a i p h; exact Option.noConfusion h
  | succ fuel ih =>
    intro a i p h
    rw [LazyBuffer.schedule] at h
    by_cases hbase : a.baseOf i ≠ i
    · rw [if_pos hbase] at h
      exact ih a (a.baseOf i) p h
    · rw [if_neg hbase] at h
      cases hop0 : (a.get i).op with
      | none => rw [hop0] at h; exact Option.noConfusion h
      | some op0 =>
        rw [hop0] at h
        simp only [Option.bind_eq_bind, Option.some_bind] at h
        cases hC : (op0.opc == some (OpType.load LoadOps.CONTIGUOUS)) with
        | true =>
          rw [hC, if_pos rfl] at h
          exact schedule_tail_ext fuel ih a i p
            (LazyOp.node (.unary .NOOP) op0.srcL .none) op0 h
        | false =>
          rw [hC, if_neg Bool.false_ne_true] at h
          exact schedule_tail_ext fuel ih a i p op0 op0 h

/-- Arena evolution during realization: nodes are only appended, base links
of existing nodes are stable, and realization is monotone (a realized slot
is never cleared). -/
def RealExt (a a' : Arena) : Prop :=
  a.len ≤ a'.len ∧
  (∀ j, j < a.len → a'.baseOf j = a.baseOf j) ∧
  (∀ j, j < a.len → (a.realizedOf j).isSome = true → (a'.realizedOf j).isSome = true)

theorem RealExt.idstep (a : Arena) : RealExt a a :=
  ⟨Nat.le_refl _, fun _ _ => rfl, fun _ _ h => h⟩

theorem RealExt.chain {a b c : Arena} (h1 : RealExt a b) (h2 : RealExt b c) :
    RealExt a c := by
  obtain ⟨l1, b1, r1⟩ := h1
  obtain ⟨l2, b2, r2⟩ := h2
  exact ⟨by omega, fun j hj => (b2 j (by omega)).trans (b1 j hj),
    fun j hj hs => r2 j (by omega) (r1 j hj hs)⟩

theorem SchedExt.toRealExt {a a' : Arena} (h : SchedExt a a') : RealExt a a' := by
  obtain ⟨h1, h2, h3⟩ := h
  refine ⟨h1, fun j hj => (h2 j hj).1, ?_⟩
  intro j hj hs
  rw [Arena.realizedOf, Arena.baseOf] at hs ⊢
  rw [(h2 j hj).1]
  by_cases hb : (a.get j).base < a.len
  · rw [(h2 _ hb).2.2.1]
    exact hs
  · have hd : a.get ((a.get j).base) = default := by
      rw [Arena.get]
      exact List.getD_eq_default _ _ (by rw [Arena.len] at hb; omega)
    rw [hd] at hs
    exact Bool.noConfusion hs

theorem setRealized_get_oob (a : Arena) (i : Nat) (v : Nat) (a' : Arena)
    (h : a.setRealized i v = some a') (hlen : a.len ≤ i) : ∀ j, a'.get j = a.get j := by
  rw [Arena.setRealized] at h
  by_cases hb : a.baseOf i = i
  · rw [if_pos hb] at h
    obtain ha := Option.some.inj h
    subst ha
    intro j
    rw [Arena.modifyAt, Arena.get, Arena.get]
    exact getD_set_oob a.nodes i j _ hlen
  · rw [if_neg hb] at h
    exact Option.noConfusion h

theorem setRealized_realext (a : Arena) (i : Nat) (v : Nat) (a' : Arena)
    (h : a.setRealized i v = some a') : RealExt a a' := by
  obtain ⟨hb, hlen, hne, hself⟩ := setRealized_spec a i v a' h
  have hbase : ∀ j, (a'.get j).base = (a.get j).base := by
    intro j
    by_cases hj : j = i
    · subst hj
      by_cases hlt : j < a.len
      · rw [hself hlt]
      · rw [setRealized_get_oob a j v a' h (by omega)]
    · rw [hne j hj]
  refine ⟨by omega, fun j _ => ?_, fun j hj hs => ?_⟩
  · rw [Arena.baseOf, Arena.baseOf, hbase j]
  · rw [Arena.realizedOf, Arena.baseOf] at hs ⊢
    rw [hbase j]
    by_cases hbj : (a.get j).base = i
    · rw [hbj]
      by_cases hlt : i < a.len
      · rw [hself hlt]
        rfl
      · rw [setRealized_get_oob a i v a' h (by omega), ← hbj]
        exact hs
    · rw [hne _ hbj]
      exact hs

theorem setRealized_realizedOf (a : Arena) (i : Nat) (v : Nat) (a' : Arena)
    (h : a.setRealized i v = some a') (hi : i < a.len) :
    (a'.realizedOf i).isSome = true := by
  obtain ⟨hb, hlen, hne, hself⟩ := setRealized_spec a i v a' h
  rw [Arena.realizedOf, Arena.baseOf]
  have hbi : (a'.get i).base = i := by
    rw [hself hi]
    exact hb
  rw [hbi, hself hi]
  rfl

theorem realizeSrcs_ext (rec : Arena → Nat → Option (Arena × List BEvent))
    (hrec : ∀ (b : Arena) (j : Nat) (q : Arena × List BEvent),
      rec b j = some q → RealExt b q.1) :
    ∀ (srcs : List LazyOp) (a : Arena) (evs : List BEvent) (p : Arena × List BEvent),
    realizeSrcs rec a srcs evs = some p → RealExt a p.1 := by
  intro srcs
  induction srcs with
  | nil =>
    intro a evs p h
    rw [realizeSrcs] at h
    obtain h2 := Option.some.inj h
    rw [← h2]
    exact RealExt.idstep a
  | cons s t ih =>
    intro a evs p h
    cases s with
    | node o src arg => exact Option.noConfusion h
    | buf x =>
      have h2 : (do
          let (a1, evs1) ← rec a x
          realizeSrcs rec a1 t (evs ++ evs1) : Option (Arena × List BEvent)) = some p := h
      cases hr : rec a x with
      | none => rw [hr] at h2; exact Option.noConfusion h2
      | some q =>
        obtain ⟨a1, evs1⟩ := q
        rw [hr] at h2
        simp only [Option.bind_eq_bind, Option.some_bind] at h2
        exact (hrec a x (a1, evs1) hr).chain (ih a1 _ p h2)

theorem dispatchLoad_spec (rec : Arena → Nat → Option (Arena × List BEvent))
    (be : Backend)
    (hrec : ∀ (b : Arena) (j : Nat) (q : Arena × List BEvent),
      rec b j = some q → RealExt b q.1)
    (a : Arena) (k : LoadOps) (op : LazyOp) (i : Nat) (p : Arena × List BEvent)
    (h : dispatchLoad rec be a k op i = some p) :
    RealExt a p.1 ∧ (i < a.len → ((p.1).realizedOf i).isSome = true) := by
  cases k with
  | FROM =>
    have h0 : (match op.srcL with
      | LOList.cons (.buf s) _ => do
          let (a1, evs) ← rec a s
          let rb ← a1.realizedOf s
          let a2 ← a1.setRealized i (be.copyFromCPU rb)
          some (a2, evs ++ [BEvent.loadDispatch .FROM i])
      | _ => Option.none : Option (Arena × List BEvent)) = some p := h
    cases hsrc : op.srcL with
    | nil => rw [hsrc] at h0; exact Option.noConfusion h0
    | cons hd tl =>
      rw [hsrc] at h0
      cases hd with
      | node o src arg => exact Option.noConfusion h0
      | buf s =>
        have h1 : (do
            let (a1, evs) ← rec a s
            let rb ← a1.realizedOf s
            let a2 ← a1.setRealized i (be.copyFromCPU rb)
            some (a2, evs ++ [BEvent.loadDispatch .FROM i]) :
            Option (Arena × List BEvent)) = some p := h0
        cases hr : rec a s with
        | none => rw [hr] at h1; exact Option.noConfusion h1
        | some q =>
          obtain ⟨a1, evs⟩ := q
          rw [hr] at h1
          simp only [Option.bind_eq_bind, Option.some_bind] at h1
          cases hrb : a1.realizedOf s with
          | none => rw [hrb] at h1; exact Option.noConfusion h1
          | some rb =>
            rw [hrb] at h1
            simp only [Option.some_bind] at h1
            cases hsr : a1.setRealized i (be.copyFromCPU rb) with
            | none => rw [hsr] at h1; exact Option.noConfusion h1
            | some a2 =>
              rw [hsr] at h1
              simp only [Option.some_bind] at h1
              obtain h2 := Option.some.inj h1
              rw [← h2]
              have e1 := hrec a s (a1, evs) hr
              have e2 := setRealized_realext a1 i _ a2 hsr
              refine ⟨e1.chain e2, ?_⟩
              intro hi
              have e3 : a.len ≤ a1.len := e1.1
              exact setRealized_realizedOf a1 i _ a2 hsr (by omega)
  | RAND =>
    rw [dispatchLoad] at h
    cases hsr : a.setRealized i (be.randBuf op.argOf (a.shapeOf i)) with
    | none => rw [hsr] at h; exact Option.noConfusion h
    | some a1 =>
      rw [hsr] at h
      simp only [Option.bind_eq_bind, Option.some_bind] at h
      obtain h2 := Option.some.inj h
      rw [← h2]
      exact ⟨setRealized_realext a i _ a1 hsr,
        fun hi => setRealized_realizedOf a i _ a1 hsr hi⟩
  | CONST =>
    rw [dispatchLoad] at h
    cases hsr : a.setRealized i (be.constBuf op.argOf) with
    | none => rw [hsr] at h; exact Option.noConfusion h
    | some a1 =>
      rw [hsr] at h
      simp only [Option.bind_eq_bind, Option.some_bind] at h
      obtain h2 := Option.some.inj h
      rw [← h2]
      exact ⟨setRealized_realext a i _ a1 hsr,
        fun hi => setRealized_realizedOf a i _ a1 hsr hi⟩
  | EMPTY =>
    rw [dispatchLoad] at h
    by_cases hall : allInt (a.shapeOf i) = true
    · rw [if_pos hall] at h
      cases hsr : a.setRealized i (be.emptyBuf (natsOf (a.shapeOf i)).prod
          (a.get i).dtype) with
      | none => rw [hsr] at h; exact Option.noConfusion h
      | some a1 =>
        rw [hsr] at h
        simp only [Option.bind_eq_bind, Option.some_bind] at h
        obtain h2 := Option.some.inj h
        rw [← h2]
        exact ⟨setRealized_realext a i _ a1 hsr,
          fun hi => setRealized_realizedOf a i _ a1 hsr hi⟩
    · rw [if_neg hall] at h
      exact Option.noConfusion h
  | CUSTOM =>
    rw [dispatchLoad] at h
    cases hrs : realizeSrcs rec a op.srcL.toList [] with
    | none => rw [hrs] at h; exact Option.noConfusion h
    | some q =>
      obtain ⟨a1, evs⟩ := q
      rw [hrs] at h
      simp only [Option.bind_eq_bind, Option.some_bind] at h
      cases hsr : a1.setRealized i (be.customBuf i (op.srcL.toList.map
          (fun s => match s with | .buf x => a1.realizedOf x | _ => Option.none))) with
      | none => rw [hsr] at h; exact Option.noConfusion h
      | some a2 =>
        rw [hsr] at h
        simp only [Option.some_bind] at h
        obtain h2 := Option.some.inj h
        rw [← h2]
        have e1 := realizeSrcs_ext rec hrec op.srcL.toList a [] (a1, evs) hrs
        have e2 := setRealized_realext a1 i _ a2 hsr
        refine ⟨e1.chain e2, ?_⟩
        intro hi
        have e3 : a.len ≤ a1.len := e1.1
        exact setRealized_realizedOf a1 i _ a2 hsr (by omega)
  | CONTIGUOUS =>
    rw [dispatchLoad] at h
    exact Option.noConfusion h

/-- The execution loop of `realize` (lines 188–197): the arena only evolves
by realization-monotone steps, and the produced buffer of every unit is
realized on success. -/
theorem unitLoop_spec (rec : Arena → Nat → Option (Arena × List BEvent)) (be : Backend)
    (hrec : ∀ (b : Arena) (j : Nat) (q : Arena × List BEvent),
      rec b j = some q → RealExt b q.1) :
    ∀ (units : List SUnit) (a : Arena) (evs : List BEvent) (p : Arena × List BEvent),
    unitLoop rec be a units evs = some p →
    RealExt a p.1 ∧
    ∀ u ∈ units, u.2.headI < a.len → ((p.1).realizedOf u.2.headI).isSome = true := by
  intro units
  induction units with
  | nil =>
    intro a evs p h
    have h0 : (some (a, evs) : Option (Arena × List BEvent)) = some p := h
    obtain h2 := Option.some.inj h0
    rw [← h2]
    exact ⟨RealExt.idstep a, fun u hu => absurd hu (List.not_mem_nil u)⟩
  | cons u t ih =>
    intro a evs p h
    obtain ⟨uop, ubufs⟩ := u
    have h0 : (do
        let hd ← ubufs.head?
        match uop.opc with
        | Option.none => Option.none
        | some o =>
          match o with
          | .load k => do
              let (a1, evs1) ← dispatchLoad rec be a k uop hd
              unitLoop rec be a1 t (evs ++ evs1)
          | _ => do
              let realized_bufs :=
                pydedup (((ubufs.drop 1).filter (fun x => be.kernelArg (a.get x))).map
                  a.realizedOf)
              let a1 ← a.setRealized hd (be.execAST uop hd realized_bufs)
              unitLoop rec be a1 t (evs ++ [.exec hd]) : Option (Arena × List BEvent)) =
        some p := h
    cases hhd : ubufs.head? with
    | none => rw [hhd] at h0; exact Option.noConfusion h0
    | some hd =>
      rw [hhd] at h0
      simp only [Option.bind_eq_bind, Option.some_bind] at h0
      have hheadI : ubufs.headI = hd := by
        cases ubufs with
        | nil => exact Option.noConfusion hhd
        | cons z zs =>
          rw [show (z :: zs).headI = z from rfl]
          exact Option.some.inj hhd
      cases hoc : uop.opc with
      | none => rw [hoc] at h0; exact Option.noConfusion h0
      | some o =>
        simp only [hoc] at h0
        have hexec : ∀ (h1 : (do
            let a1 ← a.setRealized hd (be.execAST uop hd
              (pydedup (((ubufs.drop 1).filter (fun x => be.kernelArg (a.get x))).map
                a.realizedOf)))
            unitLoop rec be a1 t (evs ++ [.exec hd]) :
            Option (Arena × List BEvent)) = some p),
            RealExt a p.1 ∧ (hd < a.len → ((p.1).realizedOf hd).isSome = true) ∧
            ∀ v ∈ t, v.2.headI < a.len → ((p.1).realizedOf v.2.headI).isSome = true := by
          intro h1
          cases hsr : a.setRealized hd (be.execAST uop hd
              (pydedup (((ubufs.drop 1).filter (fun x => be.kernelArg (a.get x))).map
                a.realizedOf))) with
          | none => rw [hsr] at h1; exact Option.noConfusion h1
          | some a1 =>
            rw [hsr] at h1
            simp only [Option.bind_eq_bind, Option.some_bind] at h1
            obtain ⟨e1, e2⟩ := ih a1 (evs ++ [.exec hd]) p h1
            have r1 := setRealized_realext a hd _ a1 hsr
            have hlen : a1.len = a.len := (setRealized_spec a hd _ a1 hsr).2.1
            refine ⟨r1.chain e1, ?_, ?_⟩
            · intro hhda
              have hr0 := setRealized_realizedOf a hd _ a1 hsr hhda
              exact e1.2.2 hd (by omega) hr0
            · intro v hv hvl
              exact e2 v hv (by omega)
        have hloadc : ∀ (k : LoadOps) (h1 : (do
            let (a1, evs1) ← dispatchLoad rec be a k uop hd
            unitLoop rec be a1 t (evs ++ evs1) :
            Option (Arena × List BEvent)) = some p),
            RealExt a p.1 ∧ (hd < a.len → ((p.1).realizedOf hd).isSome = true) ∧
            ∀ v ∈ t, v.2.headI < a.len → ((p.1).realizedOf v.2.headI).isSome = true := by
          intro k h1
          cases hdl : dispatchLoad rec be a k uop hd with
          | none => rw [hdl] at h1; exact Option.noConfusion h1
          | some q =>
            obtain ⟨a1, evs1⟩ := q
            rw [hdl] at h1
            simp only [Option.bind_eq_bind, Option.some_bind] at h1
            obtain ⟨d1, d2⟩ := dispatchLoad_spec rec be hrec a k uop hd (a1, evs1) hdl
            obtain ⟨e1, e2⟩ := ih a1 (evs ++ evs1) p h1
            have hlen : a.len ≤ a1.len := d1.1
            refine ⟨d1.chain e1, ?_, ?_⟩
            · intro hhda
              exact e1.2.2 hd (by omega) (d2 hhda)
            · intro v hv hvl
              exact e2 v hv (by omega)
        have main : RealExt a p.1 ∧ (hd < a.len → ((p.1).realizedOf hd).isSome = true) ∧
            ∀ v ∈ t, v.2.headI < a.len → ((p.1).realizedOf v.2.headI).isSome = true := by
          cases o with
          | load k => exact hloadc k h0
          | unary uo => exact hexec h0
          | binary bo => exact hexec h0
          | ternary to2 => exact hexec h0
          | reduce ro => exact hexec h0
          | buffer bo => exact hexec h0
        obtain ⟨m1, m2, m3⟩ := main
        refine ⟨m1, ?_⟩
        intro v hv hvl
        rcases List.mem_cons.mp hv with hv1 | hv1
        · rw [hv1] at hvl ⊢
          rw [show ((uop, ubufs) : SUnit).2.headI = ubufs.headI from rfl, hheadI] at hvl ⊢
          exact m2 hvl
        · exact m3 v hv1 hvl

/-- Unconditional realization-monotonicity of `realize`. -/
theorem realize_ext (be : Backend) : ∀ (fuel : Nat) (a : Arena) (i : Nat)
    (p : Arena × List BEvent), LazyBuffer.realize be fuel a i = some p →
    RealExt a p.1 := by
  intro fuel
  induction fuel with
  | zero => intro a i p h; exact Option.noConfusion h
  | succ fuel ih =>
    intro a i p h
    rw [LazyBuffer.realize] at h
    by_cases hre : (a.realizedOf i).isSome = true
    · rw [if_pos hre] at h
      obtain h2 := Option.some.inj h
      rw [← h2]
      exact RealExt.idstep a
    · rw [if_neg hre] at h
      cases hs : LazyBuffer.schedule fuel a i with
      | none => rw [hs] at h; exact Option.noConfusion h
      | some q =>
        obtain ⟨a1, sched⟩ := q
        rw [hs] at h
        simp only [Option.bind_eq_bind, Option.some_bind] at h
        exact ((schedule_ext fuel a i (a1, sched) hs).toRealExt).chain
          (unitLoop_spec (LazyBuffer.realize be fuel) be
            (fun b j q2 hq => ih b j q2 hq) sched a1 [] p h).1

/-- On a well-formed arena, a successful `realize` leaves the requested
buffer realized. -/
theorem realize_spec (be : Backend) (fuel : Nat) (a : Arena) (i : Nat)
    (p : Arena × List BEvent) (hwf : Arena.WF a) (hi : i < a.len)
    (h : LazyBuffer.realize be fuel a i = some p) :
    RealExt a p.1 ∧ ((p.1).realizedOf i).isSome = true := by
  cases fuel with
  | zero => exact Option.noConfusion h
  | succ fuel =>
    rw [LazyBuffer.realize] at h
    by_cases hre : (a.realizedOf i).isSome = true
    · rw [if_pos hre] at h
      obtain h2 := Option.some.inj h
      rw [← h2]
      exact ⟨RealExt.idstep a, hre⟩
    · rw [if_neg hre] at h
      cases hs : LazyBuffer.schedule fuel a i with
      | none => rw [hs] at h; exact Option.noConfusion h
      | some q =>
        obtain ⟨a1, sched⟩ := q
        rw [hs] at h
        simp only [Option.bind_eq_bind, Option.some_bind] at h
        obtain ⟨s1, s2, s3, s4, s5, s6, s7⟩ := schedule_spec fuel a i (a1, sched) hwf hi hs
        obtain ⟨r1, r2⟩ := unitLoop_spec (LazyBuffer.realize be fuel) be
          (fun b j q2 hq => realize_ext be fuel b j q2 hq) sched a1 [] p h
        have hlastU : ∃ u ∈ sched, u.2.headI = a.baseOf i := by
          have hmem := lastMem _ _ s3
          rw [outsOf] at hmem
          obtain ⟨u, hu, he⟩ := List.mem_map.mp hmem
          exact ⟨u, hu, he⟩
        obtain ⟨u, hu, hue⟩ := hlastU
        have hbl : a.baseOf i < a.len := by
          have := (hwf i hi).1
          rw [Arena.baseOf]
          omega
        have hlen1 : a.len ≤ a1.len := s1.1
        have hreal : ((p.1).realizedOf (a.baseOf i)).isSome = true := by
          have h4 := r2 u hu (by rw [hue]; omega)
          rwa [hue] at h4
        have hext := (s1.toRealExt).chain r1
        refine ⟨hext, ?_⟩
        have hb1 : (p.1).baseOf i = a.baseOf i := hext.2.1 i hi
        have hb2 : (p.1).baseOf (a.baseOf i) = a.baseOf i := by
          rw [hext.2.1 (a.baseOf i) hbl]
          rw [Arena.baseOf, Arena.baseOf]
          exact (hwf i hi).2.1
        rw [Arena.realizedOf, hb1]
        rw [Arena.realizedOf, hb2] at hreal
        exact hreal

/-- **C5**: realize is memoized and idempotent.  After any successful
`realize`, the buffer is realized; a second call (with any positive fuel)
on the resulting arena is a pure no-op returning the same arena and
performing no backend work; and when the buffer was already realized, the
first call itself changed nothing and performed no backend work. -/
theorem realize_memoization_idempotence (be : Backend) (fuel fuel2 : Nat)
    (a : Arena) (i : Nat) (a1 : Arena) (evs : List BEvent)
    (hwf : Arena.WF a) (hi : i < a.len) (hf2 : 0 < fuel2)
    (h : LazyBuffer.realize be fuel a i = some (a1, evs)) :
    (a1.realizedOf i).isSome = true ∧
    LazyBuffer.realize be fuel2 a1 i = some (a1, []) ∧
    ((a.realizedOf i).isSome = true → a1 = a ∧ evs = []) := by
  obtain ⟨r1, r2⟩ := realize_spec be fuel a i (a1, evs) hwf hi h
  refine ⟨r2, ?_, ?_⟩
  · cases fuel2 with
    | zero => omega
    | succ f2 => rw [LazyBuffer.realize, if_pos r2]
  · intro hre
    cases fuel with
    | zero => exact Option.noConfusion h
    | succ f =>
      rw [LazyBuffer.realize, if_pos hre] at h
      obtain h2 := Option.some.inj h
      exact ⟨(congrArg Prod.fst h2).symm, (congrArg Prod.snd h2).symm⟩

/-- A single unrealized `EMPTY (2,)` base. -/
def exRealA : Arena := ⟨[⟨ShapeTracker.from_shape [.lit 2], 1, "CPU", 0,
  some (.node (.load .EMPTY) .nil .none), Option.none, []⟩]⟩

/-- The same arena after realization (the backend token is 7). -/
def exRealA1 : Arena := ⟨[⟨ShapeTracker.from_shape [.lit 2], 1, "CPU", 0,
  some (.node (.load .EMPTY) .nil .none), some 7, []⟩]⟩

/-- A constant test backend whose every handler returns token 7. -/
def exBE : Backend := ⟨fun _ _ _ => 7, fun _ => 7, fun _ _ => 7, fun _ => 7,
  fun _ _ => 7, fun _ _ => 7, fun _ => true⟩

theorem realize_memoization_idempotence_witness :
    (exRealA1.realizedOf 0).isSome = true ∧
    LazyBuffer.realize exBE 1 exRealA1 0 = some (exRealA1, []) := by
  obtain ⟨h1, h2, _⟩ := realize_memoization_idempotence exBE 2 1 exRealA 0 exRealA1
    [.loadDispatch .EMPTY 0] (arena_WFb_sound exRealA (by decide)) (by decide)
    (by decide) (by decide)
  exact ⟨h1, h2⟩
